import Mathlib

/-!
# Typed dataflow pipeline (pipeline.h / pipeline.cpp)

A shallow embedding of the graph store and the graph analyses of the
`ppl::pipeline` class, followed by theorems about it.

Conventions of the embedding

* `std::map<int, V>` is an association list `List (Int × V)` whose keys are kept in
  ascending order by `map_emplace`; iteration order of the C++ container is
  the order of the list.  `std::set<int>` is an ascending `List Int`.
* a member function that may throw is a function from the state before the
  call to an `outcome`: the value returned or the exception thrown, together
  with the state the object is left in.
* `std::type_index` values are natural numbers, `typeid(void)` being `0`.
* recursion of the depth-first searches is bounded by an explicit `fuel`
  argument; the theorems about them show that enough fuel always exists.
-/

namespace ppl

/-! ## Containers -/

/-- The type `std::map<int, V>`: pairs (key, value), ascending in the key. -/
abbrev std_map (V : Type) := List (Int × V)

/-- The type `std::set<int>`: ascending list of elements. -/
abbrev std_set := List Int

/-- Lookup of a key, `none` when `std::map::at` would throw `std::out_of_range`
(or `find` would return `end()`). -/
def map_find {V : Type} : std_map V → Int → Option V
  | [], _ => none
  | (k', v) :: m, k => if k' = k then some v else map_find m k

/-- Member `std::map::contains`. -/
def map_contains {V : Type} (m : std_map V) (k : Int) : Bool :=
  (map_find m k).isSome

/-- Insertion of a pair at its place in the key order. -/
def map_insert_sorted {V : Type} : std_map V → Int → V → std_map V
  | [], k, v => [(k, v)]
  | (k', v') :: m, k, v =>
    if k < k' then (k, v) :: (k', v') :: m else (k', v') :: map_insert_sorted m k v

/-- Member `std::map::emplace`: inserts unless the key is already present. -/
def map_emplace {V : Type} (m : std_map V) (k : Int) (v : V) : std_map V :=
  if map_contains m k then m else map_insert_sorted m k v

/-- Member `std::map::erase(key)`. -/
def map_erase {V : Type} (m : std_map V) (k : Int) : std_map V :=
  m.filter (fun p => decide (p.1 ≠ k))

/-- In-place update `m.at(k) = f(m.at(k))` of the value stored under an existing key. -/
def map_modify {V : Type} (m : std_map V) (k : Int) (f : V → V) : std_map V :=
  m.map (fun p => if p.1 = k then (p.1, f p.2) else p)

/-- Keys of a map, in iteration order. -/
def map_keys {V : Type} (m : std_map V) : List Int := m.map Prod.fst

/-- Insertion of an element at its place in the order. -/
def set_insert_sorted : std_set → Int → std_set
  | [], k => [k]
  | k' :: m, k => if k < k' then k :: k' :: m else k' :: set_insert_sorted m k

/-- Member `std::set::insert`. -/
def set_insert (m : std_set) (k : Int) : std_set :=
  if k ∈ m then m else set_insert_sorted m k

/-- Member `std::set::erase`. -/
def set_erase (m : std_set) (k : Int) : std_set :=
  m.filter (fun x => decide (x ≠ k))

/-! ## Data model -/

/-- Errors that may occur in a pipeline. -/
inductive pipeline_error_kind
  | invalid_node_id
  | no_such_slot
  | slot_already_used
  | connection_type_mismatch
  deriving DecidableEq, Repr

/-- What a call can raise: `ppl::pipeline_error`, the `std::out_of_range` of
`map::at` and `vector::at`, undefined behaviour (dereferencing `begin()` of an
empty map), and exhaustion of the fuel of the embedding. -/
inductive exception
  | pipeline_error (kind : pipeline_error_kind)
  | out_of_range
  | undefined_behaviour
  | out_of_fuel
  deriving DecidableEq, Repr

/-- Result of polling a node. -/
inductive poll
  | ready
  | empty
  | closed
  deriving DecidableEq, Repr

/-- A value of `std::type_index`. -/
abbrev type_index := Nat

/-- The value `std::type_index(typeid(void))`. -/
def typeid_void : type_index := 0

/-- The private data members of `ppl::node`. -/
structure node where
  input_types_ : List type_index
  output_type_ : type_index
  is_source : Bool
  is_sink : Bool
  deriving DecidableEq, Repr

/-- What `create_node<N>` reads off the node type `N`: the element types of
`N::input_type`, the type `N::output_type` (`typeid_void` for `void`), and
whether `N` is derived from `component<std::tuple<>, N::output_type>`.  A
`concrete_node` is derived from `producer<N::output_type>`, and from no other
`producer` (its base `node` would be ambiguous), so it is derived from
`producer<void>` exactly when `N::output_type` is `void`. -/
structure concrete_node where
  input_type : List type_index
  output_type : type_index
  derived_from_source : Bool
  deriving DecidableEq, Repr

/-- The data members of `ppl::pipeline`. -/
structure pipeline where
  nodes_ : std_map node
  latest_id_ : Int
  node_polls_ : std_map poll
  nodes_to_ : std_map std_set
  nodes_from_ : std_map (std_map Int)
  deriving DecidableEq, Repr

deriving instance DecidableEq for Except

/-- The state after a call together with what the call returned or threw. -/
structure outcome (α : Type) where
  result : Except exception α
  state : pipeline

/-- Largest value of `int`. -/
def INT_MAX : Int := 2147483647

/-- Smallest value of `int`. -/
def INT_MIN : Int := -2147483648

/-- Conversion `static_cast<std::size_t>` of an `int` (64-bit `size_t`). -/
def static_cast_size_t (i : Int) : Nat := (i % 2 ^ 64).toNat

namespace pipeline

/-- The value-initialised pipeline `ppl::pipeline{}`. -/
def init : pipeline :=
  { nodes_ := [], latest_id_ := 0, node_polls_ := [], nodes_to_ := [], nodes_from_ := [] }

/-- The node object built by `std::make_unique<N>`, as far as the members of
`ppl::node` go: no input types yet, `output_type_` initialised to
`typeid(void)`; the two flags are not initialised by the constructor and are
assigned by `create_node` before anything reads them. -/
def fresh_node : node :=
  { input_types_ := [], output_type_ := typeid_void, is_source := false, is_sink := false }

/-- Member `create_node<N>`: the new state and the id returned.  The increment
of `latest_id_` is that of the C++ `int`, defined while `latest_id_ < INT_MAX`.
After the three `emplace` calls the key `latest_id_` is present, so the calls
`nodes_.at(latest_id_)` do not throw; `fill_types` appends the input types. -/
def create_node (N : concrete_node) (s : pipeline) : pipeline × Int :=
  let latest_id_ := s.latest_id_ + 1
  let nodes_ := map_emplace s.nodes_ latest_id_ fresh_node
  let nodes_from_ := map_emplace s.nodes_from_ latest_id_ []
  let nodes_to_ := map_emplace s.nodes_to_ latest_id_ []
  let nodes_ := map_modify nodes_ latest_id_
    (fun n => { n with input_types_ := n.input_types_ ++ N.input_type })
  let nodes_ :=
    if N.output_type ≠ typeid_void then
      map_modify nodes_ latest_id_ (fun n => { n with output_type_ := N.output_type })
    else nodes_
  let nodes_ := map_modify nodes_ latest_id_
    (fun n => { n with is_source := N.derived_from_source })
  let nodes_ := map_modify nodes_ latest_id_
    (fun n => { n with is_sink := decide (N.output_type = typeid_void) })
  ({ s with
      latest_id_ := latest_id_
      nodes_ := nodes_
      nodes_from_ := nodes_from_
      nodes_to_ := nodes_to_ }, latest_id_)

/-- Member `connect`.  The callback `node::connect` of the destination node
runs after the four checks and before the tables are written; it is user code
and does not touch the pipeline. -/
def connect (src dst slot : Int) (s : pipeline) : outcome Unit :=
  if !(map_contains s.nodes_ src) || !(map_contains s.nodes_ dst) then
    ⟨.error (.pipeline_error .invalid_node_id), s⟩
  else
    match map_find s.nodes_ dst with
    | none => ⟨.error .out_of_range, s⟩
    | some d =>
      let input_types := d.input_types_
      match map_find s.nodes_from_ dst with
      | none => ⟨.error .out_of_range, s⟩
      | some slots =>
        if map_contains slots slot then
          ⟨.error (.pipeline_error .slot_already_used), s⟩
        else if decide (input_types.length ≤ static_cast_size_t slot) || decide (slot < 0) then
          ⟨.error (.pipeline_error .no_such_slot), s⟩
        else
          match input_types[static_cast_size_t slot]?, map_find s.nodes_ src with
          | none, _ => ⟨.error .out_of_range, s⟩
          | some _, none => ⟨.error .out_of_range, s⟩
          | some t, some sn =>
            if t ≠ sn.output_type_ then
              ⟨.error (.pipeline_error .connection_type_mismatch), s⟩
            else
              let s1 := { s with
                nodes_from_ := map_modify s.nodes_from_ dst (fun m => map_emplace m slot src) }
              match map_find s1.nodes_to_ src with
              | none => ⟨.error .out_of_range, s1⟩
              | some _ =>
                ⟨.ok (), { s1 with
                  nodes_to_ := map_modify s1.nodes_to_ src (fun t => set_insert t dst) }⟩

/-- Member `disconnect`. -/
def disconnect (src dst : Int) (s : pipeline) : outcome Unit :=
  if !(map_contains s.nodes_ src) || !(map_contains s.nodes_ dst) then
    ⟨.error (.pipeline_error .invalid_node_id), s⟩
  else
    match map_find s.nodes_to_ src with
    | none => ⟨.error .out_of_range, s⟩
    | some tos =>
      if dst ∈ tos then
        let s1 := { s with
          nodes_to_ := map_modify s.nodes_to_ src (fun t => set_erase t dst) }
        match map_find s1.nodes_from_ dst with
        | none => ⟨.error .out_of_range, s1⟩
        | some slots =>
          let removed_slots := (slots.filter (fun slot => decide (slot.2 = src))).map Prod.fst
          ⟨.ok (), { s1 with
            nodes_from_ := map_modify s1.nodes_from_ dst
              (fun m => removed_slots.foldl (fun m slot => map_erase m slot) m) }⟩
      else
        ⟨.ok (), s⟩

/-- The two loops of `erase_node` that call `disconnect` for every recorded
neighbour; `incoming` tells whether the neighbour is the producer
(`disconnect(node, n_id)`) or the consumer (`disconnect(n_id, node)`).  An
exception leaves the loop. -/
def disconnect_each (incoming : Bool) (n_id : Int) : List Int → pipeline → outcome Unit
  | [], s => ⟨.ok (), s⟩
  | nb :: rest, s =>
    match (if incoming then disconnect nb n_id s else disconnect n_id nb s) with
    | ⟨.error e, s1⟩ => ⟨.error e, s1⟩
    | ⟨.ok _, s1⟩ => disconnect_each incoming n_id rest s1

/-- Member `erase_node`. -/
def erase_node (n_id : Int) (s : pipeline) : outcome Unit :=
  if !(map_contains s.nodes_ n_id) then
    ⟨.error (.pipeline_error .invalid_node_id), s⟩
  else
    match map_find s.nodes_from_ n_id with
    | none => ⟨.error .out_of_range, s⟩
    | some slots =>
      let disconnected_nodes_from := slots.map Prod.snd
      match disconnect_each true n_id disconnected_nodes_from s with
      | ⟨.error e, s1⟩ => ⟨.error e, s1⟩
      | ⟨.ok _, s1⟩ =>
        match map_find s1.nodes_to_ n_id with
        | none => ⟨.error .out_of_range, s1⟩
        | some disconnected_nodes_to =>
          match disconnect_each false n_id disconnected_nodes_to s1 with
          | ⟨.error e, s2⟩ => ⟨.error e, s2⟩
          | ⟨.ok _, s2⟩ =>
            ⟨.ok (), { s2 with
              nodes_ := map_erase s2.nodes_ n_id
              nodes_to_ := map_erase s2.nodes_to_ n_id
              nodes_from_ := map_erase s2.nodes_from_ n_id }⟩

/-- The inner loop of `get_dependencies`: the slots of `dst_node` filled by `src`. -/
def dependencies_of (src dst_node : Int) (slots : std_map Int) : List (Int × Int) :=
  (slots.filter (fun slot => decide (slot.2 = src))).map (fun slot => (dst_node, slot.1))

/-- The outer loop of `get_dependencies` over `nodes_to_.at(src)`. -/
def dependencies_loop (src : Int) (nodes_from_ : std_map (std_map Int)) :
    List Int → List (Int × Int) → Except exception (List (Int × Int))
  | [], dependencies => .ok dependencies
  | dst_node :: rest, dependencies =>
    match map_find nodes_from_ dst_node with
    | none => .error .out_of_range
    | some slots =>
      dependencies_loop src nodes_from_ rest (dependencies ++ dependencies_of src dst_node slots)

/-- Member `get_dependencies` (a `const` member: the state is not changed). -/
def get_dependencies (src : Int) (s : pipeline) : Except exception (List (Int × Int)) :=
  if !(map_contains s.nodes_ src) then
    .error (.pipeline_error .invalid_node_id)
  else
    match map_find s.nodes_to_ src with
    | none => .error .out_of_range
    | some tos => dependencies_loop src s.nodes_from_ tos []

end pipeline

/-! ## Graph analyses (pipeline.cpp) -/

namespace internal

/-- Assignment `m.at(k) = v`; `none` when `at` throws `std::out_of_range`. -/
def map_set_at {V : Type} (m : std_map V) (k : Int) (v : V) : Option (std_map V) :=
  if map_contains m k then some (map_modify m k (fun _ => v)) else none

/-- The `for` loop of `dfs_forwards` over `nodes_to_.at(node)`; `call` is the
recursive call. -/
def dfs_forwards_loop
    (call : List Int → Int → std_map Bool → Except exception (List Int × std_map Bool)) :
    List Int → List Int → std_map Bool → Except exception (List Int × std_map Bool)
  | [], stack, visited => .ok (stack, visited)
  | node :: rest, stack, visited =>
    match map_find visited node with
    | none => .error .out_of_range
    | some true => dfs_forwards_loop call rest stack visited
    | some false =>
      match call stack node visited with
      | .error e => .error e
      | .ok (stack1, visited1) => dfs_forwards_loop call rest stack1 visited1

/-- Function `dfs_forwards`; the stack is a list whose head is the top. -/
def dfs_forwards : Nat → List Int → Int → std_map Bool → std_map std_set →
    Except exception (List Int × std_map Bool)
  | 0, _, _, _, _ => .error .out_of_fuel
  | fuel + 1, stack, node, visited, nodes_to_ =>
    match map_set_at visited node true with
    | none => .error .out_of_range
    | some visited1 =>
      match map_find nodes_to_ node with
      | none => .error .out_of_range
      | some tos =>
        match dfs_forwards_loop (fun st n vis => dfs_forwards fuel st n vis nodes_to_)
            tos stack visited1 with
        | .error e => .error e
        | .ok (stack1, visited2) => .ok (node :: stack1, visited2)

/-- The `for` loop of `dfs_backwards` over the slots of `nodes_from_.at(node)`. -/
def dfs_backwards_loop (call : Int → std_map Bool → Except exception (std_map Bool)) :
    List (Int × Int) → std_map Bool → Except exception (std_map Bool)
  | [], visited => .ok visited
  | slot :: rest, visited =>
    let dst := slot.2
    match map_find visited dst with
    | none => .error .out_of_range
    | some true => dfs_backwards_loop call rest visited
    | some false =>
      match call dst visited with
      | .error e => .error e
      | .ok visited1 => dfs_backwards_loop call rest visited1

/-- Function `dfs_backwards`. -/
def dfs_backwards : Nat → Int → std_map Bool → std_map (std_map Int) →
    Except exception (std_map Bool)
  | 0, _, _, _ => .error .out_of_fuel
  | fuel + 1, node, visited, nodes_from_ =>
    match map_set_at visited node true with
    | none => .error .out_of_range
    | some visited1 =>
      match map_find nodes_from_ node with
      | none => .error .out_of_range
      | some slots =>
        dfs_backwards_loop (fun n vis => dfs_backwards fuel n vis nodes_from_) slots visited1

/-- The loops that fill a `visited` map with `false` for every node. -/
def all_false (nodes_ : std_map node) : std_map Bool :=
  nodes_.foldl (fun visited nd => map_emplace visited nd.1 false) []

/-- The last loop of `is_connected`. -/
def is_connected_loop (visited_forwards visited_backwards : std_map Bool) :
    List (Int × node) → Except exception Bool
  | [] => .ok true
  | nd :: rest =>
    match map_find visited_forwards nd.1, map_find visited_backwards nd.1 with
    | none, _ => .error .out_of_range
    | some true, _ => is_connected_loop visited_forwards visited_backwards rest
    | some false, none => .error .out_of_range
    | some false, some false => .ok false
    | some false, some true => is_connected_loop visited_forwards visited_backwards rest

/-- Function `is_connected`.  On an empty node map `nodes_.begin()->first`
dereferences the end iterator. -/
def is_connected (fuel : Nat) (nodes_ : std_map node) (nodes_to_ : std_map std_set)
    (nodes_from_ : std_map (std_map Int)) : Except exception Bool :=
  let visited_forwards := all_false nodes_
  let visited_backwards := all_false nodes_
  match nodes_ with
  | [] => .error .undefined_behaviour
  | first :: _ =>
    match dfs_forwards fuel [] first.1 visited_forwards nodes_to_ with
    | .error e => .error e
    | .ok (_, visited_forwards1) =>
      match dfs_backwards fuel first.1 visited_backwards nodes_from_ with
      | .error e => .error e
      | .ok visited_backwards1 => is_connected_loop visited_forwards1 visited_backwards1 nodes_

/-- The `for` loop of `check_cycle` over `nodes_to_.at(node)`. -/
def check_cycle_loop
    (call : Int → std_map Bool → std_map Bool →
      Except exception (Bool × std_map Bool × std_map Bool)) :
    List Int → std_map Bool → std_map Bool →
      Except exception (Bool × std_map Bool × std_map Bool)
  | [], visited, in_stack => .ok (false, visited, in_stack)
  | v :: rest, visited, in_stack =>
    match call v visited in_stack with
    | .error e => .error e
    | .ok (true, visited1, in_stack1) => .ok (true, visited1, in_stack1)
    | .ok (false, visited1, in_stack1) => check_cycle_loop call rest visited1 in_stack1

/-- Function `check_cycle`: the value returned and the two maps it updates. -/
def check_cycle : Nat → Int → std_map Bool → std_map Bool → std_map std_set →
    Except exception (Bool × std_map Bool × std_map Bool)
  | 0, _, _, _, _ => .error .out_of_fuel
  | fuel + 1, node, visited, in_stack, nodes_to_ =>
    match map_find in_stack node with
    | none => .error .out_of_range
    | some true => .ok (true, visited, in_stack)
    | some false =>
      match map_find visited node with
      | none => .error .out_of_range
      | some true => .ok (false, visited, in_stack)
      | some false =>
        match map_set_at visited node true with
        | none => .error .out_of_range
        | some visited1 =>
          match map_set_at in_stack node true with
          | none => .error .out_of_range
          | some in_stack1 =>
            match map_find nodes_to_ node with
            | none => .error .out_of_range
            | some tos =>
              match check_cycle_loop (fun v vis stk => check_cycle fuel v vis stk nodes_to_)
                  tos visited1 in_stack1 with
              | .error e => .error e
              | .ok (true, visited2, in_stack2) => .ok (true, visited2, in_stack2)
              | .ok (false, visited2, in_stack2) =>
                match map_set_at in_stack2 node false with
                | none => .error .out_of_range
                | some in_stack3 => .ok (false, visited2, in_stack3)

/-- The second loop of `has_cycle`, over all nodes. -/
def has_cycle_loop (fuel : Nat) (nodes_to_ : std_map std_set) :
    List (Int × node) → std_map Bool → std_map Bool → Except exception Bool
  | [], _, _ => .ok false
  | nd :: rest, visited, in_stack =>
    match check_cycle fuel nd.1 visited in_stack nodes_to_ with
    | .error e => .error e
    | .ok (true, _, _) => .ok true
    | .ok (false, visited1, in_stack1) => has_cycle_loop fuel nodes_to_ rest visited1 in_stack1

/-- Function `has_cycle`. -/
def has_cycle (fuel : Nat) (nodes_ : std_map node) (nodes_to_ : std_map std_set) :
    Except exception Bool :=
  has_cycle_loop fuel nodes_to_ nodes_ (all_false nodes_) (all_false nodes_)

/-- The loop shared by `dfs_forwards` and `dfs_backwards` when the stack is left
out: the neighbours not yet visited are searched in turn. -/
def dfs_visit_loop (call : Int → std_map Bool → Except exception (std_map Bool)) :
    List Int → std_map Bool → Except exception (std_map Bool)
  | [], visited => .ok visited
  | node :: rest, visited =>
    match map_find visited node with
    | none => .error .out_of_range
    | some true => dfs_visit_loop call rest visited
    | some false =>
      match call node visited with
      | .error e => .error e
      | .ok visited1 => dfs_visit_loop call rest visited1

/-- The search shared by `dfs_forwards` and `dfs_backwards`; `succ` lists the
neighbours of a node in the order the loop visits them, `none` where `at` throws. -/
def dfs_visit (succ : Int → Option (List Int)) :
    Nat → Int → std_map Bool → Except exception (std_map Bool)
  | 0, _, _ => .error .out_of_fuel
  | fuel + 1, node, visited =>
    match map_set_at visited node true with
    | none => .error .out_of_range
    | some visited1 =>
      match succ node with
      | none => .error .out_of_range
      | some nbrs => dfs_visit_loop (dfs_visit succ fuel) nbrs visited1

/-- Number of nodes a `visited` map records as not visited. -/
def unvisited (visited : std_map Bool) : Nat :=
  (visited.filter (fun p => !p.2)).length

/-- The step relation of a neighbour function. -/
def succ_rel (succ : Int → Option (List Int)) (a b : Int) : Prop :=
  ∃ nbrs, succ a = some nbrs ∧ b ∈ nbrs

/-- What a search from the nodes `roots` makes of a `visited` map: the same
keys, nothing unmarked, the roots marked, every new mark reachable from a root,
and every neighbour of a newly marked node marked. -/
structure searched (succ : Int → Option (List Int)) (roots : List Int)
    (visited visited1 : std_map Bool) : Prop where
  keys : ∀ x, map_contains visited1 x = map_contains visited x
  mono : ∀ x, map_find visited x = some true → map_find visited1 x = some true
  roots_marked : ∀ r ∈ roots, map_find visited1 r = some true
  sound : ∀ x, map_find visited1 x = some true →
    map_find visited x = some true ∨ ∃ r ∈ roots, Relation.ReflTransGen (succ_rel succ) r x
  closed : ∀ x, map_find visited1 x = some true → map_find visited x ≠ some true →
    ∀ y, succ_rel succ x y → map_find visited1 y = some true
  count : unvisited visited1 ≤ unvisited visited

/-- The node has been visited and has left the recursion stack. -/
def finished (visited in_stack : std_map Bool) (x : Int) : Prop :=
  map_find visited x = some true ∧ map_find in_stack x = some false

/-- What holds of the two maps of `check_cycle` between calls: they have the
same keys, the neighbour function stays within them, a node on the recursion
stack is visited, the neighbours of a finished node are finished, and no
finished node lies on a cycle. -/
structure cycle_inv (succ : Int → Option (List Int)) (visited in_stack : std_map Bool) :
    Prop where
  keys : ∀ x, map_contains in_stack x = map_contains visited x
  graph : ∀ u, map_contains visited u = true →
    ∃ nbrs, succ u = some nbrs ∧ ∀ v ∈ nbrs, map_contains visited v = true
  stack_visited : ∀ x, map_find in_stack x = some true → map_find visited x = some true
  closed : ∀ x, finished visited in_stack x → ∀ y, succ_rel succ x y →
    finished visited in_stack y
  no_cycle : ∀ x, finished visited in_stack x → ¬ Relation.TransGen (succ_rel succ) x x

/-- What a call of `check_cycle` that returns `false` leaves: the recursion
stack as it was, nothing unmarked, and the invariant. -/
structure cycle_step (succ : Int → Option (List Int))
    (visited in_stack visited1 in_stack1 : std_map Bool) : Prop where
  inv : cycle_inv succ visited1 in_stack1
  stack_same : ∀ x, map_find in_stack1 x = map_find in_stack x
  mono : ∀ x, map_find visited x = some true → map_find visited1 x = some true
  keys : ∀ x, map_contains visited1 x = map_contains visited x
  count : unvisited visited1 ≤ unvisited visited

/-- The neighbour function is defined on every key of the map and stays within
the keys. -/
def closed_graph (succ : Int → Option (List Int)) (visited : std_map Bool) : Prop :=
  ∀ u, map_contains visited u = true →
    ∃ nbrs, succ u = some nbrs ∧ ∀ v ∈ nbrs, map_contains visited v = true

end internal

namespace pipeline

/-- The `for` loop of `is_valid`: `none` when it leaves with `return false`,
otherwise the final values of `contains_source` and `contains_sink`. -/
def is_valid_loop (nodes_to_ : std_map std_set) (nodes_from_ : std_map (std_map Int)) :
    List (Int × node) → Bool → Bool → Except exception (Option (Bool × Bool))
  | [], contains_source, contains_sink => .ok (some (contains_source, contains_sink))
  | nd :: rest, contains_source, contains_sink =>
    match map_find nodes_from_ nd.1 with
    | none => .error .out_of_range
    | some slots =>
      if nd.2.input_types_.length ≠ slots.length then .ok none
      else if nd.2.is_sink then
        is_valid_loop nodes_to_ nodes_from_ rest (contains_source || nd.2.is_source) true
      else
        match map_find nodes_to_ nd.1 with
        | none => .error .out_of_range
        | some tos =>
          if tos.length = 0 then .ok none
          else
            is_valid_loop nodes_to_ nodes_from_ rest (contains_source || nd.2.is_source)
              contains_sink

/-- Member `is_valid`; the operands of the final conjunction are evaluated
from left to right and only while the ones before them are true. -/
def is_valid (fuel : Nat) (s : pipeline) : Except exception Bool :=
  match is_valid_loop s.nodes_to_ s.nodes_from_ s.nodes_ false false with
  | .error e => .error e
  | .ok none => .ok false
  | .ok (some (contains_source, contains_sink)) =>
    if !contains_source then .ok false
    else if !contains_sink then .ok false
    else
      match internal.is_connected fuel s.nodes_ s.nodes_to_ s.nodes_from_ with
      | .error e => .error e
      | .ok false => .ok false
      | .ok true =>
        match internal.has_cycle fuel s.nodes_ s.nodes_to_ with
        | .error e => .error e
        | .ok cyc => .ok (!cyc)

/-! ## Vocabulary of the specification -/

/-- The id is known to the pipeline. -/
def live (s : pipeline) (id : Int) : Prop := map_contains s.nodes_ id = true

instance (s : pipeline) (id : Int) : Decidable (live s id) :=
  inferInstanceAs (Decidable (map_contains s.nodes_ id = true))

/-- The set `outgoing[u]` (empty for an id without entry). -/
def outgoing (s : pipeline) (u : Int) : std_set := (map_find s.nodes_to_ u).getD []

/-- The producer filling slot `slot` of `v`, if the slot is filled. -/
def incoming (s : pipeline) (v slot : Int) : Option Int :=
  (map_find s.nodes_from_ v).bind (fun slots => map_find slots slot)

/-- The input types of a node (empty for an unknown id). -/
def input_types (s : pipeline) (v : Int) : List type_index :=
  ((map_find s.nodes_ v).map node.input_types_).getD []

/-- The output type of a node, if the id is known. -/
def output_type (s : pipeline) (u : Int) : Option type_index :=
  (map_find s.nodes_ u).map node.output_type_

/-- An edge of the outgoing relation. -/
def edge (s : pipeline) (u v : Int) : Prop := v ∈ outgoing s u

instance (s : pipeline) (u v : Int) : Decidable (edge s u v) :=
  inferInstanceAs (Decidable (v ∈ outgoing s u))

/-- The number of filled slots of a node, `|incoming[v]|`. -/
def filled_slots (s : pipeline) (v : Int) : Nat :=
  ((map_find s.nodes_from_ v).getD []).length

/-- V1: every node has as many filled slots as declared input types. -/
def all_slots_filled (s : pipeline) : Prop :=
  ∀ v n, map_find s.nodes_ v = some n → filled_slots s v = n.input_types_.length

/-- V2: every node that is not a sink has a node in its outgoing set. -/
def no_dangling_producer (s : pipeline) : Prop :=
  ∀ v n, map_find s.nodes_ v = some n → n.is_sink = false → ∃ w, w ∈ outgoing s v

/-- V3: some node is a source. -/
def has_source (s : pipeline) : Prop :=
  ∃ v n, map_find s.nodes_ v = some n ∧ n.is_source = true

/-- V4: some node is a sink. -/
def has_sink (s : pipeline) : Prop :=
  ∃ v n, map_find s.nodes_ v = some n ∧ n.is_sink = true

/-- The id is the smallest live id. -/
def smallest_live (s : pipeline) (r : Int) : Prop :=
  live s r ∧ ∀ v, live s v → r ≤ v

/-- V5: every node can be reached from the smallest live id along outgoing
edges, or reaches it along outgoing edges. -/
def root_connected (s : pipeline) : Prop :=
  ∀ r, smallest_live s r → ∀ v, live s v →
    Relation.ReflTransGen (edge s) r v ∨ Relation.ReflTransGen (edge s) v r

/-- V6: the outgoing relation has no directed cycle. -/
def acyclic (s : pipeline) : Prop :=
  ∀ v, ¬ Relation.TransGen (edge s) v v

/-- The graph is a single weakly-connected component: any two live nodes are
joined by a path of edges taken in either direction. -/
def weakly_connected (s : pipeline) : Prop :=
  ∀ u v, live s u → live s v →
    Relation.ReflTransGen (fun a b => edge s a b ∨ edge s b a) u v

/-- The states a pipeline object can be in: those built from `ppl::pipeline{}` by
calls of the mutating members, whether they return or throw.  The arguments
`slot` are values of `int`; `create_node` is called while its increment is
defined.  The members `step` and `run` assign no data member but `node_polls_`,
whose content after them depends on what the nodes answer. -/
inductive Reachable : pipeline → Prop
  | init : Reachable init
  | create_node (N : concrete_node) (s : pipeline) :
      Reachable s → s.latest_id_ < INT_MAX → Reachable (create_node N s).1
  | connect (src dst slot : Int) (s : pipeline) :
      Reachable s → INT_MIN ≤ slot → slot ≤ INT_MAX → Reachable (connect src dst slot s).state
  | disconnect (src dst : Int) (s : pipeline) :
      Reachable s → Reachable (disconnect src dst s).state
  | erase_node (n_id : Int) (s : pipeline) :
      Reachable s → Reachable (erase_node n_id s).state
  | polls (node_polls_ : std_map poll) (s : pipeline) :
      Reachable s → Reachable { s with node_polls_ := node_polls_ }

/-- The slots of a consumer that remain when those filled by `src` are cleared. -/
def clear_producer (src : Int) (slots : std_map Int) : std_map Int :=
  slots.filter (fun slot => decide (slot.2 ≠ src))

/-- Consistency of the three tables of a pipeline: they have the same keys,
the containers are in ascending order, the outgoing sets name live nodes, the
two adjacency tables mirror each other, a filled slot exists in the consumer
and has the type of its producer, and no live id exceeds the id counter. -/
structure WF (s : pipeline) : Prop where
  keys_to : ∀ k, map_contains s.nodes_to_ k = map_contains s.nodes_ k
  keys_from : ∀ k, map_contains s.nodes_from_ k = map_contains s.nodes_ k
  sorted_nodes : (map_keys s.nodes_).Pairwise (· < ·)
  sorted_out : ∀ u tos, map_find s.nodes_to_ u = some tos → tos.Pairwise (· < ·)
  sorted_in : ∀ v slots, map_find s.nodes_from_ v = some slots →
    (map_keys slots).Pairwise (· < ·)
  out_live : ∀ u v, v ∈ outgoing s u → live s v
  recip : ∀ u v, v ∈ outgoing s u ↔ ∃ k, incoming s v k = some u
  slots_ok : ∀ v k u, incoming s v k = some u →
    0 ≤ k ∧ k ≤ INT_MAX ∧ (input_types s v)[k.toNat]? = output_type s u
  ids_le : ∀ k, live s k → k ≤ s.latest_id_

end pipeline

/-! ## Pipelines of the test suite (pipeline.test.cpp) -/

namespace examples

open pipeline

/-- Token of `typeid(int)`. -/
def typeid_int : type_index := 1

/-- Token of `typeid(char)`. -/
def typeid_char : type_index := 2

/-- Token of `typeid(double)`. -/
def typeid_double : type_index := 3

/-- Token of `typeid(std::string)`. -/
def typeid_string : type_index := 4

/-- Node type `simplest_source<Output>` (also `int_source`, `string_source`). -/
def simplest_source (Output : type_index) : concrete_node :=
  { input_type := [], output_type := Output, derived_from_source := true }

/-- Node type `simplest_component<std::tuple<Input...>, Output>`. -/
def simplest_component (Input : List type_index) (Output : type_index) : concrete_node :=
  { input_type := Input, output_type := Output, derived_from_source := false }

/-- Node type `simplest_sink<Input>` (also `simple_sink<Input>`). -/
def simplest_sink (Input : type_index) : concrete_node :=
  { input_type := [Input], output_type := typeid_void, derived_from_source := false }

/-- The nodes of "Testing connection type match and mismatch": four sources
(ids 1 to 4) and a component with four inputs (id 5), nothing connected. -/
def mismatch_nodes : pipeline :=
  (create_node (simplest_component [typeid_int, typeid_char, typeid_double, typeid_string]
      typeid_int)
    (create_node (simplest_source typeid_string)
      (create_node (simplest_source typeid_double)
        (create_node (simplest_source typeid_char)
          (create_node (simplest_source typeid_int) init).1).1).1).1).1

/-- The nodes of "Testing get_dependencies with same sources to one destination":
a source (id 1) and a component with three `int` inputs (id 2). -/
def same_source_nodes : pipeline :=
  (create_node (simplest_component [typeid_int, typeid_int, typeid_int] typeid_int)
    (create_node (simplest_source typeid_int) init).1).1

/-- The pipeline of that test after `connect(source, c1, 0)` and
`connect(source, c1, 1)`. -/
def same_source : pipeline :=
  (connect 1 2 1 (connect 1 2 0 same_source_nodes).state).state

/-- The pipeline of "Testing when a node has been erased and the result from
get_dependencies": a source (id 1) feeding two components (ids 2 and 3). -/
def erase_cascade : pipeline :=
  (connect 1 3 0 (connect 1 2 0
    (create_node (simplest_component [typeid_int] typeid_int)
      (create_node (simplest_component [typeid_int] typeid_int)
        (create_node (simplest_source typeid_int) init).1).1).1).state).state

/-- The pipeline of "Testing step for a single sink": an `int` source (id 1)
and a string source (id 2) feed the two slots of a component (id 3), which
feeds a sink (id 4). -/
def single_sink : pipeline :=
  (connect 3 4 0 (connect 2 3 1 (connect 1 3 0
    (create_node (simplest_sink typeid_string)
      (create_node (simplest_component [typeid_int, typeid_string] typeid_string)
        (create_node (simplest_source typeid_string)
          (create_node (simplest_source typeid_int) init).1).1).1).1).state).state).state

/-- The first pipeline of "Testing is_valid for 'There are no subpipelines'":
source (id 1), component (id 2), sink (id 3) in a chain. -/
def chain : pipeline :=
  (connect 2 3 0 (connect 1 2 0
    (create_node (simplest_sink typeid_int)
      (create_node (simplest_component [typeid_int] typeid_int)
        (create_node (simplest_source typeid_int) init).1).1).1).state).state

/-- The second pipeline of that test: a second chain (ids 4, 5, 6) beside the first. -/
def two_chains : pipeline :=
  (connect 5 6 0 (connect 4 5 0
    (create_node (simplest_sink typeid_int)
      (create_node (simplest_component [typeid_int] typeid_int)
        (create_node (simplest_source typeid_int) chain).1).1).1).state).state

end examples

end ppl


namespace ppl

/-! ## Step scheduler (pipeline.cpp, pipeline.h) -/

namespace internal

/-- The second loop of `topological_sort`: a search from every node that no
earlier search has visited. -/
def topological_sort_loop (fuel : Nat) (nodes_to_ : std_map std_set) :
    List (Int × node) → List Int → std_map Bool → Except exception (List Int)
  | [], stack, _ => .ok stack
  | nd :: rest, stack, visited =>
    match map_find visited nd.1 with
    | none => .error .out_of_range
    | some true => topological_sort_loop fuel nodes_to_ rest stack visited
    | some false =>
      match dfs_forwards fuel stack nd.1 visited nodes_to_ with
      | .error e => .error e
      | .ok (stack1, visited1) => topological_sort_loop fuel nodes_to_ rest stack1 visited1

/-- Function `topological_sort`; the head of the list returned is the top of
the stack. -/
def topological_sort (fuel : Nat) (nodes_ : std_map node) (nodes_to_ : std_map std_set) :
    Except exception (List Int) :=
  topological_sort_loop fuel nodes_to_ nodes_ [] (all_false nodes_)

/-- The first statement of the loop body of `update_poll`: the node takes the
status unless it is recorded as closed. -/
def paint (node_polls_ : std_map poll) (node : Int) (status : poll) : std_map poll :=
  if map_contains node_polls_ node then
    if map_find node_polls_ node ≠ some poll.closed then
      map_modify node_polls_ node (fun _ => status)
    else node_polls_
  else map_emplace node_polls_ node status

/-- The `for` loop of `update_poll`; `call` is the recursive call. -/
def update_poll_loop (status : poll) (nodes_to_ : std_map std_set)
    (call : std_set → std_map poll → Except exception (std_map poll)) :
    List Int → std_map poll → Except exception (std_map poll)
  | [], node_polls_ => .ok node_polls_
  | node :: rest, node_polls_ =>
    let node_polls1 := paint node_polls_ node status
    match map_find nodes_to_ node with
    | none => .error .out_of_range
    | some tos =>
      match call tos node_polls1 with
      | .error e => .error e
      | .ok node_polls2 => update_poll_loop status nodes_to_ call rest node_polls2

/-- Function `update_poll`; the fuel bounds the depth of the recursion. -/
def update_poll : Nat → std_set → poll → std_map poll → std_map std_set →
    Except exception (std_map poll)
  | 0, _, _, _, _ => .error .out_of_fuel
  | fuel + 1, node_list, status, node_polls_, nodes_to_ =>
    update_poll_loop status nodes_to_ (fun l p => update_poll fuel l status p nodes_to_)
      node_list node_polls_

end internal

namespace pipeline

/-- What a call of `step` leaves: the value returned, the pipeline, and the
nodes polled so far. -/
structure step_outcome where
  returned : Bool
  state : pipeline
  history : List Int
  deriving DecidableEq

/-- The call `internal::update_poll(nodes_to_.at(node), result, node_polls_, nodes_to_)`. -/
def update_poll_at (fuel : Nat) (nodes_to_ : std_map std_set) (node : Int) (result : poll)
    (node_polls_ : std_map poll) : Except exception (std_map poll) :=
  match map_find nodes_to_ node with
  | none => .error .out_of_range
  | some tos => internal.update_poll fuel tos result node_polls_ nodes_to_

/-- The `while` loop of `step` over the stack.  The member `poll_next` of a node
is user code: `poll_next history node` is what it returns when the nodes in
`history` (oldest first) are those polled before, in this and in earlier
calls of `step`; the loop appends every node it polls. -/
def step_loop (fuel : Nat) (poll_next : List Int → Int → poll) (nodes_ : std_map node)
    (nodes_to_ : std_map std_set) :
    List Int → std_map poll → List Int → Except exception (std_map poll × List Int)
  | [], node_polls_, history => .ok (node_polls_, history)
  | node :: stack, node_polls_, history =>
    if !(map_contains node_polls_ node &&
        (decide (map_find node_polls_ node = some poll.closed) ||
          decide (map_find node_polls_ node = some poll.empty))) then
      match map_find nodes_ node with
      | none => .error .out_of_range
      | some _ =>
        let result := poll_next history node
        let history1 := history ++ [node]
        let node_polls1 :=
          if map_contains node_polls_ node then map_modify node_polls_ node (fun _ => result)
          else map_emplace node_polls_ node result
        let propagated :=
          if result = poll.ready ∨ result = poll.empty then
            if result = poll.empty then
              update_poll_at fuel nodes_to_ node result node_polls1
            else .ok node_polls1
          else update_poll_at fuel nodes_to_ node result node_polls1
        match propagated with
        | .error e => .error e
        | .ok node_polls2 => step_loop fuel poll_next nodes_ nodes_to_ stack node_polls2 history1
    else step_loop fuel poll_next nodes_ nodes_to_ stack node_polls_ history

/-- The last loop of `step`: `false` at the first sink that is not recorded as
closed. -/
def all_sinks_closed (node_polls_ : std_map poll) : List (Int × node) → Bool
  | [] => true
  | nd :: rest =>
    if nd.2.is_sink && !(map_contains node_polls_ nd.1 &&
        decide (map_find node_polls_ nd.1 = some poll.closed)) then false
    else all_sinks_closed node_polls_ rest

/-- Member `step`.  It assigns no data member but `node_polls_`. -/
def step (fuel : Nat) (poll_next : List Int → Int → poll) (history : List Int)
    (s : pipeline) : Except exception step_outcome :=
  match internal.topological_sort fuel s.nodes_ s.nodes_to_ with
  | .error e => .error e
  | .ok stack =>
    match step_loop fuel poll_next s.nodes_ s.nodes_to_ stack [] history with
    | .error e => .error e
    | .ok (node_polls_, history1) =>
      .ok { returned := all_sinks_closed node_polls_ s.nodes_
            state := { s with node_polls_ := node_polls_ }
            history := history1 }

/-- Member `run`: `while (!step()) {}`, with a bound on the number of calls of
`step`. -/
def run : Nat → Nat → (List Int → Int → poll) → List Int → pipeline →
    Except exception step_outcome
  | 0, _, _, _, _ => .error .out_of_fuel
  | ticks + 1, fuel, poll_next, history, s =>
    match step fuel poll_next history s with
    | .error e => .error e
    | .ok r =>
      if r.returned then .ok r
      else run ticks fuel poll_next r.history r.state

/-- Nodes that behave as fixed sequences of poll results: the k-th call of
`poll_next` on a node returns the k-th element of its sequence. -/
def sequence_oracle (behaviour : Int → Nat → poll) (history : List Int) (node : Int) : poll :=
  behaviour node (history.count node)

/-- The poll state is `empty` or `closed`: `step` does not poll such a node. -/
def blocked (node_polls_ : std_map poll) (x : Int) : Prop :=
  map_find node_polls_ x = some poll.closed ∨ map_find node_polls_ x = some poll.empty

/-- The state `update_poll` leaves in a node it reaches. -/
def painted (status : poll) (before : Option poll) : poll :=
  if before = some poll.closed then poll.closed else status

/-- In the list every node comes before the nodes it has an edge to. -/
def topologically_ordered (E : Int → Int → Prop) : List Int → Prop
  | [] => True
  | x :: rest => (∀ y, E x y → y ∈ rest) ∧ topologically_ordered E rest

/-- What the `while` loop of `step` does with a topologically ordered stack
`S`, from the poll states `p` and the history `h` to the poll states `p1` and
the nodes `t` it polled, in the order of polling. -/
structure scheduled (poll_next : List Int → Int → poll) (E : Int → Int → Prop)
    (S : List Int) (p : std_map poll) (h : List Int) (p1 : std_map poll) (t : List Int) :
    Prop where
  sublist : t.Sublist S
  blocked_stays : ∀ x, blocked p x → blocked p1 x ∧ x ∉ t
  closed_stays : ∀ x, map_find p x = some poll.closed → map_find p1 x = some poll.closed
  blocked_closed : ∀ x, blocked p1 x → ∀ y, E x y → blocked p1 y
  skip_below : ∀ pre a post, t = pre ++ a :: post → poll_next (h ++ pre) a ≠ poll.ready →
    ∀ d, Relation.TransGen E a d → d ∉ t ∧ blocked p1 d
  closed_below : ∀ pre a post, t = pre ++ a :: post → poll_next (h ++ pre) a = poll.closed →
    map_find p1 a = some poll.closed ∧
      ∀ d, Relation.TransGen E a d → map_find p1 d = some poll.closed
  producers_ready : ∀ u v, E u v → u ∈ S → v ∈ t →
    ∃ pre post, t = pre ++ u :: post ∧ v ∈ post ∧ poll_next (h ++ pre) u = poll.ready
  roots_polled : ∀ x ∈ S, (∀ u, ¬ E u x) → ¬ blocked p x → x ∈ t

/-- One returning call of `step`, with some behaviour of the nodes, leads from
the first state to the second. -/
def steps_to (s s1 : pipeline) : Prop :=
  ∃ fuel poll_next history r, step fuel poll_next history s = .ok r ∧ r.state = s1

/-- Every source eventually returns closed: the sequence of poll results of
each source has closed at an index its calls so far have not passed. -/
def sources_close (behaviour : Int → Nat → poll) (history : List Int) (s : pipeline) : Prop :=
  ∀ v n, map_find s.nodes_ v = some n → n.is_source = true →
    ∃ k, history.count v ≤ k ∧ behaviour v k = poll.closed

/-- Member `run` terminates: after some number of calls `step` returns true. -/
def run_terminates (fuel : Nat) (poll_next : List Int → Int → poll) (history : List Int)
    (s : pipeline) : Prop :=
  ∃ ticks r, run ticks fuel poll_next history s = .ok r

/-- No slot of a source is filled and no sink feeds a node. -/
def ends_outermost (s : pipeline) : Prop :=
  ∀ nd ∈ s.nodes_,
    (nd.2.is_source = true → map_find s.nodes_from_ nd.1 = some []) ∧
    (nd.2.is_sink = true → map_find s.nodes_to_ nd.1 = some [])

instance (s : pipeline) : Decidable (ends_outermost s) :=
  inferInstanceAs (Decidable (∀ nd ∈ s.nodes_,
    (nd.2.is_source = true → map_find s.nodes_from_ nd.1 = some []) ∧
    (nd.2.is_sink = true → map_find s.nodes_to_ nd.1 = some [])))

end pipeline

namespace examples

open pipeline

/-- Member `poll_next` of the `int_source` of the test suite built with the
value `val`: the result of its call number `k`, counted from 0.  The value is
incremented before it is compared. -/
def int_source (val : Int) (k : Nat) : poll :=
  if val + (k + 1) ≥ 5 then poll.closed
  else if val + (k + 1) ≤ 0 then poll.empty
  else poll.ready

/-- Member `poll_next` of the `string_source` of the test suite built with a
string of `size` characters: one character is appended by every call that
returns ready. -/
def string_source (size : Nat) (k : Nat) : poll :=
  if size + k ≥ 3 then poll.closed else poll.ready

/-- The nodes of "Testing step for a single sink": `int_source(0)` (id 1),
`string_source("")` (id 2), a connected component and a connected sink, which
return ready. -/
def single_sink_behaviour (node : Int) (k : Nat) : poll :=
  if node = 1 then int_source 0 k
  else if node = 2 then string_source 0 k
  else poll.ready

/-- A behaviour for `chain`: the source (id 1) is `int_source(0)`, the
component and the sink return ready. -/
def chain_behaviour (node : Int) (k : Nat) : poll :=
  if node = 1 then int_source 0 k else poll.ready

/-- A behaviour for `chain` in which the component (id 2) returns closed and the
source and the sink always return ready. -/
def closing_component (node : Int) (_ : Nat) : poll :=
  if node = 2 then poll.closed else poll.ready

/-- The first tick of `single_sink` with the nodes of the test. -/
def single_sink_tick : step_outcome :=
  { returned := false
    state := { single_sink with
      node_polls_ := [(1, poll.ready), (2, poll.ready), (3, poll.ready), (4, poll.ready)] }
    history := [2, 1, 3, 4] }

/-- The tick of `chain` in which the component returns closed. -/
def closing_tick : step_outcome :=
  { returned := true
    state := { chain with
      node_polls_ := [(1, poll.ready), (2, poll.closed), (3, poll.closed)] }
    history := [1, 2] }

/-- The state of `same_source_nodes` after `connect(source, c1, 0)`. -/
def one_slot : pipeline := (connect 1 2 0 same_source_nodes).state

end examples

end ppl

namespace ppl

/-! ## Node lookup, call sequences and rendering (pipeline.h) -/

namespace pipeline

/-- Member `get_node` (both overloads): the node pointed to, `none` for
`nullptr`.  The pointers stored by `create_node` come from `std::make_unique`
and are not null. -/
def get_node (n_id : Int) (s : pipeline) : Except exception (Option node) :=
  if map_contains s.nodes_ n_id then
    match map_find s.nodes_ n_id with
    | none => .error .out_of_range
    | some n => .ok (some n)
  else .ok none

/-- A call of a member that can change the pipeline.  A call of `step` or `run`
is given by the poll states it leaves. -/
inductive call
  | create_node (N : concrete_node)
  | connect (src dst slot : Int)
  | disconnect (src dst : Int)
  | erase_node (n_id : Int)
  | step (node_polls_ : std_map poll)

/-- The state after a call, whether it returns or throws, and the id returned
when the call is `create_node`. -/
def call.apply : call → pipeline → pipeline × Option Int
  | .create_node N, s => ((pipeline.create_node N s).1, some (pipeline.create_node N s).2)
  | .connect src dst slot, s => ((pipeline.connect src dst slot s).state, none)
  | .disconnect src dst, s => ((pipeline.disconnect src dst s).state, none)
  | .erase_node n_id, s => ((pipeline.erase_node n_id s).state, none)
  | .step node_polls_, s => ({ s with node_polls_ := node_polls_ }, none)

/-- The call is one a C++ program can make with defined behaviour: a slot is
a value of `int`, and `create_node` does not overflow the id counter. -/
def call.defined : call → pipeline → Bool
  | .create_node _, s => decide (s.latest_id_ < INT_MAX)
  | .connect _ _ slot, _ => decide (INT_MIN ≤ slot) && decide (slot ≤ INT_MAX)
  | _, _ => true

/-- A sequence of calls on one pipeline: the final state and the ids returned
by the calls of `create_node`, in the order of the calls. -/
def apply_calls : List call → pipeline → pipeline × List Int
  | [], s => (s, [])
  | c :: rest, s =>
    ((apply_calls rest (c.apply s).1).1,
      (c.apply s).2.toList ++ (apply_calls rest (c.apply s).1).2)

/-- Every call of the sequence is defined in the state it is made in. -/
def calls_defined : List call → pipeline → Bool
  | [], _ => true
  | c :: rest, s => c.defined s && calls_defined rest (c.apply s).1

/-- The comparison passed to `std::sort` in `operator<<`. -/
def edge_less (a b : Int × Int) : Bool :=
  if a.1 ≠ b.1 then decide (a.1 < b.1) else decide (a.2 < b.2)

/-- The call of `std::sort` in `operator<<`: the elements in an order in which
no element is `edge_less` than one before it.  Elements of which neither is
less than the other are equal pairs, so the order is the same for every sorting
algorithm. -/
def sort_edges (l : List (Int × Int)) : List (Int × Int) :=
  l.insertionSort (fun a b => edge_less b a = false)

/-- The two nested loops of `operator<<` that fill `edges_list`: a pair
(producer, consumer) for every slot of every entry of `nodes_from_`. -/
def edges_list (nodes_from_ : std_map (std_map Int)) : List (Int × Int) :=
  nodes_from_.flatMap (fun nodes_from => nodes_from.2.map (fun node => (node.2, nodes_from.1)))

/-- The text written for a node by the first loop of `operator<<`; `name id` is
what the member `name()` of the node with that id returns. -/
def node_line (name : Int → String) (id : Int) : String :=
  "  \"" ++ toString id ++ " " ++ name id ++ "\"\n"

/-- The text written for an edge by the last loop of `operator<<`, with its two
calls of `nodes_.at`. -/
def edge_line (name : Int → String) (nodes_ : std_map node) (e : Int × Int) :
    Except exception String :=
  match map_find nodes_ e.1 with
  | none => .error .out_of_range
  | some _ =>
    match map_find nodes_ e.2 with
    | none => .error .out_of_range
    | some _ =>
      .ok ("  \"" ++ toString e.1 ++ " " ++ name e.1 ++ "\" -> \"" ++
        toString e.2 ++ " " ++ name e.2 ++ "\"\n")

/-- The first loop of `operator<<`, appending to the stream `os`. -/
def render_nodes (name : Int → String) : List (Int × node) → String → String
  | [], os => os
  | nd :: rest, os => render_nodes name rest (os ++ node_line name nd.1)

/-- The last loop of `operator<<`, appending to the stream `os`. -/
def render_edges (name : Int → String) (nodes_ : std_map node) :
    List (Int × Int) → String → Except exception String
  | [], os => .ok os
  | e :: rest, os =>
    match edge_line name nodes_ e with
    | .error x => .error x
    | .ok line => render_edges name nodes_ rest (os ++ line)

/-- Friend `operator<<`: the text written to an empty stream. -/
def render (name : Int → String) (s : pipeline) : Except exception String :=
  let os := "digraph G \x7b\n"
  let os := render_nodes name s.nodes_ os
  let edges := sort_edges (edges_list s.nodes_from_)
  let os := os ++ "\n"
  match render_edges name s.nodes_ edges os with
  | .error x => .error x
  | .ok os => .ok (os ++ "\x7d\n")

/-- Concatenation of lines. -/
def lines_text : List String → String
  | [] => ""
  | l :: rest => l ++ lines_text rest

/-- The text of an edge line. -/
def edge_text (name : Int → String) (e : Int × Int) : String :=
  "  \"" ++ toString e.1 ++ " " ++ name e.1 ++ "\" -> \"" ++
    toString e.2 ++ " " ++ name e.2 ++ "\"\n"

/-- The order of the edge lines: by producer id, then by consumer id. -/
def edge_le (a b : Int × Int) : Prop :=
  a.1 < b.1 ∨ (a.1 = b.1 ∧ a.2 ≤ b.2)

end pipeline

namespace examples

open pipeline

/-- The calls of "Testing visual representation: simple" up to `erase_node`:
four nodes are created and the third is erased. -/
def four_created_third_erased : List call :=
  [call.create_node (simplest_component [typeid_int, typeid_int] typeid_int),
   call.create_node (simplest_source typeid_int),
   call.create_node (simplest_source typeid_int),
   call.create_node (simplest_component [typeid_int] typeid_int),
   call.erase_node 3]

/-- The pipeline of "Testing visual representation: simple". -/
def visual_simple : pipeline :=
  (connect 4 1 1 (connect 2 4 0 (connect 2 1 0
    (apply_calls four_created_third_erased init).1).state).state).state

/-- The names of the nodes of the two first "visual representation" tests. -/
def visual_names (id : Int) : String :=
  if id = 1 then "hello" else if id = 2 then "world" else if id = 3 then "deleted"
  else if id = 4 then "foobar" else ""

/-- The pipeline of "Testing visual representation: with multiple paths between
same pair of nodes". -/
def visual_multiple : pipeline :=
  (connect 4 1 2 (connect 4 1 1 (connect 2 4 0 (connect 2 1 0
    (erase_node 3
      (create_node (simplest_component [typeid_int] typeid_int)
        (create_node (simplest_source typeid_int)
          (create_node (simplest_source typeid_int)
            (create_node (simplest_component [typeid_int, typeid_int, typeid_int] typeid_int)
              init).1).1).1).1).state).state).state).state).state

/-- The calls of "Testing visual representation: more than 10 nodes". -/
def twelve_calls : List call :=
  [call.create_node (simplest_component [typeid_int] typeid_int),
   call.create_node (simplest_source typeid_int),
   call.create_node (simplest_source typeid_int),
   call.create_node (simplest_source typeid_int),
   call.create_node (simplest_source typeid_int),
   call.create_node (simplest_source typeid_int),
   call.create_node (simplest_source typeid_int),
   call.create_node (simplest_source typeid_int),
   call.create_node (simplest_source typeid_int),
   call.create_node (simplest_source typeid_int),
   call.create_node (simplest_component [typeid_int] typeid_int),
   call.create_node (simplest_source typeid_int),
   call.connect 12 1 0,
   call.connect 2 11 0]

/-- The pipeline of "Testing visual representation: more than 10 nodes". -/
def visual_twelve : pipeline := (apply_calls twelve_calls init).1

/-- The names of the nodes of that test. -/
def twelve_names (id : Int) : String :=
  (["one", "two", "three", "four", "five", "six", "seven", "eight", "nine", "ten",
    "eleven", "twelve"].get? (id - 1).toNat).getD ""

/-- The pipeline of "Testing is_valid for 'There are no cycles.' when a node is
connected to itself": a source (id 1), a component with two inputs (id 2) that
feeds a sink (id 3) and its own slot 1. -/
def self_loop : pipeline :=
  (connect 2 2 1 (connect 2 3 0 (connect 1 2 0
    (create_node (simplest_sink typeid_int)
      (create_node (simplest_component [typeid_int, typeid_int] typeid_int)
        (create_node (simplest_source typeid_int) init).1).1).1).state).state).state

end examples

end ppl

namespace ppl

/-! ## Further pipelines of the test suite -/

namespace examples

open pipeline

/-- The pipeline of "Testing that all dependent nodes on an empty node are
skipped until the node is ready": an `int` source (id 1) feeds a component
(id 3), a string source (id 2) feeds a component (id 4), both components feed
a component (id 5), which feeds a sink (id 6). -/
def skipping : pipeline :=
  (apply_calls
    [call.create_node (simplest_source typeid_int),
     call.create_node (simplest_source typeid_string),
     call.create_node (simplest_component [typeid_int] typeid_int),
     call.create_node (simplest_component [typeid_string] typeid_string),
     call.create_node (simplest_component [typeid_int, typeid_string] typeid_string),
     call.create_node (simplest_sink typeid_string),
     call.connect 1 3 0,
     call.connect 2 4 0,
     call.connect 3 5 0,
     call.connect 4 5 1,
     call.connect 5 6 0] init).1

/-- The nodes of that test: `int_source(-2)` (id 1), which returns empty
twice, `string_source("")` (id 2), and connected components and a connected
sink, which return ready. -/
def skipping_behaviour (node : Int) (k : Nat) : poll :=
  if node = 1 then int_source (-2) k
  else if node = 2 then string_source 0 k
  else poll.ready

/-- The nodes of `single_sink` created in another order: the component first
(id 1), then the `int` source (id 2), the string source (id 3) and the sink
(id 4), with the same connections. -/
def component_first : pipeline :=
  (connect 1 4 0 (connect 3 1 1 (connect 2 1 0
    (create_node (simplest_sink typeid_string)
      (create_node (simplest_source typeid_string)
        (create_node (simplest_source typeid_int)
          (create_node (simplest_component [typeid_int, typeid_string] typeid_string)
            init).1).1).1).1).state).state).state

/-- The renaming of ids that takes `single_sink` to `component_first`. -/
def renumber (id : Int) : Int :=
  if id = 1 then 2 else if id = 2 then 3 else if id = 3 then 1 else id

end examples

namespace pipeline

/-- A map with every key renamed by `f` and every value changed by `g`. -/
def rename_map {V W : Type} (f : Int → Int) (g : V → W) (m : std_map V) : std_map W :=
  m.foldl (fun acc kv => map_emplace acc (f kv.1) (g kv.2)) []

/-- A set with every element renamed by `f`. -/
def rename_set (f : Int → Int) (m : std_set) : std_set :=
  m.foldl (fun acc x => set_insert acc (f x)) []

/-- The pipeline with every node id renamed by `f`: the same nodes under the
new ids, the same slots filled by the renamed producers, the same outgoing sets
of renamed consumers.  The id counter is kept. -/
def rename_ids (f : Int → Int) (s : pipeline) : pipeline :=
  { nodes_ := rename_map f id s.nodes_
    latest_id_ := s.latest_id_
    node_polls_ := rename_map f id s.node_polls_
    nodes_to_ := rename_map f (rename_set f) s.nodes_to_
    nodes_from_ := rename_map f (fun slots => slots.map (fun slot => (slot.1, f slot.2)))
      s.nodes_from_ }

end pipeline

end ppl

namespace ppl

/-! ## Container lemmas -/

theorem map_find_insert_sorted_ne {V : Type} (m : std_map V) (k k' : Int) (v : V) (h : k' ≠ k) :
    map_find (map_insert_sorted m k v) k' = map_find m k' := by
  induction m with
  | nil => simp [map_insert_sorted, map_find, Ne.symm h]
  | cons p m ih =>
    obtain ⟨a, b⟩ := p
    simp only [map_insert_sorted]
    split
    · simp [map_find, Ne.symm h]
    · simp [map_find, ih]

theorem map_find_insert_sorted_self {V : Type} (m : std_map V) (k : Int) (v : V)
    (h : map_find m k = none) : map_find (map_insert_sorted m k v) k = some v := by
  induction m with
  | nil => simp [map_insert_sorted, map_find]
  | cons p m ih =>
    obtain ⟨a, b⟩ := p
    simp only [map_find] at h
    split at h
    · cases h
    · rename_i hne
      simp only [map_insert_sorted]
      split
      · simp [map_find]
      · simp [map_find, hne, ih h]

theorem map_find_emplace {V : Type} (m : std_map V) (k k' : Int) (v : V) :
    map_find (map_emplace m k v) k' =
      if k' = k then some ((map_find m k).getD v) else map_find m k' := by
  unfold map_emplace map_contains
  cases hk : map_find m k with
  | none =>
    by_cases h : k' = k
    · subst h; simp [map_find_insert_sorted_self _ _ _ hk]
    · simp [h, map_find_insert_sorted_ne _ _ _ _ h]
  | some w =>
    by_cases h : k' = k
    · subst h; simp [hk]
    · simp [h]

theorem map_find_erase {V : Type} (m : std_map V) (k k' : Int) :
    map_find (map_erase m k) k' = if k' = k then none else map_find m k' := by
  induction m with
  | nil => simp [map_erase, map_find]
  | cons p m ih =>
    obtain ⟨a, b⟩ := p
    unfold map_erase at ih ⊢
    by_cases ha : a = k
    · subst ha
      simp only [List.filter_cons, ne_eq, not_true_eq_false, decide_False, Bool.false_eq_true,
        if_false, ih, map_find]
      by_cases h : k' = a
      · simp [h]
      · simp [h, Ne.symm h]
    · simp only [List.filter_cons, ne_eq, ha, not_false_eq_true, decide_True, if_true, map_find, ih]
      by_cases h : k' = k
      · subst h; simp [ha]
      · simp [h]

theorem map_find_modify {V : Type} (m : std_map V) (k k' : Int) (f : V → V) :
    map_find (map_modify m k f) k' =
      if k' = k then (map_find m k).map f else map_find m k' := by
  induction m with
  | nil => simp [map_modify, map_find]
  | cons p m ih =>
    obtain ⟨a, b⟩ := p
    unfold map_modify at ih ⊢
    rw [List.map_cons]
    by_cases ha : a = k
    · subst ha
      rw [if_pos rfl]
      by_cases h : k' = a
      · subst h; simp [map_find]
      · simp only [map_find, Ne.symm h, if_false, ih, h]
    · rw [if_neg ha]
      by_cases h : k' = k
      · subst h; simp only [ha, if_false, map_find, ih, if_true]
      · simp only [ha, if_false, map_find, ih, h]

theorem map_contains_emplace {V : Type} (m : std_map V) (k k' : Int) (v : V) :
    map_contains (map_emplace m k v) k' = (decide (k' = k) || map_contains m k') := by
  unfold map_contains
  rw [map_find_emplace]
  by_cases h : k' = k <;> simp [h]

theorem map_contains_erase {V : Type} (m : std_map V) (k k' : Int) :
    map_contains (map_erase m k) k' = (!decide (k' = k) && map_contains m k') := by
  unfold map_contains
  rw [map_find_erase]
  by_cases h : k' = k <;> simp [h]

theorem map_contains_modify {V : Type} (m : std_map V) (k k' : Int) (f : V → V) :
    map_contains (map_modify m k f) k' = map_contains m k' := by
  unfold map_contains
  rw [map_find_modify]
  by_cases h : k' = k
  · subst h; cases map_find m k' <;> simp
  · simp [h]

theorem map_keys_modify {V : Type} (m : std_map V) (k : Int) (f : V → V) :
    map_keys (map_modify m k f) = map_keys m := by
  unfold map_keys map_modify
  rw [List.map_map]
  apply List.map_congr_left
  intro p _
  by_cases h : p.1 = k <;> simp [h]

theorem map_contains_iff_mem_keys {V : Type} (m : std_map V) (k : Int) :
    map_contains m k = true ↔ k ∈ map_keys m := by
  induction m with
  | nil => simp [map_contains, map_find, map_keys]
  | cons p m ih =>
    obtain ⟨a, b⟩ := p
    unfold map_contains map_keys at ih ⊢
    simp only [map_find, List.map_cons, List.mem_cons]
    by_cases h : a = k
    · simp [h]
    · simp [h, ih, Ne.symm h]

theorem mem_of_map_find {V : Type} (m : std_map V) (k : Int) (v : V)
    (h : map_find m k = some v) : (k, v) ∈ m := by
  induction m with
  | nil => simp [map_find] at h
  | cons p m ih =>
    obtain ⟨a, b⟩ := p
    simp only [map_find] at h
    split at h
    · rename_i hk; cases h; subst hk; simp
    · exact List.mem_cons_of_mem _ (ih h)

theorem map_find_of_mem {V : Type} (m : std_map V) (k : Int) (v : V)
    (hs : (map_keys m).Pairwise (· < ·)) (h : (k, v) ∈ m) : map_find m k = some v := by
  induction m with
  | nil => simp at h
  | cons p m ih =>
    obtain ⟨a, b⟩ := p
    simp only [map_keys, List.map_cons, List.pairwise_cons] at hs
    simp only [map_find]
    rcases List.mem_cons.1 h with h1 | h1
    · cases h1; simp
    · have hk : k ∈ List.map Prod.fst m := List.mem_map.2 ⟨(k, v), h1, rfl⟩
      have := hs.1 k hk
      have hne : a ≠ k := by omega
      simp only [hne, if_false]
      exact ih hs.2 h1

theorem map_keys_insert_sorted_mem {V : Type} (m : std_map V) (k x : Int) (v : V) :
    x ∈ map_keys (map_insert_sorted m k v) ↔ x = k ∨ x ∈ map_keys m := by
  induction m with
  | nil => simp [map_insert_sorted, map_keys]
  | cons p m ih =>
    obtain ⟨a, b⟩ := p
    unfold map_keys at ih ⊢
    simp only [map_insert_sorted]
    split
    · simp
    · simp only [List.map_cons, List.mem_cons, ih]; tauto

theorem map_keys_insert_sorted_pairwise {V : Type} (m : std_map V) (k : Int) (v : V)
    (hs : (map_keys m).Pairwise (· < ·)) (hk : k ∉ map_keys m) :
    (map_keys (map_insert_sorted m k v)).Pairwise (· < ·) := by
  induction m with
  | nil => simp [map_insert_sorted, map_keys]
  | cons p m ih =>
    obtain ⟨a, b⟩ := p
    have hs' := hs
    simp only [map_keys, List.map_cons, List.pairwise_cons] at hs
    simp only [map_keys, List.map_cons, List.mem_cons, not_or] at hk
    simp only [map_insert_sorted]
    split
    · rename_i hlt
      simp only [map_keys, List.map_cons, List.pairwise_cons, List.mem_cons]
      refine ⟨?_, hs.1, hs.2⟩
      intro x hx
      rcases hx with rfl | hx
      · exact hlt
      · exact lt_trans hlt (hs.1 x hx)
    · rename_i hnlt
      have hak : a < k := by omega
      have ih' := ih hs.2 hk.2
      simp only [map_keys, List.map_cons, List.pairwise_cons]
      refine ⟨?_, ih'⟩
      intro x hx
      rcases (map_keys_insert_sorted_mem m k x v).1 hx with rfl | hx
      · exact hak
      · exact hs.1 x hx

theorem map_keys_emplace_pairwise {V : Type} (m : std_map V) (k : Int) (v : V)
    (hs : (map_keys m).Pairwise (· < ·)) :
    (map_keys (map_emplace m k v)).Pairwise (· < ·) := by
  unfold map_emplace
  split
  · exact hs
  · rename_i h
    apply map_keys_insert_sorted_pairwise _ _ _ hs
    rw [← map_contains_iff_mem_keys]; exact h

theorem map_keys_erase_pairwise {V : Type} (m : std_map V) (k : Int)
    (hs : (map_keys m).Pairwise (· < ·)) :
    (map_keys (map_erase m k)).Pairwise (· < ·) := by
  unfold map_keys map_erase at *
  exact hs.sublist ((List.filter_sublist _).map _)

theorem mem_map_erase {V : Type} (m : std_map V) (k : Int) (p : Int × V) :
    p ∈ map_erase m k ↔ p ∈ m ∧ p.1 ≠ k := by
  simp [map_erase]

theorem mem_set_insert_sorted (m : std_set) (k x : Int) :
    x ∈ set_insert_sorted m k ↔ x = k ∨ x ∈ m := by
  induction m with
  | nil => simp [set_insert_sorted]
  | cons a m ih =>
    simp only [set_insert_sorted]
    split
    · simp
    · simp only [List.mem_cons, ih]; tauto

theorem mem_set_insert (m : std_set) (k x : Int) :
    x ∈ set_insert m k ↔ x = k ∨ x ∈ m := by
  unfold set_insert
  split
  · rename_i h
    constructor
    · exact Or.inr
    · rintro (rfl | h') <;> assumption
  · exact mem_set_insert_sorted m k x

theorem mem_set_erase (m : std_set) (k x : Int) :
    x ∈ set_erase m k ↔ x ∈ m ∧ x ≠ k := by
  simp [set_erase]

theorem set_erase_of_not_mem (m : std_set) (k : Int) (h : k ∉ m) : set_erase m k = m := by
  unfold set_erase
  rw [List.filter_eq_self]
  intro x hx
  simp only [ne_eq, decide_eq_true_eq]
  rintro rfl
  exact h hx

theorem set_insert_sorted_pairwise (m : std_set) (k : Int)
    (hs : m.Pairwise (· < ·)) (hk : k ∉ m) : (set_insert_sorted m k).Pairwise (· < ·) := by
  induction m with
  | nil => simp [set_insert_sorted]
  | cons a m ih =>
    simp only [List.pairwise_cons] at hs
    simp only [List.mem_cons, not_or] at hk
    simp only [set_insert_sorted]
    split
    · rename_i hlt
      simp only [List.pairwise_cons, List.mem_cons]
      refine ⟨?_, hs.1, hs.2⟩
      intro x hx
      rcases hx with rfl | hx
      · exact hlt
      · exact lt_trans hlt (hs.1 x hx)
    · have hak : a < k := by omega
      simp only [List.pairwise_cons]
      refine ⟨?_, ih hs.2 hk.2⟩
      intro x hx
      rcases (mem_set_insert_sorted m k x).1 hx with rfl | hx
      · exact hak
      · exact hs.1 x hx

theorem set_insert_pairwise (m : std_set) (k : Int) (hs : m.Pairwise (· < ·)) :
    (set_insert m k).Pairwise (· < ·) := by
  unfold set_insert
  split
  · exact hs
  · rename_i h; exact set_insert_sorted_pairwise m k hs h

theorem set_erase_pairwise (m : std_set) (k : Int) (hs : m.Pairwise (· < ·)) :
    (set_erase m k).Pairwise (· < ·) :=
  hs.sublist (List.filter_sublist _)

theorem map_find_foldl_erase {V : Type} (ks : List Int) (m : std_map V) (k : Int) :
    map_find (ks.foldl (fun m slot => map_erase m slot) m) k =
      if k ∈ ks then none else map_find m k := by
  induction ks generalizing m with
  | nil => simp
  | cons a ks ih =>
    simp only [List.foldl_cons, ih, map_find_erase, List.mem_cons]
    by_cases h1 : k ∈ ks
    · simp [h1]
    · by_cases h2 : k = a <;> simp [h1, h2]

theorem map_keys_foldl_erase_pairwise {V : Type} (ks : List Int) (m : std_map V)
    (hs : (map_keys m).Pairwise (· < ·)) :
    (map_keys (ks.foldl (fun m slot => map_erase m slot) m)).Pairwise (· < ·) := by
  induction ks generalizing m with
  | nil => simpa using hs
  | cons a ks ih =>
    simp only [List.foldl_cons]
    exact ih _ (map_keys_erase_pairwise m a hs)

end ppl

namespace ppl
namespace pipeline

/-! ## The member `connect` -/

theorem static_cast_size_t_of_nonneg (i : Int) (h0 : 0 ≤ i) (h1 : i ≤ INT_MAX) :
    static_cast_size_t i = i.toNat := by
  unfold static_cast_size_t
  unfold INT_MAX at h1
  rw [Int.emod_eq_of_lt h0 (by omega)]

theorem find_of_contains {V : Type} (m : std_map V) (k : Int) (h : map_contains m k = true) :
    ∃ v, map_find m k = some v := by
  unfold map_contains at h
  exact Option.isSome_iff_exists.1 h

theorem contains_of_find {V : Type} (m : std_map V) (k : Int) (v : V)
    (h : map_find m k = some v) : map_contains m k = true := by
  unfold map_contains; rw [h]; rfl

/-- The state written by a successful `connect`. -/
theorem connect_spec (s : pipeline)
    (hfrom : ∀ k, map_contains s.nodes_from_ k = map_contains s.nodes_ k)
    (hto : ∀ k, map_contains s.nodes_to_ k = map_contains s.nodes_ k)
    (src dst slot : Int) (h2 : slot ≤ INT_MAX) :
    connect src dst slot s =
      if ¬ (map_contains s.nodes_ src = true ∧ map_contains s.nodes_ dst = true) then
        ⟨.error (.pipeline_error .invalid_node_id), s⟩
      else if (incoming s dst slot).isSome = true then
        ⟨.error (.pipeline_error .slot_already_used), s⟩
      else if slot < 0 ∨ ((input_types s dst).length : Int) ≤ slot then
        ⟨.error (.pipeline_error .no_such_slot), s⟩
      else if (input_types s dst)[slot.toNat]? ≠ output_type s src then
        ⟨.error (.pipeline_error .connection_type_mismatch), s⟩
      else
        ⟨.ok (), { s with
          nodes_from_ := map_modify s.nodes_from_ dst (fun m => map_emplace m slot src)
          nodes_to_ := map_modify s.nodes_to_ src (fun t => set_insert t dst) }⟩ := by
  unfold connect
  by_cases hs : map_contains s.nodes_ src = true
  swap
  · simp [hs]
  by_cases hd : map_contains s.nodes_ dst = true
  swap
  · simp [hd]
  obtain ⟨d, hd'⟩ := find_of_contains _ _ hd
  obtain ⟨sn, hs'⟩ := find_of_contains _ _ hs
  obtain ⟨slots, hsl⟩ := find_of_contains _ _ ((hfrom dst).trans hd)
  obtain ⟨tos, hts⟩ := find_of_contains _ _ ((hto src).trans hs)
  have hinc : incoming s dst slot = map_find slots slot := by simp [incoming, hsl]
  have hit : input_types s dst = d.input_types_ := by simp [input_types, hd']
  have hot : output_type s src = some sn.output_type_ := by simp [output_type, hs']
  simp only [hs, hd, Bool.not_true, Bool.or_self, Bool.false_eq_true, if_false, hd', hsl,
    and_self, not_true_eq_false, hinc, hit, hot]
  by_cases hc : map_contains slots slot = true
  · have : (map_find slots slot).isSome = true := hc
    simp [hc, this]
  have hc' : ¬ (map_find slots slot).isSome = true := hc
  simp only [hc, hc', Bool.false_eq_true, if_false]
  by_cases hneg : slot < 0
  · simp [hneg]
  have h0 : 0 ≤ slot := by omega
  rw [static_cast_size_t_of_nonneg slot h0 h2]
  by_cases hlen : d.input_types_.length ≤ slot.toNat
  · have : (d.input_types_.length : Int) ≤ slot := by omega
    simp [hlen, this]
  have hlen' : ¬ (d.input_types_.length : Int) ≤ slot := by omega
  simp only [hlen, hneg, hlen', decide_False, Bool.or_self, Bool.false_eq_true, if_false,
    or_self, hs']
  obtain ⟨t, hget⟩ : ∃ t, d.input_types_[slot.toNat]? = some t :=
    ⟨_, List.getElem?_eq_getElem (by omega)⟩
  rw [hget]
  simp only [hts, ne_eq, Option.some.injEq, ite_not]

theorem connect_result_cases (s : pipeline)
    (hfrom : ∀ k, map_contains s.nodes_from_ k = map_contains s.nodes_ k)
    (hto : ∀ k, map_contains s.nodes_to_ k = map_contains s.nodes_ k)
    (src dst slot : Int) (h2 : slot ≤ INT_MAX) :
    (connect src dst slot s).result =
      if ¬ (map_contains s.nodes_ src = true ∧ map_contains s.nodes_ dst = true) then
        .error (.pipeline_error .invalid_node_id)
      else if (incoming s dst slot).isSome = true then
        .error (.pipeline_error .slot_already_used)
      else if slot < 0 ∨ ((input_types s dst).length : Int) ≤ slot then
        .error (.pipeline_error .no_such_slot)
      else if (input_types s dst)[slot.toNat]? ≠ output_type s src then
        .error (.pipeline_error .connection_type_mismatch)
      else .ok () := by
  rw [connect_spec s hfrom hto src dst slot h2]
  repeat' split
  all_goals rfl

theorem connect_error_state (s : pipeline) (src dst slot : Int) (k : pipeline_error_kind)
    (h : (connect src dst slot s).result = .error (.pipeline_error k)) :
    (connect src dst slot s).state = s := by
  unfold connect at h ⊢
  dsimp only at h ⊢
  repeat' split
  all_goals first
    | rfl
    | (exfalso; simp [*] at h)

theorem connect_ok_state (s : pipeline) (src dst slot : Int)
    (h : (connect src dst slot s).result = .ok ()) :
    (connect src dst slot s).state = { s with
        nodes_from_ := map_modify s.nodes_from_ dst (fun m => map_emplace m slot src)
        nodes_to_ := map_modify s.nodes_to_ src (fun t => set_insert t dst) } ∧
      (∃ slots, map_find s.nodes_from_ dst = some slots ∧ map_find slots slot = none) ∧
      (∃ tos, map_find s.nodes_to_ src = some tos) := by
  unfold connect at h ⊢
  dsimp only at h ⊢
  repeat' split
  all_goals first
    | (exfalso; simp [*] at h; done)
    | skip
  have hc : ¬ map_contains _ slot = true := ‹¬ map_contains _ slot = true›
  refine ⟨rfl, ⟨_, ‹map_find s.nodes_from_ dst = some _›, ?_⟩,
    ⟨_, ‹map_find s.nodes_to_ src = some _›⟩⟩
  unfold map_contains at hc
  simpa using hc

end pipeline
end ppl

namespace ppl
namespace pipeline

/-! ## The member `disconnect` -/

theorem map_find_unique {V : Type} (m : std_map V) (k : Int) (v w : V)
    (hs : (map_keys m).Pairwise (· < ·)) (hv : (k, v) ∈ m) (hw : (k, w) ∈ m) : v = w := by
  have h1 := map_find_of_mem m k v hs hv
  have h2 := map_find_of_mem m k w hs hw
  rw [h1] at h2
  exact Option.some.inj h2

theorem foldl_map_erase_eq_filter {V : Type} (ks : List Int) (m : std_map V) :
    ks.foldl (fun m slot => map_erase m slot) m = m.filter (fun p => decide (p.1 ∉ ks)) := by
  induction ks generalizing m with
  | nil => simp
  | cons a ks ih =>
    rw [List.foldl_cons, ih]
    unfold map_erase
    rw [List.filter_filter]
    apply List.filter_congr
    intro p _
    simp only [List.mem_cons, not_or, ne_eq, Bool.decide_and, Bool.and_comm]

/-- The two loops of `disconnect` that collect and erase the slots filled by
`src` leave the slots filled by other producers. -/
theorem removed_slots_eq_clear_producer (src : Int) (slots : std_map Int)
    (hs : (map_keys slots).Pairwise (· < ·)) :
    ((slots.filter (fun slot => decide (slot.2 = src))).map Prod.fst).foldl
      (fun m slot => map_erase m slot) slots = clear_producer src slots := by
  rw [foldl_map_erase_eq_filter]
  unfold clear_producer
  apply List.filter_congr
  intro p hp
  obtain ⟨k, u⟩ := p
  have key : k ∈ (slots.filter (fun slot => decide (slot.2 = src))).map Prod.fst ↔ u = src := by
    constructor
    · intro h
      obtain ⟨q, hq, hqk⟩ := List.mem_map.1 h
      obtain ⟨k2, w⟩ := q
      simp only [List.mem_filter, decide_eq_true_eq] at hq
      simp only at hqk
      subst hqk
      rw [map_find_unique slots k2 u w hs hp hq.1]
      exact hq.2
    · intro h
      exact List.mem_map.2 ⟨(k, u), List.mem_filter.2 ⟨hp, by simp [h]⟩, rfl⟩
  simp only [key, ne_eq]

theorem map_find_clear_producer (src : Int) (slots : std_map Int) (k : Int)
    (hs : (map_keys slots).Pairwise (· < ·)) :
    map_find (clear_producer src slots) k =
      if map_find slots k = some src then none else map_find slots k := by
  have hsub : (map_keys (clear_producer src slots)).Pairwise (· < ·) := by
    unfold map_keys clear_producer
    exact List.Pairwise.sublist ((List.filter_sublist _).map _) hs
  cases h : map_find (clear_producer src slots) k with
  | none =>
    cases h' : map_find slots k with
    | none => simp
    | some u =>
      by_cases hu : u = src
      · simp [hu]
      · exfalso
        have hm : (k, u) ∈ clear_producer src slots := by
          unfold clear_producer
          simp only [ne_eq, List.mem_filter, decide_not, Bool.not_eq_eq_eq_not, Bool.not_true,
            decide_eq_false_iff_not]
          exact ⟨mem_of_map_find _ _ _ h', hu⟩
        rw [map_find_of_mem _ _ _ hsub hm] at h
        cases h
  | some u =>
    have hm := mem_of_map_find _ _ _ h
    unfold clear_producer at hm
    simp only [ne_eq, List.mem_filter, decide_not, Bool.not_eq_eq_eq_not, Bool.not_true,
      decide_eq_false_iff_not] at hm
    rw [map_find_of_mem _ _ _ hs hm.1]
    simp [hm.2]

theorem clear_producer_of_not_mem (src : Int) (slots : std_map Int)
    (h : ∀ k, map_find slots k ≠ some src) (hs : (map_keys slots).Pairwise (· < ·)) :
    clear_producer src slots = slots := by
  unfold clear_producer
  rw [List.filter_eq_self]
  intro p hp
  obtain ⟨k, u⟩ := p
  simp only [ne_eq, decide_not, Bool.not_eq_eq_eq_not, Bool.not_true, decide_eq_false_iff_not]
  intro hu
  subst hu
  exact h k (map_find_of_mem _ _ _ hs hp)

theorem disconnect_error (s : pipeline) (src dst : Int) (e : exception)
    (h : (disconnect src dst s).result = .error e) :
    (e = .pipeline_error .invalid_node_id ∧ (disconnect src dst s).state = s ∧
        ¬ (live s src ∧ live s dst)) ∨
      e = .out_of_range := by
  unfold disconnect at h ⊢
  dsimp only at h ⊢
  unfold live
  repeat' split
  all_goals first
    | (exfalso; simp [*] at h; done)
    | (right; simp [*] at h; exact h.symm)
    | skip
  left
  rename_i hl
  simp only [hl, if_true] at h
  refine ⟨by cases h; rfl, rfl, ?_⟩
  intro hh
  simp [hh.1, hh.2] at hl

/-- The tables after `disconnect(src, dst)` on a consistent pipeline. -/
theorem disconnect_spec (s : pipeline) (hw : WF s) (src dst : Int)
    (hsrc : live s src) (hdst : live s dst) :
    ∃ s1, disconnect src dst s = ⟨.ok (), s1⟩ ∧
      s1.nodes_ = s.nodes_ ∧ s1.latest_id_ = s.latest_id_ ∧ s1.node_polls_ = s.node_polls_ ∧
      (∀ u, map_find s1.nodes_to_ u =
        if u = src then (map_find s.nodes_to_ u).map (fun t => set_erase t dst)
        else map_find s.nodes_to_ u) ∧
      (∀ v, map_find s1.nodes_from_ v =
        if v = dst then (map_find s.nodes_from_ v).map (clear_producer src)
        else map_find s.nodes_from_ v) ∧
      (dst ∉ outgoing s src → s1 = s) := by
  unfold live at hsrc hdst
  obtain ⟨tos, hts⟩ := find_of_contains _ _ ((hw.keys_to src).trans hsrc)
  obtain ⟨slots, hsl⟩ := find_of_contains _ _ ((hw.keys_from dst).trans hdst)
  have hout : outgoing s src = tos := by simp [outgoing, hts]
  unfold disconnect
  simp only [hsrc, hdst, Bool.not_true, Bool.or_self, Bool.false_eq_true, if_false, hts, hsl]
  by_cases hmem : dst ∈ tos
  · simp only [hmem, if_true]
    refine ⟨_, rfl, rfl, rfl, rfl, ?_, ?_, ?_⟩
    · intro u
      simp only [map_find_modify]
      by_cases hu : u = src
      · subst hu; rfl
      · simp [hu]
    · intro v
      simp only [map_find_modify]
      by_cases hv : v = dst
      · subst hv
        simp only [hsl, if_true, Option.map_some']
        rw [removed_slots_eq_clear_producer src slots (hw.sorted_in v slots hsl)]
      · simp [hv]
    · intro h; exact absurd (hout ▸ hmem) h
  · simp only [hmem, if_false]
    refine ⟨_, rfl, rfl, rfl, rfl, ?_, ?_, fun _ => rfl⟩
    · intro u
      by_cases hu : u = src
      · subst hu
        simp [hts, set_erase_of_not_mem tos dst hmem]
      · simp [hu]
    · intro v
      by_cases hv : v = dst
      · subst hv
        have hnone : ∀ k, map_find slots k ≠ some src := by
          intro k hk
          apply hmem
          rw [← hout]
          exact (hw.recip src v).2 ⟨k, by simp [incoming, hsl, hk]⟩
        simp [hsl, clear_producer_of_not_mem src slots hnone (hw.sorted_in v slots hsl)]
      · simp [hv]

end pipeline
end ppl

namespace ppl
namespace pipeline

/-! ## Consistency of the tables is preserved -/

theorem live_of_mem_outgoing_src (s : pipeline) (hw : WF s) (u v : Int)
    (h : v ∈ outgoing s u) : live s u := by
  unfold outgoing at h
  unfold live
  rw [← hw.keys_to u]
  unfold map_contains
  cases hf : map_find s.nodes_to_ u with
  | none => simp [hf] at h
  | some t => rfl

theorem live_of_incoming (s : pipeline) (hw : WF s) (v k u : Int)
    (h : incoming s v k = some u) : live s v ∧ live s u := by
  constructor
  · unfold incoming at h
    unfold live
    rw [← hw.keys_from v]
    unfold map_contains
    cases hf : map_find s.nodes_from_ v with
    | none => simp [hf] at h
    | some t => rfl
  · exact live_of_mem_outgoing_src s hw u v ((hw.recip u v).2 ⟨k, h⟩)

theorem WF_init : WF init := by
  constructor <;> simp [init, map_contains, map_find, map_keys, outgoing, incoming, live]

theorem WF_polls (s : pipeline) (hw : WF s) (p : std_map poll) :
    WF { s with node_polls_ := p } := by
  obtain ⟨h1, h2, h3, h4, h5, h6, h7, h8, h9⟩ := hw
  exact ⟨h1, h2, h3, h4, h5, h6, h7, h8, h9⟩

theorem WF_disconnect_state (s s1 : pipeline) (hw : WF s) (src dst : Int)
    (hn : s1.nodes_ = s.nodes_) (hlat : s1.latest_id_ = s.latest_id_)
    (hto : ∀ u, map_find s1.nodes_to_ u =
        if u = src then (map_find s.nodes_to_ u).map (fun t => set_erase t dst)
        else map_find s.nodes_to_ u)
    (hfrom : ∀ v, map_find s1.nodes_from_ v =
        if v = dst then (map_find s.nodes_from_ v).map (clear_producer src)
        else map_find s.nodes_from_ v) :
    WF s1 ∧
    (∀ u x, x ∈ outgoing s1 u ↔ x ∈ outgoing s u ∧ ¬ (u = src ∧ x = dst)) ∧
    (∀ v k, incoming s1 v k =
      if v = dst ∧ incoming s v k = some src then none else incoming s v k) := by
  have hout : ∀ u x, x ∈ outgoing s1 u ↔ x ∈ outgoing s u ∧ ¬ (u = src ∧ x = dst) := by
    intro u x
    unfold outgoing
    rw [hto u]
    by_cases hu : u = src
    · subst hu
      cases hf : map_find s.nodes_to_ u with
      | none => simp
      | some t => simp [mem_set_erase]
    · simp [hu]
  have hin : ∀ v k, incoming s1 v k =
      if v = dst ∧ incoming s v k = some src then none else incoming s v k := by
    intro v k
    unfold incoming
    rw [hfrom v]
    by_cases hv : v = dst
    · subst hv
      cases hf : map_find s.nodes_from_ v with
      | none => simp
      | some slots =>
        simp only [if_true, Option.map_some', Option.some_bind, true_and]
        exact map_find_clear_producer src slots k (hw.sorted_in v slots hf)
    · simp [hv]
  have hit : ∀ v, input_types s1 v = input_types s v := by
    intro v; unfold input_types; rw [hn]
  have hot : ∀ v, output_type s1 v = output_type s v := by
    intro v; unfold output_type; rw [hn]
  refine ⟨?_, hout, hin⟩
  constructor
  · intro k
    rw [hn, ← hw.keys_to k]
    unfold map_contains
    rw [hto k]
    by_cases hk : k = src
    · subst hk; cases map_find s.nodes_to_ k <;> simp
    · simp [hk]
  · intro k
    rw [hn, ← hw.keys_from k]
    unfold map_contains
    rw [hfrom k]
    by_cases hk : k = dst
    · subst hk; cases map_find s.nodes_from_ k <;> simp
    · simp [hk]
  · rw [hn]; exact hw.sorted_nodes
  · intro u tos h
    rw [hto u] at h
    by_cases hu : u = src
    · subst hu
      cases hf : map_find s.nodes_to_ u with
      | none => simp [hf] at h
      | some t =>
        simp only [hf, if_true, Option.map_some', Option.some.injEq] at h
        subst h
        exact set_erase_pairwise t dst (hw.sorted_out u t hf)
    · simp only [hu, if_false] at h
      exact hw.sorted_out u tos h
  · intro v slots h
    rw [hfrom v] at h
    by_cases hv : v = dst
    · subst hv
      cases hf : map_find s.nodes_from_ v with
      | none => simp [hf] at h
      | some t =>
        simp only [hf, if_true, Option.map_some', Option.some.injEq] at h
        subst h
        unfold map_keys clear_producer
        exact List.Pairwise.sublist ((List.filter_sublist _).map _) (hw.sorted_in v t hf)
    · simp only [hv, if_false] at h
      exact hw.sorted_in v slots h
  · intro u v h
    unfold live
    rw [hn]
    exact hw.out_live u v ((hout u v).1 h).1
  · intro u v
    rw [hout u v, hw.recip u v]
    constructor
    · rintro ⟨⟨k, hk⟩, hne⟩
      refine ⟨k, ?_⟩
      rw [hin v k, hk]
      by_cases hv : v = dst
      · have : u ≠ src := fun hu => hne ⟨hu, hv⟩
        simp [hv, this]
      · simp [hv]
    · rintro ⟨k, hk⟩
      rw [hin v k] at hk
      split at hk
      · cases hk
      · rename_i hc
        refine ⟨⟨k, hk⟩, ?_⟩
        rintro ⟨hu, hv⟩
        subst hu hv
        exact hc ⟨rfl, hk⟩
  · intro v k u h
    rw [hin v k] at h
    split at h
    · cases h
    · rw [hit, hot]
      exact hw.slots_ok v k u h
  · intro k hk
    unfold live at hk
    rw [hn] at hk
    rw [hlat]
    exact hw.ids_le k hk

theorem WF_disconnect (s : pipeline) (hw : WF s) (src dst : Int) :
    WF (disconnect src dst s).state := by
  by_cases hl : live s src ∧ live s dst
  · obtain ⟨s1, h1, hn, hlat, _, hto, hfrom, _⟩ := disconnect_spec s hw src dst hl.1 hl.2
    rw [h1]
    exact (WF_disconnect_state s s1 hw src dst hn hlat hto hfrom).1
  · have : (disconnect src dst s).state = s := by
      unfold live at hl
      unfold disconnect
      have : (!map_contains s.nodes_ src || !map_contains s.nodes_ dst) = true := by
        by_cases h1 : map_contains s.nodes_ src = true
        · by_cases h2 : map_contains s.nodes_ dst = true
          · exact absurd ⟨h1, h2⟩ hl
          · simp [h2]
        · simp [h1]
      simp [this]
    rw [this]; exact hw

theorem create_node_fresh (s : pipeline) (hw : WF s) :
    map_find s.nodes_ (s.latest_id_ + 1) = none := by
  cases h : map_find s.nodes_ (s.latest_id_ + 1) with
  | none => rfl
  | some n =>
    have := hw.ids_le (s.latest_id_ + 1) (contains_of_find _ _ _ h)
    omega

/-- The node map after `create_node<N>`: the new id holds the node data of `N`,
the other ids hold what they held. -/
theorem create_node_nodes (s : pipeline) (hw : WF s) (N : concrete_node) (u : Int) :
    map_find (create_node N s).1.nodes_ u =
      if u = s.latest_id_ + 1 then
        some { input_types_ := N.input_type, output_type_ := N.output_type,
               is_source := N.derived_from_source,
               is_sink := decide (N.output_type = typeid_void) }
      else map_find s.nodes_ u := by
  have hfresh := create_node_fresh s hw
  unfold create_node
  by_cases hu : u = s.latest_id_ + 1
  · subst hu
    by_cases ho : N.output_type = typeid_void
    · simp [map_find_modify, map_find_emplace, hfresh, fresh_node, ho]
    · simp [map_find_modify, map_find_emplace, hfresh, fresh_node, ho]
  · by_cases ho : N.output_type = typeid_void
    · simp [map_find_modify, map_find_emplace, hu, ho]
    · simp [map_find_modify, map_find_emplace, hu, ho]

theorem create_node_keys (s : pipeline) (N : concrete_node) :
    map_keys (create_node N s).1.nodes_ =
      map_keys (map_emplace s.nodes_ (s.latest_id_ + 1) fresh_node) := by
  unfold create_node
  by_cases ho : N.output_type = typeid_void
  · simp [map_keys_modify, ho]
  · simp [map_keys_modify, ho]

theorem WF_create_node (s : pipeline) (hw : WF s) (N : concrete_node) :
    WF (create_node N s).1 := by
  have hnodes := create_node_nodes s hw N
  have hcont : ∀ u, map_contains (create_node N s).1.nodes_ u =
      (decide (u = s.latest_id_ + 1) || map_contains s.nodes_ u) := by
    intro u
    unfold map_contains
    rw [hnodes u]
    by_cases hu : u = s.latest_id_ + 1 <;> simp [hu]
  have hout : ∀ u, outgoing (create_node N s).1 u = outgoing s u := by
    intro u
    unfold outgoing create_node
    simp only [map_find_emplace]
    by_cases hu : u = s.latest_id_ + 1
    · subst hu; cases map_find s.nodes_to_ (s.latest_id_ + 1) <;> simp
    · simp [hu]
  have hin : ∀ v k, incoming (create_node N s).1 v k = incoming s v k := by
    intro v k
    unfold incoming create_node
    simp only [map_find_emplace]
    by_cases hv : v = s.latest_id_ + 1
    · subst hv; cases map_find s.nodes_from_ (s.latest_id_ + 1) <;> simp [map_find]
    · simp [hv]
  have hlive : ∀ u, live s u → live (create_node N s).1 u := by
    intro u h
    unfold live at *
    rw [hcont, h]
    simp
  have hfind : ∀ u, live s u → map_find (create_node N s).1.nodes_ u = map_find s.nodes_ u := by
    intro u h
    have hu : u ≠ s.latest_id_ + 1 := by
      have := hw.ids_le u h
      omega
    rw [hnodes u, if_neg hu]
  constructor
  · intro k
    rw [hcont]
    simp only [create_node, map_contains_emplace, hw.keys_to k]
  · intro k
    rw [hcont]
    simp only [create_node, map_contains_emplace, hw.keys_from k]
  · rw [create_node_keys]
    exact map_keys_emplace_pairwise _ _ _ hw.sorted_nodes
  · intro u tos h
    simp only [create_node, map_find_emplace] at h
    by_cases hu : u = s.latest_id_ + 1
    · subst hu
      cases hf : map_find s.nodes_to_ (s.latest_id_ + 1) with
      | none => simp [hf] at h; subst h; exact List.Pairwise.nil
      | some t => simp [hf] at h; subst h; exact hw.sorted_out _ _ hf
    · simp only [hu, if_false] at h; exact hw.sorted_out _ _ h
  · intro u tos h
    simp only [create_node, map_find_emplace] at h
    by_cases hu : u = s.latest_id_ + 1
    · subst hu
      cases hf : map_find s.nodes_from_ (s.latest_id_ + 1) with
      | none => simp [hf] at h; subst h; exact List.Pairwise.nil
      | some t => simp [hf] at h; subst h; exact hw.sorted_in _ _ hf
    · simp only [hu, if_false] at h; exact hw.sorted_in _ _ h
  · intro u v h
    rw [hout] at h
    exact hlive v (hw.out_live u v h)
  · intro u v
    rw [hout]
    simp only [hin]
    exact hw.recip u v
  · intro v k u h
    rw [hin] at h
    obtain ⟨hv, hu⟩ := live_of_incoming s hw v k u h
    unfold input_types output_type
    rw [hfind v hv, hfind u hu]
    exact hw.slots_ok v k u h
  · intro k hk
    unfold live at hk
    rw [hcont] at hk
    have hlat : (create_node N s).1.latest_id_ = s.latest_id_ + 1 := rfl
    rw [hlat]
    by_cases hk1 : k = s.latest_id_ + 1
    · omega
    · simp only [hk1, decide_False, Bool.false_or] at hk
      have := hw.ids_le k hk
      omega

theorem WF_connect (s : pipeline) (hw : WF s) (src dst slot : Int) (h2 : slot ≤ INT_MAX) :
    WF (connect src dst slot s).state := by
  rw [connect_spec s hw.keys_from hw.keys_to src dst slot h2]
  split
  · exact hw
  rename_i hlive
  rw [not_not] at hlive
  split
  · exact hw
  rename_i hfree
  split
  · exact hw
  rename_i hrange
  split
  · exact hw
  rename_i htype
  rw [not_not] at htype
  obtain ⟨tos, hts⟩ := find_of_contains _ _ ((hw.keys_to src).trans hlive.1)
  obtain ⟨slots, hsl⟩ := find_of_contains _ _ ((hw.keys_from dst).trans hlive.2)
  have hfree' : map_find slots slot = none := by
    simp only [incoming, hsl, Option.some_bind] at hfree
    simpa using hfree
  have hout : ∀ u x, x ∈ outgoing { s with
          nodes_from_ := map_modify s.nodes_from_ dst (fun m => map_emplace m slot src)
          nodes_to_ := map_modify s.nodes_to_ src (fun t => set_insert t dst) } u ↔
        x ∈ outgoing s u ∨ (u = src ∧ x = dst) := by
    intro u x
    unfold outgoing
    simp only [map_find_modify]
    by_cases hu : u = src
    · subst hu
      simp only [hts, if_true, Option.map_some', Option.getD_some, mem_set_insert, true_and]
      tauto
    · simp [hu]
  have hin : ∀ v k, incoming { s with
          nodes_from_ := map_modify s.nodes_from_ dst (fun m => map_emplace m slot src)
          nodes_to_ := map_modify s.nodes_to_ src (fun t => set_insert t dst) } v k =
        if v = dst ∧ k = slot then some src else incoming s v k := by
    intro v k
    unfold incoming
    simp only [map_find_modify]
    by_cases hv : v = dst
    · subst hv
      simp only [hsl, if_true, Option.map_some', Option.some_bind, map_find_emplace, true_and]
      by_cases hk : k = slot
      · subst hk; simp [hfree']
      · simp [hk]
    · simp [hv]
  constructor
  · intro k; simp only [map_contains_modify]; exact hw.keys_to k
  · intro k; simp only [map_contains_modify]; exact hw.keys_from k
  · exact hw.sorted_nodes
  · intro u t h
    simp only [map_find_modify] at h
    by_cases hu : u = src
    · subst hu
      simp only [hts, if_true, Option.map_some', Option.some.injEq] at h
      subst h
      exact set_insert_pairwise _ _ (hw.sorted_out u tos hts)
    · simp only [hu, if_false] at h; exact hw.sorted_out u t h
  · intro v m h
    simp only [map_find_modify] at h
    by_cases hv : v = dst
    · subst hv
      simp only [hsl, if_true, Option.map_some', Option.some.injEq] at h
      subst h
      exact map_keys_emplace_pairwise _ _ _ (hw.sorted_in v slots hsl)
    · simp only [hv, if_false] at h; exact hw.sorted_in v m h
  · intro u v h
    rcases (hout u v).1 h with h | ⟨_, hv⟩
    · exact hw.out_live u v h
    · subst hv; exact hlive.2
  · intro u v
    rw [hout u v, hw.recip u v]
    constructor
    · rintro (⟨k, hk⟩ | ⟨hu, hv⟩)
      · refine ⟨k, ?_⟩
        rw [hin v k]
        split
        · rename_i hc
          obtain ⟨hv, hk'⟩ := hc
          subst hv hk'
          simp [incoming, hsl, hfree'] at hk
        · exact hk
      · exact ⟨slot, by rw [hin v slot]; simp [hu, hv]⟩
    · rintro ⟨k, hk⟩
      rw [hin v k] at hk
      split at hk
      · rename_i hc
        right
        exact ⟨(Option.some.inj hk).symm, hc.1⟩
      · exact Or.inl ⟨k, hk⟩
  · intro v k u h
    rw [hin v k] at h
    split at h
    · rename_i hc
      obtain ⟨hv, hk⟩ := hc
      cases h
      subst hv hk
      refine ⟨by omega, h2, ?_⟩
      exact htype
    · exact hw.slots_ok v k u h
  · exact hw.ids_le

end pipeline
end ppl

namespace ppl
namespace pipeline

/-! ## The member `erase_node` -/

theorem set_erase_idem (t : std_set) (k : Int) : set_erase (set_erase t k) k = set_erase t k := by
  unfold set_erase
  rw [List.filter_filter]
  simp

theorem clear_producer_idem (p : Int) (m : std_map Int) :
    clear_producer p (clear_producer p m) = clear_producer p m := by
  unfold clear_producer
  rw [List.filter_filter]
  simp

/-- The first loop of `erase_node`: every producer in the list loses `n_id`. -/
theorem disconnect_each_true_spec (n_id : Int) (l : List Int) :
    ∀ s : pipeline, WF s → live s n_id → (∀ p ∈ l, live s p) →
    ∃ s1, disconnect_each true n_id l s = ⟨.ok (), s1⟩ ∧ WF s1 ∧
      s1.nodes_ = s.nodes_ ∧ s1.latest_id_ = s.latest_id_ ∧ s1.node_polls_ = s.node_polls_ ∧
      (∀ u, map_find s1.nodes_to_ u =
        (map_find s.nodes_to_ u).map (fun t => if u ∈ l then set_erase t n_id else t)) ∧
      (∀ v, v ≠ n_id → map_find s1.nodes_from_ v = map_find s.nodes_from_ v) := by
  induction l with
  | nil =>
    intro s hw _ _
    exact ⟨s, rfl, hw, rfl, rfl, rfl, by intro u; simp, fun _ _ => rfl⟩
  | cons p rest ih =>
    intro s hw hid hl
    obtain ⟨sa, hsa, hn, hlat, hpoll, hto, hfrom, _⟩ :=
      disconnect_spec s hw p n_id (hl p (List.mem_cons_self _ _)) hid
    have hwa := (WF_disconnect_state s sa hw p n_id hn hlat hto hfrom).1
    have hlive : ∀ x, live sa x ↔ live s x := by intro x; unfold live; rw [hn]
    obtain ⟨s1, hs1, hw1, hn1, hlat1, hpoll1, hto1, hfrom1⟩ :=
      ih sa hwa ((hlive _).2 hid) (fun q hq => (hlive _).2 (hl q (List.mem_cons_of_mem _ hq)))
    refine ⟨s1, ?_, hw1, hn1.trans hn, hlat1.trans hlat, hpoll1.trans hpoll, ?_, ?_⟩
    · simp only [disconnect_each, if_true, hsa]
      exact hs1
    · intro u
      rw [hto1 u, hto u]
      cases hf : map_find s.nodes_to_ u with
      | none => simp
      | some t =>
        by_cases hu : u = p
        · subst hu
          by_cases hr : u ∈ rest
          · simp [hr, set_erase_idem]
          · simp [hr]
        · by_cases hr : u ∈ rest
          · simp [hu, hr]
          · simp [hu, hr]
    · intro v hv
      rw [hfrom1 v hv, hfrom v]
      simp [hv]

/-- The second loop of `erase_node`: every consumer in the list loses the slots
filled by `n_id`. -/
theorem disconnect_each_false_spec (n_id : Int) (l : List Int) :
    ∀ s : pipeline, WF s → live s n_id → (∀ c ∈ l, live s c) →
    ∃ s1, disconnect_each false n_id l s = ⟨.ok (), s1⟩ ∧ WF s1 ∧
      s1.nodes_ = s.nodes_ ∧ s1.latest_id_ = s.latest_id_ ∧ s1.node_polls_ = s.node_polls_ ∧
      (∀ u, u ≠ n_id → map_find s1.nodes_to_ u = map_find s.nodes_to_ u) ∧
      (∀ x, x ∈ outgoing s1 n_id → x ∈ outgoing s n_id ∧ x ∉ l) ∧
      (∀ v, map_find s1.nodes_from_ v =
        (map_find s.nodes_from_ v).map (fun m => if v ∈ l then clear_producer n_id m else m)) := by
  induction l with
  | nil =>
    intro s hw _ _
    exact ⟨s, rfl, hw, rfl, rfl, rfl, fun _ _ => rfl, by intro x hx; simp [hx],
      by intro u; simp⟩
  | cons c rest ih =>
    intro s hw hid hl
    obtain ⟨sa, hsa, hn, hlat, hpoll, hto, hfrom, _⟩ :=
      disconnect_spec s hw n_id c hid (hl c (List.mem_cons_self _ _))
    obtain ⟨hwa, houta, _⟩ := WF_disconnect_state s sa hw n_id c hn hlat hto hfrom
    have hlive : ∀ x, live sa x ↔ live s x := by intro x; unfold live; rw [hn]
    obtain ⟨s1, hs1, hw1, hn1, hlat1, hpoll1, hto1, hout1, hfrom1⟩ :=
      ih sa hwa ((hlive _).2 hid) (fun q hq => (hlive _).2 (hl q (List.mem_cons_of_mem _ hq)))
    refine ⟨s1, ?_, hw1, hn1.trans hn, hlat1.trans hlat, hpoll1.trans hpoll, ?_, ?_, ?_⟩
    · simp only [disconnect_each, Bool.false_eq_true, if_false, hsa]
      exact hs1
    · intro u hu
      rw [hto1 u hu, hto u]
      simp [hu]
    · intro x hx
      obtain ⟨h1, h2⟩ := hout1 x hx
      obtain ⟨h3, h4⟩ := (houta n_id x).1 h1
      refine ⟨h3, ?_⟩
      simp only [List.mem_cons, not_or]
      exact ⟨fun hxc => h4 ⟨rfl, hxc⟩, h2⟩
    · intro v
      rw [hfrom1 v, hfrom v]
      cases hf : map_find s.nodes_from_ v with
      | none => simp
      | some m =>
        by_cases hv : v = c
        · subst hv
          by_cases hr : v ∈ rest
          · simp [hr, clear_producer_idem]
          · simp [hr]
        · by_cases hr : v ∈ rest
          · simp [hv, hr]
          · simp [hv, hr]

/-- Erasing the entries of a node that no adjacency entry mentions keeps the
tables consistent. -/
theorem WF_erase_entries (s : pipeline) (hw : WF s) (n_id : Int)
    (hout : ∀ u, n_id ∉ outgoing s u) (hout2 : ∀ x, x ∉ outgoing s n_id) :
    WF { s with
      nodes_ := map_erase s.nodes_ n_id
      nodes_to_ := map_erase s.nodes_to_ n_id
      nodes_from_ := map_erase s.nodes_from_ n_id } := by
  have hin2 : ∀ v k, incoming s v k ≠ some n_id := by
    intro v k h
    exact hout2 v ((hw.recip n_id v).2 ⟨k, h⟩)
  have hin3 : ∀ k u, incoming s n_id k ≠ some u := by
    intro k u h
    exact hout u ((hw.recip u n_id).2 ⟨k, h⟩)
  have houtE : ∀ u, outgoing { s with
      nodes_ := map_erase s.nodes_ n_id
      nodes_to_ := map_erase s.nodes_to_ n_id
      nodes_from_ := map_erase s.nodes_from_ n_id } u = outgoing s u := by
    intro u
    unfold outgoing
    simp only [map_find_erase]
    by_cases hu : u = n_id
    · subst hu
      have := hout2
      unfold outgoing at this
      simp only [if_true, Option.getD_none]
      symm
      exact List.eq_nil_iff_forall_not_mem.2 this
    · simp [hu]
  have hinE : ∀ v k, incoming { s with
      nodes_ := map_erase s.nodes_ n_id
      nodes_to_ := map_erase s.nodes_to_ n_id
      nodes_from_ := map_erase s.nodes_from_ n_id } v k = incoming s v k := by
    intro v k
    unfold incoming
    simp only [map_find_erase]
    by_cases hv : v = n_id
    · subst hv
      simp only [if_true, Option.none_bind]
      have := hin3 k
      unfold incoming at this
      cases hf : (map_find s.nodes_from_ v).bind (fun slots => map_find slots k) with
      | none => rfl
      | some u => exact absurd hf (this u)
    · simp [hv]
  constructor
  · intro k; simp only [map_contains_erase, hw.keys_to k]
  · intro k; simp only [map_contains_erase, hw.keys_from k]
  · exact map_keys_erase_pairwise _ _ hw.sorted_nodes
  · intro u tos h
    simp only [map_find_erase] at h
    split at h
    · cases h
    · exact hw.sorted_out u tos h
  · intro u tos h
    simp only [map_find_erase] at h
    split at h
    · cases h
    · exact hw.sorted_in u tos h
  · intro u v h
    rw [houtE] at h
    have hv : v ≠ n_id := by rintro rfl; exact hout u h
    have := hw.out_live u v h
    unfold live at this ⊢
    simp [map_contains_erase, hv, this]
  · intro u v
    rw [houtE]
    simp only [hinE]
    exact hw.recip u v
  · intro v k u h
    rw [hinE] at h
    have hv : v ≠ n_id := by rintro rfl; exact hin3 k u h
    have hu : u ≠ n_id := by rintro rfl; exact hin2 v k h
    unfold input_types output_type
    simp only [map_find_erase, hv, hu, if_false]
    exact hw.slots_ok v k u h
  · intro k hk
    unfold live at hk
    rw [map_contains_erase] at hk
    simp only [Bool.and_eq_true] at hk
    exact hw.ids_le k hk.2

/-- The tables after `erase_node(n_id)` on a consistent pipeline. -/
theorem erase_node_spec (s : pipeline) (hw : WF s) (n_id : Int) (hid : live s n_id) :
    ∃ s1, erase_node n_id s = ⟨.ok (), s1⟩ ∧ WF s1 ∧
      s1.nodes_ = map_erase s.nodes_ n_id ∧
      s1.latest_id_ = s.latest_id_ ∧ s1.node_polls_ = s.node_polls_ ∧
      (∀ u, map_find s1.nodes_to_ u =
        if u = n_id then none else (map_find s.nodes_to_ u).map (fun t => set_erase t n_id)) ∧
      (∀ v, map_find s1.nodes_from_ v =
        if v = n_id then none else (map_find s.nodes_from_ v).map (clear_producer n_id)) := by
  have hid' : map_contains s.nodes_ n_id = true := hid
  obtain ⟨slots, hsl⟩ := find_of_contains _ _ ((hw.keys_from n_id).trans hid')
  -- first loop
  have hl1 : ∀ p ∈ slots.map Prod.snd, live s p := by
    intro p hp
    obtain ⟨q, hq, rfl⟩ := List.mem_map.1 hp
    have : incoming s n_id q.1 = some q.2 := by
      simp only [incoming, hsl, Option.some_bind]
      exact map_find_of_mem _ _ _ (hw.sorted_in n_id slots hsl) hq
    exact (live_of_incoming s hw _ _ _ this).2
  obtain ⟨s1, hs1, hw1, hn1, hlat1, hpoll1, hto1, hfrom1⟩ :=
    disconnect_each_true_spec n_id (slots.map Prod.snd) s hw hid hl1
  have hto1' : ∀ u, map_find s1.nodes_to_ u =
      (map_find s.nodes_to_ u).map (fun t => set_erase t n_id) := by
    intro u
    rw [hto1 u]
    cases hf : map_find s.nodes_to_ u with
    | none => rfl
    | some t =>
      by_cases hu : u ∈ slots.map Prod.snd
      · simp [hu]
      · simp only [Option.map_some', hu, if_false, Option.some.injEq]
        symm
        apply set_erase_of_not_mem
        intro hmem
        have : n_id ∈ outgoing s u := by simp [outgoing, hf, hmem]
        obtain ⟨k, hk⟩ := (hw.recip u n_id).1 this
        simp only [incoming, hsl, Option.some_bind] at hk
        exact hu (List.mem_map.2 ⟨(k, u), mem_of_map_find _ _ _ hk, rfl⟩)
  have hlive1 : ∀ x, live s1 x ↔ live s x := by intro x; unfold live; rw [hn1]
  -- second loop
  obtain ⟨tos, hts⟩ := find_of_contains _ _ ((hw.keys_to n_id).trans hid')
  have hts1 : map_find s1.nodes_to_ n_id = some (set_erase tos n_id) := by
    rw [hto1' n_id, hts]; rfl
  have hl2 : ∀ c ∈ set_erase tos n_id, live s1 c := by
    intro c hc
    apply hw1.out_live n_id c
    simp [outgoing, hts1, hc]
  obtain ⟨s2, hs2, hw2, hn2, hlat2, hpoll2, hto2, hout2, hfrom2⟩ :=
    disconnect_each_false_spec n_id (set_erase tos n_id) s1 hw1 ((hlive1 _).2 hid) hl2
  have hout2' : ∀ x, x ∉ outgoing s2 n_id := by
    intro x hx
    obtain ⟨h1, h2⟩ := hout2 x hx
    apply h2
    simpa [outgoing, hts1] using h1
  have hfrom2' : ∀ v, v ≠ n_id → map_find s2.nodes_from_ v =
      (map_find s.nodes_from_ v).map (clear_producer n_id) := by
    intro v hv
    rw [hfrom2 v, hfrom1 v hv]
    cases hf : map_find s.nodes_from_ v with
    | none => rfl
    | some m =>
      by_cases hc : v ∈ set_erase tos n_id
      · simp [hc]
      · simp only [Option.map_some', hc, if_false, Option.some.injEq]
        symm
        apply clear_producer_of_not_mem _ _ _ (hw.sorted_in v m hf)
        intro k hk
        apply hc
        have h1 : incoming s1 v k = some n_id := by
          simp [incoming, hfrom1 v hv, hf, hk]
        have := (hw1.recip n_id v).2 ⟨k, h1⟩
        simpa [outgoing, hts1] using this
  have hout3 : ∀ u, n_id ∉ outgoing s2 u := by
    intro u
    by_cases hu : u = n_id
    · subst hu; exact hout2' u
    · unfold outgoing
      rw [hto2 u hu, hto1' u]
      cases hf : map_find s.nodes_to_ u with
      | none => simp
      | some t => simp [mem_set_erase]
  refine ⟨_, ?_, WF_erase_entries s2 hw2 n_id hout3 hout2', ?_, hlat2.trans hlat1,
    hpoll2.trans hpoll1, ?_, ?_⟩
  · unfold erase_node
    simp only [hid', Bool.not_true, Bool.false_eq_true, if_false, hsl, hs1]
    have : map_find s1.nodes_to_ n_id = some (set_erase tos n_id) := hts1
    simp only [this, hs2]
  · simp only [hn2, hn1]
  · intro u
    simp only [map_find_erase]
    by_cases hu : u = n_id
    · simp [hu]
    · simp only [hu, if_false]
      rw [hto2 u hu, hto1' u]
  · intro v
    simp only [map_find_erase]
    by_cases hv : v = n_id
    · simp [hv]
    · simp only [hv, if_false]
      exact hfrom2' v hv

theorem erase_node_error (s : pipeline) (n_id : Int) (hn : ¬ live s n_id) :
    erase_node n_id s = ⟨.error (.pipeline_error .invalid_node_id), s⟩ := by
  unfold live at hn
  unfold erase_node
  simp [hn]

theorem WF_erase_node (s : pipeline) (hw : WF s) (n_id : Int) :
    WF (erase_node n_id s).state := by
  by_cases hl : live s n_id
  · obtain ⟨s1, h1, hw1, _⟩ := erase_node_spec s hw n_id hl
    rw [h1]; exact hw1
  · rw [erase_node_error s n_id hl]; exact hw

/-- Every state of a pipeline object has consistent tables. -/
theorem Reachable.wf {s : pipeline} (h : Reachable s) : WF s := by
  induction h with
  | init => exact WF_init
  | create_node N s _ _ ih => exact WF_create_node s ih N
  | connect src dst slot s _ _ h2 ih => exact WF_connect s ih src dst slot h2
  | disconnect src dst s _ ih => exact WF_disconnect s ih src dst
  | erase_node n_id s _ ih => exact WF_erase_node s ih n_id
  | polls p s _ ih => exact WF_polls s ih p

end pipeline
end ppl

namespace ppl
namespace pipeline

/-! ## Reachability of the test pipelines -/

theorem reachable_connect_int (s : pipeline) (src dst slot : Int) (h : Reachable s)
    (h1 : -2147483648 ≤ slot) (h2 : slot ≤ 2147483647) :
    Reachable (connect src dst slot s).state :=
  Reachable.connect src dst slot s h h1 h2

theorem reachable_mismatch_nodes : Reachable examples.mismatch_nodes :=
  Reachable.create_node _ _ (Reachable.create_node _ _ (Reachable.create_node _ _
    (Reachable.create_node _ _ (Reachable.create_node _ _ Reachable.init (by decide))
      (by decide)) (by decide)) (by decide)) (by decide)

theorem reachable_same_source_nodes : Reachable examples.same_source_nodes :=
  Reachable.create_node _ _ (Reachable.create_node _ _ Reachable.init (by decide)) (by decide)

theorem reachable_same_source : Reachable examples.same_source :=
  reachable_connect_int _ _ _ _ (reachable_connect_int _ _ _ _ reachable_same_source_nodes
    (by decide) (by decide)) (by decide) (by decide)

theorem reachable_erase_cascade : Reachable examples.erase_cascade :=
  reachable_connect_int _ _ _ _ (reachable_connect_int _ _ _ _
    (Reachable.create_node _ _ (Reachable.create_node _ _
      (Reachable.create_node _ _ Reachable.init (by decide)) (by decide)) (by decide))
    (by decide) (by decide)) (by decide) (by decide)

theorem reachable_single_sink : Reachable examples.single_sink :=
  reachable_connect_int _ _ _ _ (reachable_connect_int _ _ _ _ (reachable_connect_int _ _ _ _
    (Reachable.create_node _ _ (Reachable.create_node _ _ (Reachable.create_node _ _
      (Reachable.create_node _ _ Reachable.init (by decide)) (by decide)) (by decide))
      (by decide))
    (by decide) (by decide)) (by decide) (by decide)) (by decide) (by decide)

theorem reachable_chain : Reachable examples.chain :=
  reachable_connect_int _ _ _ _ (reachable_connect_int _ _ _ _
    (Reachable.create_node _ _ (Reachable.create_node _ _
      (Reachable.create_node _ _ Reachable.init (by decide)) (by decide)) (by decide))
    (by decide) (by decide)) (by decide) (by decide)

theorem reachable_two_chains : Reachable examples.two_chains :=
  reachable_connect_int _ _ _ _ (reachable_connect_int _ _ _ _
    (Reachable.create_node _ _ (Reachable.create_node _ _
      (Reachable.create_node _ _ reachable_chain (by decide)) (by decide)) (by decide))
    (by decide) (by decide)) (by decide) (by decide)

end pipeline
end ppl

namespace ppl
namespace pipeline

/-! ## Claims about the graph store -/

/-- C1: in every state of a pipeline, `connect(src, dst, slot)` fails with the first
error that applies, in the order invalid_node_id, slot_already_used, no_such_slot,
connection_type_mismatch, and it succeeds exactly when none applies. -/
theorem connect_error_priority (s : pipeline) (hs : Reachable s) (src dst slot : Int)
    (hslot : INT_MIN ≤ slot ∧ slot ≤ INT_MAX) :
    (¬ (live s src ∧ live s dst) →
      (connect src dst slot s).result = .error (.pipeline_error .invalid_node_id)) ∧
    (live s src → live s dst → (∃ u, incoming s dst slot = some u) →
      (connect src dst slot s).result = .error (.pipeline_error .slot_already_used)) ∧
    (live s src → live s dst → incoming s dst slot = none →
      (slot < 0 ∨ ((input_types s dst).length : Int) ≤ slot) →
      (connect src dst slot s).result = .error (.pipeline_error .no_such_slot)) ∧
    (live s src → live s dst → incoming s dst slot = none →
      0 ≤ slot → slot < ((input_types s dst).length : Int) →
      (input_types s dst)[slot.toNat]? ≠ output_type s src →
      (connect src dst slot s).result = .error (.pipeline_error .connection_type_mismatch)) ∧
    ((connect src dst slot s).result = .ok () ↔
      live s src ∧ live s dst ∧ incoming s dst slot = none ∧
      0 ≤ slot ∧ slot < ((input_types s dst).length : Int) ∧
      (input_types s dst)[slot.toNat]? = output_type s src) := by
  have hw := hs.wf
  have hr := connect_result_cases s hw.keys_from hw.keys_to src dst slot hslot.2
  unfold live
  refine ⟨?_, ?_, ?_, ?_, ?_⟩
  · intro h
    rw [hr, if_pos h]
  · rintro h1 h2 ⟨u, hu⟩
    rw [hr, if_neg (not_not.2 ⟨h1, h2⟩), if_pos (by simp [hu])]
  · intro h1 h2 h3 h4
    rw [hr, if_neg (not_not.2 ⟨h1, h2⟩), if_neg (by simp [h3]), if_pos h4]
  · intro h1 h2 h3 h4 h5 h6
    rw [hr, if_neg (not_not.2 ⟨h1, h2⟩), if_neg (by simp [h3]), if_neg (by omega), if_pos h6]
  · rw [hr]
    constructor
    · intro h
      split at h
      · cases h
      rename_i h1
      split at h
      · cases h
      rename_i h2
      split at h
      · cases h
      rename_i h3
      split at h
      · cases h
      rename_i h4
      rw [not_not] at h1 h4
      refine ⟨h1.1, h1.2, ?_, by omega, by omega, h4⟩
      cases hi : incoming s dst slot with
      | none => rfl
      | some u => simp [hi] at h2
    · rintro ⟨h1, h2, h3, h4, h5, h6⟩
      rw [if_neg (not_not.2 ⟨h1, h2⟩), if_neg (by simp [h3]), if_neg (by omega),
        if_neg (not_not.2 h6)]

/-- C1, on the pipeline of "Testing connection type match and mismatch":
`connect(source1, c, 1)` reports the type mismatch. -/
theorem connect_error_priority_witness :
    Reachable examples.mismatch_nodes ∧ (INT_MIN ≤ (1 : Int) ∧ (1 : Int) ≤ INT_MAX) ∧
    (connect 1 5 1 examples.mismatch_nodes).result =
      .error (.pipeline_error .connection_type_mismatch) :=
  ⟨reachable_mismatch_nodes, by decide,
    (connect_error_priority examples.mismatch_nodes reachable_mismatch_nodes 1 5 1
      (by decide)).2.2.2.1 (by decide) (by decide) (by decide) (by decide) (by decide)
      (by decide)⟩

/-- C2: when `connect(src, dst, slot)` succeeds, slot `slot` of `dst` is filled by
`src`, `dst` is in the outgoing set of `src`, and every other slot, every other
membership in an outgoing set, the node map, the entries of the two adjacency
tables, the id counter and the poll states are as before. -/
theorem connect_success_effect (s : pipeline) (src dst slot : Int)
    (h : (connect src dst slot s).result = .ok ()) :
    incoming (connect src dst slot s).state dst slot = some src ∧
    dst ∈ outgoing (connect src dst slot s).state src ∧
    (∀ v k, ¬ (v = dst ∧ k = slot) →
      incoming (connect src dst slot s).state v k = incoming s v k) ∧
    (∀ u x, ¬ (u = src ∧ x = dst) →
      (x ∈ outgoing (connect src dst slot s).state u ↔ x ∈ outgoing s u)) ∧
    (∀ u, u ≠ src →
      map_find (connect src dst slot s).state.nodes_to_ u = map_find s.nodes_to_ u) ∧
    (∀ v, v ≠ dst →
      map_find (connect src dst slot s).state.nodes_from_ v = map_find s.nodes_from_ v) ∧
    (∀ k, map_contains (connect src dst slot s).state.nodes_to_ k =
      map_contains s.nodes_to_ k) ∧
    (∀ k, map_contains (connect src dst slot s).state.nodes_from_ k =
      map_contains s.nodes_from_ k) ∧
    (connect src dst slot s).state.nodes_ = s.nodes_ ∧
    (connect src dst slot s).state.latest_id_ = s.latest_id_ ∧
    (connect src dst slot s).state.node_polls_ = s.node_polls_ := by
  obtain ⟨hst, ⟨slots, hsl, hfree⟩, ⟨tos, hts⟩⟩ := connect_ok_state s src dst slot h
  rw [hst]
  refine ⟨?_, ?_, ?_, ?_, ?_, ?_, ?_, ?_, rfl, rfl, rfl⟩
  · simp [incoming, map_find_modify, hsl, map_find_emplace, hfree]
  · simp [outgoing, map_find_modify, hts, mem_set_insert]
  · intro v k hne
    unfold incoming
    simp only [map_find_modify]
    by_cases hv : v = dst
    · subst hv
      have hk : k ≠ slot := fun hk => hne ⟨rfl, hk⟩
      simp [hsl, map_find_emplace, hk]
    · simp [hv]
  · intro u x hne
    unfold outgoing
    simp only [map_find_modify]
    by_cases hu : u = src
    · subst hu
      have hx : x ≠ dst := fun hx => hne ⟨rfl, hx⟩
      simp [hts, mem_set_insert, hx]
    · simp [hu]
  · intro u hu
    simp [map_find_modify, hu]
  · intro v hv
    simp [map_find_modify, hv]
  · intro k; simp only [map_contains_modify]
  · intro k; simp only [map_contains_modify]

/-- C2, on the nodes of "Testing get_dependencies with same sources to one
destination": `connect(source, c1, 0)` succeeds and fills slot 0 of `c1`. -/
theorem connect_success_effect_witness :
    (connect 1 2 0 examples.same_source_nodes).result = .ok () ∧
    incoming (connect 1 2 0 examples.same_source_nodes).state 2 0 = some 1 :=
  ⟨by decide, (connect_success_effect examples.same_source_nodes 1 2 0 (by decide)).1⟩

/-- C3: a `connect` that fails with one of the four error kinds leaves the whole
state of the pipeline as it was. -/
theorem connect_failure_unchanged (s : pipeline) (src dst slot : Int)
    (k : pipeline_error_kind)
    (h : (connect src dst slot s).result = .error (.pipeline_error k)) :
    (connect src dst slot s).state = s :=
  connect_error_state s src dst slot k h

/-- C3, on the pipeline of "Testing connection type match and mismatch". -/
theorem connect_failure_unchanged_witness :
    (connect 1 5 1 examples.mismatch_nodes).result =
      .error (.pipeline_error .connection_type_mismatch) ∧
    (connect 1 5 1 examples.mismatch_nodes).state = examples.mismatch_nodes :=
  ⟨by decide, connect_failure_unchanged examples.mismatch_nodes 1 5 1
    .connection_type_mismatch (by decide)⟩

end pipeline
end ppl

namespace ppl
namespace pipeline

/-! ## The member `get_dependencies` -/

theorem mem_dependencies_of (src v : Int) (m : std_map Int) (p : Int × Int) :
    p ∈ dependencies_of src v m ↔ p.1 = v ∧ (p.2, src) ∈ m := by
  obtain ⟨a, b⟩ := p
  unfold dependencies_of
  simp only [List.mem_map, List.mem_filter, decide_eq_true_eq, Prod.mk.injEq, Prod.exists]
  constructor
  · rintro ⟨k, u, ⟨hm, hu⟩, hv, hk⟩
    subst hu hv hk
    exact ⟨rfl, hm⟩
  · rintro ⟨hv, hm⟩
    exact ⟨b, src, ⟨hm, rfl⟩, hv.symm, rfl⟩

theorem nodup_dependencies_of (src v : Int) (m : std_map Int)
    (hs : (map_keys m).Pairwise (· < ·)) : (dependencies_of src v m).Nodup := by
  unfold dependencies_of
  have h1 : ((m.filter (fun slot => decide (slot.2 = src))).map Prod.fst).Nodup := by
    have : (m.map Prod.fst).Nodup := hs.imp (fun h => ne_of_lt h)
    exact this.sublist ((List.filter_sublist _).map _)
  have h2 := List.Nodup.map (f := fun k : Int => (v, k)) (fun a b h => by simpa using h) h1
  rw [List.map_map] at h2
  exact h2

theorem dependencies_loop_spec (src : Int) (nf : std_map (std_map Int)) (l : List Int) :
    l.Pairwise (· < ·) →
    (∀ v ∈ l, ∃ m, map_find nf v = some m ∧ (map_keys m).Pairwise (· < ·)) →
    ∀ acc : List (Int × Int), acc.Nodup → (∀ p ∈ acc, p.1 ∉ l) →
    ∃ r, dependencies_loop src nf l acc = .ok r ∧ r.Nodup ∧
      ∀ p, p ∈ r ↔ p ∈ acc ∨
        (p.1 ∈ l ∧ (map_find nf p.1).bind (fun m => map_find m p.2) = some src) := by
  induction l with
  | nil =>
    intro _ _ acc hacc _
    exact ⟨acc, rfl, hacc, by intro p; simp⟩
  | cons v rest ih =>
    intro hsorted hent acc hacc hdisj
    obtain ⟨m, hm, hms⟩ := hent v (List.mem_cons_self _ _)
    rw [List.pairwise_cons] at hsorted
    have hacc' : (acc ++ dependencies_of src v m).Nodup := by
      rw [List.nodup_append]
      refine ⟨hacc, nodup_dependencies_of src v m hms, ?_⟩
      intro p hp hp'
      rw [mem_dependencies_of] at hp'
      exact hdisj p hp (by rw [hp'.1]; exact List.mem_cons_self _ _)
    have hdisj' : ∀ p ∈ acc ++ dependencies_of src v m, p.1 ∉ rest := by
      intro p hp
      rcases List.mem_append.1 hp with hp | hp
      · exact fun h => hdisj p hp (List.mem_cons_of_mem _ h)
      · rw [mem_dependencies_of] at hp
        rw [hp.1]
        intro h
        exact absurd (hsorted.1 v h) (lt_irrefl _)
    obtain ⟨r, hr, hnd, hmem⟩ := ih hsorted.2
      (fun w hw => hent w (List.mem_cons_of_mem _ hw)) _ hacc' hdisj'
    refine ⟨r, ?_, hnd, ?_⟩
    · simp only [dependencies_loop, hm]
      exact hr
    · intro p
      rw [hmem p, List.mem_append, mem_dependencies_of, List.mem_cons]
      constructor
      · rintro ((h | ⟨h1, h2⟩) | ⟨h1, h2⟩)
        · exact Or.inl h
        · right
          refine ⟨Or.inl h1, ?_⟩
          rw [h1, hm]
          exact map_find_of_mem _ _ _ hms h2
        · exact Or.inr ⟨Or.inr h1, h2⟩
      · rintro (h | ⟨h1 | h1, h2⟩)
        · exact Or.inl (Or.inl h)
        · left; right
          refine ⟨h1, ?_⟩
          rw [h1, hm] at h2
          exact mem_of_map_find _ _ _ h2
        · exact Or.inr ⟨h1, h2⟩

/-- On a consistent pipeline `get_dependencies` of a live node returns, without
repetition, the filled slots whose producer is the node. -/
theorem get_dependencies_spec (s : pipeline) (hw : WF s) (src : Int) (hsrc : live s src) :
    ∃ l, get_dependencies src s = .ok l ∧ l.Nodup ∧
      ∀ v k, (v, k) ∈ l ↔ incoming s v k = some src := by
  have hsrc' : map_contains s.nodes_ src = true := hsrc
  obtain ⟨tos, hts⟩ := find_of_contains _ _ ((hw.keys_to src).trans hsrc')
  have hout : outgoing s src = tos := by simp [outgoing, hts]
  have hent : ∀ v ∈ tos, ∃ m, map_find s.nodes_from_ v = some m ∧
      (map_keys m).Pairwise (· < ·) := by
    intro v hv
    have hl : live s v := hw.out_live src v (hout ▸ hv)
    obtain ⟨m, hm⟩ := find_of_contains _ _ ((hw.keys_from v).trans hl)
    exact ⟨m, hm, hw.sorted_in v m hm⟩
  obtain ⟨r, hr, hnd, hmem⟩ := dependencies_loop_spec src s.nodes_from_ tos
    (hw.sorted_out src tos hts) hent [] List.nodup_nil (by simp)
  refine ⟨r, ?_, hnd, ?_⟩
  · unfold get_dependencies
    simp only [hsrc', Bool.not_true, Bool.false_eq_true, if_false, hts]
    exact hr
  · intro v k
    rw [hmem (v, k)]
    simp only [List.not_mem_nil, false_or]
    constructor
    · exact fun h => h.2
    · intro h
      refine ⟨?_, h⟩
      rw [← hout]
      exact (hw.recip src v).2 ⟨k, h⟩

theorem get_dependencies_error (s : pipeline) (src : Int) (hn : ¬ live s src) :
    get_dependencies src s = .error (.pipeline_error .invalid_node_id) := by
  unfold live at hn
  unfold get_dependencies
  simp [hn]

theorem dependencies_of_clear_producer (src n_id v : Int) (m : std_map Int)
    (h : src ≠ n_id) :
    dependencies_of src v (clear_producer n_id m) = dependencies_of src v m := by
  unfold dependencies_of clear_producer
  rw [List.filter_filter]
  congr 1
  apply List.filter_congr
  intro p _
  by_cases hp : p.2 = src
  · simp [hp, h]
  · simp [hp]

theorem filter_dependencies_of_ne (src n_id v : Int) (m : std_map Int) (h : v ≠ n_id) :
    (dependencies_of src v m).filter (fun d => decide (d.1 ≠ n_id)) =
      dependencies_of src v m := by
  rw [List.filter_eq_self]
  intro p hp
  rw [mem_dependencies_of] at hp
  simp [hp.1, h]

theorem filter_dependencies_of_eq (src n_id : Int) (m : std_map Int) :
    (dependencies_of src n_id m).filter (fun d => decide (d.1 ≠ n_id)) = [] := by
  rw [List.filter_eq_nil_iff]
  intro p hp
  rw [mem_dependencies_of] at hp
  simp [hp.1]

/-- The dependencies computed after the entries of `n_id` are cleared are those
computed before without the pairs whose destination is `n_id`. -/
theorem dependencies_loop_erase (src n_id : Int) (nf nf1 : std_map (std_map Int))
    (hsrc : src ≠ n_id)
    (hnf : ∀ v, v ≠ n_id → map_find nf1 v = (map_find nf v).map (clear_producer n_id))
    (l : List Int) :
    (∀ v ∈ l, ∃ m, map_find nf v = some m) →
    ∀ acc : List (Int × Int),
    ∃ r, dependencies_loop src nf l acc = .ok r ∧
      dependencies_loop src nf1 (set_erase l n_id)
        (acc.filter (fun d => decide (d.1 ≠ n_id))) =
        .ok (r.filter (fun d => decide (d.1 ≠ n_id))) := by
  induction l with
  | nil =>
    intro _ acc
    exact ⟨acc, rfl, rfl⟩
  | cons v rest ih =>
    intro hent acc
    obtain ⟨m, hm⟩ := hent v (List.mem_cons_self _ _)
    obtain ⟨r, hr, hr1⟩ := ih (fun w hw => hent w (List.mem_cons_of_mem _ hw))
      (acc ++ dependencies_of src v m)
    refine ⟨r, ?_, ?_⟩
    · simp only [dependencies_loop, hm]
      exact hr
    · rw [List.filter_append] at hr1
      by_cases hv : v = n_id
      · subst hv
        rw [filter_dependencies_of_eq, List.append_nil] at hr1
        have : set_erase (v :: rest) v = set_erase rest v := by
          simp [set_erase]
        rw [this]
        exact hr1
      · rw [filter_dependencies_of_ne src n_id v m hv] at hr1
        have : set_erase (v :: rest) n_id = v :: set_erase rest n_id := by
          simp [set_erase, hv]
        rw [this]
        simp only [dependencies_loop, hnf v hv, hm, Option.map_some',
          dependencies_of_clear_producer src n_id v m hsrc]
        exact hr1

end pipeline
end ppl

namespace ppl
namespace pipeline

/-! ## Claims about `disconnect`, `erase_node` and `get_dependencies` -/

/-- C4: for live `src` and `dst`, `disconnect(src, dst)` does not fail; it removes
`dst` from the outgoing set of `src` and clears exactly the slots of `dst` whose
producer was `src`; the other slots of `dst`, the adjacency of every other node,
the node map, the id counter and the poll states are as before; when `dst` was
not in the outgoing set of `src` the state is unchanged; and a slot of `dst`
that `src` filled accepts a live producer of the matching type afterwards. -/
theorem disconnect_effect (s : pipeline) (hs : Reachable s) (src dst : Int)
    (hsrc : live s src) (hdst : live s dst) :
    (disconnect src dst s).result = .ok () ∧
    (∀ x, x ∈ outgoing (disconnect src dst s).state src ↔ x ∈ outgoing s src ∧ x ≠ dst) ∧
    (∀ k, incoming (disconnect src dst s).state dst k =
      if incoming s dst k = some src then none else incoming s dst k) ∧
    (∀ u, u ≠ src →
      map_find (disconnect src dst s).state.nodes_to_ u = map_find s.nodes_to_ u) ∧
    (∀ v, v ≠ dst →
      map_find (disconnect src dst s).state.nodes_from_ v = map_find s.nodes_from_ v) ∧
    (∀ k, map_contains (disconnect src dst s).state.nodes_to_ k =
      map_contains s.nodes_to_ k) ∧
    (∀ k, map_contains (disconnect src dst s).state.nodes_from_ k =
      map_contains s.nodes_from_ k) ∧
    (disconnect src dst s).state.nodes_ = s.nodes_ ∧
    (disconnect src dst s).state.latest_id_ = s.latest_id_ ∧
    (disconnect src dst s).state.node_polls_ = s.node_polls_ ∧
    (dst ∉ outgoing s src → (disconnect src dst s).state = s) ∧
    (∀ k p, incoming s dst k = some src → live s p →
      (input_types s dst)[k.toNat]? = output_type s p →
      (connect p dst k (disconnect src dst s).state).result = .ok ()) := by
  have hw := hs.wf
  obtain ⟨s1, h1, hn, hlat, hpoll, hto, hfrom, hsame⟩ := disconnect_spec s hw src dst hsrc hdst
  obtain ⟨hw1, hout, hin⟩ := WF_disconnect_state s s1 hw src dst hn hlat hto hfrom
  rw [h1]
  refine ⟨rfl, ?_, ?_, ?_, ?_, ?_, ?_, hn, hlat, hpoll, hsame, ?_⟩
  · intro x
    rw [hout src x]
    simp
  · intro k
    rw [hin dst k]
    simp
  · intro u hu
    rw [hto u, if_neg hu]
  · intro v hv
    rw [hfrom v, if_neg hv]
  · intro k
    rw [hw1.keys_to k, hw.keys_to k, hn]
  · intro k
    rw [hw1.keys_from k, hw.keys_from k, hn]
  · intro k p hk hp hty
    obtain ⟨hk0, hk1, hk2⟩ := hw.slots_ok dst k src hk
    have hit : input_types s1 dst = input_types s dst := by unfold input_types; rw [hn]
    have hot : output_type s1 p = output_type s p := by unfold output_type; rw [hn]
    have hlt : k.toNat < (input_types s dst).length := by
      obtain ⟨n, hn'⟩ := find_of_contains _ _ hp
      have : (input_types s dst)[k.toNat]? = some n.output_type_ := by
        rw [hty]; simp [output_type, hn']
      exact (List.getElem?_eq_some.1 this).1
    rw [connect_result_cases s1 hw1.keys_from hw1.keys_to p dst k hk1]
    have hp1 : map_contains s1.nodes_ p = true := by rw [hn]; exact hp
    have hd1 : map_contains s1.nodes_ dst = true := by rw [hn]; exact hdst
    rw [if_neg (not_not.2 ⟨hp1, hd1⟩), if_neg (by rw [hin dst k]; simp [hk]),
      if_neg (by rw [hit]; omega), if_neg (by rw [hit, hot]; exact not_not.2 hty)]

/-- C4, on the pipeline of "Testing get_dependencies with same sources to one
destination": disconnecting the source from `c1` clears both slots it filled. -/
theorem disconnect_effect_witness :
    Reachable examples.same_source ∧ live examples.same_source 1 ∧
    live examples.same_source 2 ∧
    (disconnect 1 2 examples.same_source).result = .ok () ∧
    incoming (disconnect 1 2 examples.same_source).state 2 0 = none ∧
    incoming (disconnect 1 2 examples.same_source).state 2 1 = none :=
  ⟨reachable_same_source, by decide, by decide,
    (disconnect_effect examples.same_source reachable_same_source 1 2
      (by decide) (by decide)).1,
    ((disconnect_effect examples.same_source reachable_same_source 1 2
      (by decide) (by decide)).2.2.1 0).trans (by decide),
    ((disconnect_effect examples.same_source reachable_same_source 1 2
      (by decide) (by decide)).2.2.1 1).trans (by decide)⟩

/-- C5: in a reachable state, `erase_node(id)` of a live id returns; afterwards
the id is not live and has no entry in either adjacency table, no node has it in
its outgoing set or as producer of a slot, the other nodes are live as before,
every edge and every filled slot between two other nodes is as before, and the
dependencies of a remaining node are the previous list without the pairs whose
destination was the erased id. -/
theorem erase_node_effect (s : pipeline) (hs : Reachable s) (id : Int) (hid : live s id) :
    (erase_node id s).result = .ok () ∧
    ¬ live (erase_node id s).state id ∧
    map_find (erase_node id s).state.nodes_to_ id = none ∧
    map_find (erase_node id s).state.nodes_from_ id = none ∧
    (∀ u, id ∉ outgoing (erase_node id s).state u) ∧
    (∀ v k, incoming (erase_node id s).state v k ≠ some id) ∧
    (∀ u, u ≠ id → map_find (erase_node id s).state.nodes_ u = map_find s.nodes_ u) ∧
    (∀ u v, u ≠ id → v ≠ id →
      (v ∈ outgoing (erase_node id s).state u ↔ v ∈ outgoing s u)) ∧
    (∀ u v k, u ≠ id → v ≠ id →
      (incoming (erase_node id s).state v k = some u ↔ incoming s v k = some u)) ∧
    (∀ u, live s u → u ≠ id →
      ∃ l, get_dependencies u s = .ok l ∧
        get_dependencies u (erase_node id s).state =
          .ok (l.filter (fun d => decide (d.1 ≠ id)))) := by
  have hw := hs.wf
  obtain ⟨s1, h1, hw1, hn, hlat, hpoll, hto, hfrom⟩ := erase_node_spec s hw id hid
  rw [h1]
  have hout : ∀ u x, x ∈ outgoing s1 u ↔ u ≠ id ∧ x ∈ outgoing s u ∧ x ≠ id := by
    intro u x
    unfold outgoing
    rw [hto u]
    by_cases hu : u = id
    · simp [hu]
    · cases hf : map_find s.nodes_to_ u with
      | none => simp [hu]
      | some t => simp [hu, mem_set_erase]
  have hin : ∀ v k, incoming s1 v k =
      if v = id ∨ incoming s v k = some id then none else incoming s v k := by
    intro v k
    unfold incoming
    rw [hfrom v]
    by_cases hv : v = id
    · simp [hv]
    · cases hf : map_find s.nodes_from_ v with
      | none => simp [hv]
      | some m =>
        simp only [hv, if_false, Option.map_some', Option.some_bind, false_or]
        exact map_find_clear_producer id m k (hw.sorted_in v m hf)
  refine ⟨rfl, ?_, ?_, ?_, ?_, ?_, ?_, ?_, ?_, ?_⟩
  · unfold live
    rw [hn, map_contains_erase]
    simp
  · rw [hto id]; simp
  · rw [hfrom id]; simp
  · intro u h
    exact ((hout u id).1 h).2.2 rfl
  · intro v k h
    rw [hin v k] at h
    split at h
    · cases h
    · rename_i hc
      exact hc (Or.inr h)
  · intro u hu
    rw [hn, map_find_erase, if_neg hu]
  · intro u v hu hv
    rw [hout u v]
    simp [hu, hv]
  · intro u v k hu hv
    rw [hin v k]
    by_cases hc : incoming s v k = some id
    · rw [if_pos (Or.inr hc)]
      constructor
      · intro h; cases h
      · intro h
        rw [hc] at h
        exact absurd (Option.some.inj h).symm hu
    · simp [hv, hc]
  · intro u hu hne
    have hu' : map_contains s.nodes_ u = true := hu
    obtain ⟨tos, hts⟩ := find_of_contains _ _ ((hw.keys_to u).trans hu')
    have hent : ∀ v ∈ tos, ∃ m, map_find s.nodes_from_ v = some m := by
      intro v hv
      have hl : live s v := hw.out_live u v (by simp [outgoing, hts, hv])
      exact find_of_contains _ _ ((hw.keys_from v).trans hl)
    obtain ⟨r, hr, hr1⟩ := dependencies_loop_erase u id s.nodes_from_ s1.nodes_from_ hne
      (fun v hv => by rw [hfrom v, if_neg hv]) tos hent []
    refine ⟨r, ?_, ?_⟩
    · unfold get_dependencies
      simp only [hu', Bool.not_true, Bool.false_eq_true, if_false, hts]
      exact hr
    · have hu1 : map_contains s1.nodes_ u = true := by
        rw [hn, map_contains_erase]; simp [hne, hu']
      unfold get_dependencies
      simp only [hu1, Bool.not_true, Bool.false_eq_true, if_false, hto u, hne, hts,
        Option.map_some']
      exact hr1

/-- C5, on the pipeline of "Testing when a node has been erased and the result
from get_dependencies": after `erase_node(c1)` the source feeds only `c2`. -/
theorem erase_node_effect_witness :
    Reachable examples.erase_cascade ∧ live examples.erase_cascade 2 ∧
    (erase_node 2 examples.erase_cascade).result = .ok () ∧
    get_dependencies 1 (erase_node 2 examples.erase_cascade).state = .ok [(3, 0)] :=
  ⟨reachable_erase_cascade, by decide,
    (erase_node_effect examples.erase_cascade reachable_erase_cascade 2 (by decide)).1, by
    obtain ⟨l, hl, hl1⟩ :=
      (erase_node_effect examples.erase_cascade reachable_erase_cascade 2
        (by decide)).2.2.2.2.2.2.2.2.2 1 (by decide) (by decide)
    have : l = [(2, 0), (3, 0)] := by
      have h2 : get_dependencies 1 examples.erase_cascade = .ok [(2, 0), (3, 0)] := by decide
      rw [h2] at hl
      cases hl; rfl
    rw [hl1, this]; rfl⟩

/-- C6: in a reachable state `erase_node`, `disconnect` and `get_dependencies`
fail exactly when an id they are given is not live; the error is then
invalid_node_id and the state is unchanged; erasing a live id a second time
fails. -/
theorem invalid_node_id_only (s : pipeline) (hs : Reachable s) (id src dst : Int) :
    ((erase_node id s).result ≠ .ok () ↔ ¬ live s id) ∧
    ((erase_node id s).result ≠ .ok () →
      (erase_node id s).result = .error (.pipeline_error .invalid_node_id) ∧
      (erase_node id s).state = s) ∧
    ((disconnect src dst s).result ≠ .ok () ↔ ¬ (live s src ∧ live s dst)) ∧
    ((disconnect src dst s).result ≠ .ok () →
      (disconnect src dst s).result = .error (.pipeline_error .invalid_node_id) ∧
      (disconnect src dst s).state = s) ∧
    ((∀ l, get_dependencies src s ≠ .ok l) ↔ ¬ live s src) ∧
    ((∀ l, get_dependencies src s ≠ .ok l) →
      get_dependencies src s = .error (.pipeline_error .invalid_node_id)) ∧
    (live s id →
      (erase_node id (erase_node id s).state).result =
        .error (.pipeline_error .invalid_node_id)) := by
  have hw := hs.wf
  have hE : ¬ live s id → (erase_node id s).result ≠ .ok () := by
    intro h; rw [erase_node_error s id h]; simp
  have hE' : (erase_node id s).result ≠ .ok () → ¬ live s id := by
    intro h hl
    obtain ⟨s1, h1, _⟩ := erase_node_spec s hw id hl
    rw [h1] at h
    exact h rfl
  have hD : ¬ (live s src ∧ live s dst) →
      disconnect src dst s = ⟨.error (.pipeline_error .invalid_node_id), s⟩ := by
    intro h
    unfold live at h
    unfold disconnect
    have : (!map_contains s.nodes_ src || !map_contains s.nodes_ dst) = true := by
      by_cases h1 : map_contains s.nodes_ src = true
      · by_cases h2 : map_contains s.nodes_ dst = true
        · exact absurd ⟨h1, h2⟩ h
        · simp [h2]
      · simp [h1]
    simp [this]
  have hD' : (disconnect src dst s).result ≠ .ok () → ¬ (live s src ∧ live s dst) := by
    intro h hl
    obtain ⟨s1, h1, _⟩ := disconnect_spec s hw src dst hl.1 hl.2
    rw [h1] at h
    exact h rfl
  have hG' : (∀ l, get_dependencies src s ≠ .ok l) → ¬ live s src := by
    intro h hl
    obtain ⟨l, h1, _⟩ := get_dependencies_spec s hw src hl
    exact h l h1
  refine ⟨⟨hE', hE⟩, ?_, ⟨hD', ?_⟩, ?_, ⟨hG', ?_⟩, ?_, ?_⟩
  · intro h
    rw [erase_node_error s id (hE' h)]
    exact ⟨rfl, rfl⟩
  · intro h; rw [hD h]; simp
  · intro h
    rw [hD (hD' h)]
    exact ⟨rfl, rfl⟩
  · intro h l
    rw [get_dependencies_error s src h]
    simp
  · intro h
    exact get_dependencies_error s src (hG' h)
  · intro hl
    obtain ⟨s1, h1, _, hn, _⟩ := erase_node_spec s hw id hl
    rw [h1]
    have : ¬ live s1 id := by
      unfold live
      rw [hn, map_contains_erase]
      simp
    rw [erase_node_error s1 id this]

/-- C6, on the pipeline of "Testing when a node has been erased and the result
from get_dependencies": erasing `c1` twice fails the second time. -/
theorem invalid_node_id_only_witness :
    Reachable examples.erase_cascade ∧ live examples.erase_cascade 2 ∧
    (erase_node 2 (erase_node 2 examples.erase_cascade).state).result =
      .error (.pipeline_error .invalid_node_id) :=
  ⟨reachable_erase_cascade, by decide,
    (invalid_node_id_only examples.erase_cascade reachable_erase_cascade 2 1 2).2.2.2.2.2.2
      (by decide)⟩

/-- C7: in a reachable state, `get_dependencies(src)` of a live node returns a list
without repetition whose elements are exactly the pairs (v, k) such that slot k
of node v is filled by `src`. -/
theorem get_dependencies_exact (s : pipeline) (hs : Reachable s) (src : Int)
    (hsrc : live s src) :
    ∃ l, get_dependencies src s = .ok l ∧ l.Nodup ∧
      ∀ v k, (v, k) ∈ l ↔ incoming s v k = some src :=
  get_dependencies_spec s hs.wf src hsrc

/-- C7, on the pipeline of "Testing get_dependencies with same sources to one
destination": the source has the two entries (c1, 0) and (c1, 1) and no entry
for slot 2. -/
theorem get_dependencies_exact_witness :
    Reachable examples.same_source ∧ live examples.same_source 1 ∧
    ∃ l, get_dependencies 1 examples.same_source = .ok l ∧ l.Nodup ∧
      (2, 0) ∈ l ∧ (2, 1) ∈ l ∧ (2, 2) ∉ l :=
  ⟨reachable_same_source, by decide, by
    obtain ⟨l, hl, hnd, hc⟩ :=
      get_dependencies_exact examples.same_source reachable_same_source 1 (by decide)
    exact ⟨l, hl, hnd, (hc 2 0).2 (by decide), (hc 2 1).2 (by decide),
      fun h => absurd ((hc 2 2).1 h) (by decide)⟩⟩

end pipeline
end ppl

namespace ppl
namespace internal

/-! ## Depth-first search -/

theorem map_set_at_eq {V : Type} (m m1 : std_map V) (k : Int) (v : V)
    (h : map_set_at m k v = some m1) :
    map_contains m k = true ∧ m1 = map_modify m k (fun _ => v) := by
  unfold map_set_at at h
  split at h
  · rename_i hc
    exact ⟨hc, (Option.some.inj h).symm⟩
  · cases h

theorem map_set_at_of_contains {V : Type} (m : std_map V) (k : Int) (v : V)
    (h : map_contains m k = true) :
    map_set_at m k v = some (map_modify m k (fun _ => v)) := by
  unfold map_set_at
  rw [if_pos h]

theorem map_find_set {V : Type} (m : std_map V) (k x : Int) (v : V)
    (h : map_contains m k = true) :
    map_find (map_modify m k (fun _ => v)) x = if x = k then some v else map_find m x := by
  rw [map_find_modify]
  by_cases hx : x = k
  · obtain ⟨w, hw⟩ := pipeline.find_of_contains m k h
    simp [hx, hw]
  · simp [hx]

theorem unvisited_set_le (m : std_map Bool) (k : Int) :
    unvisited (map_modify m k (fun _ => true)) ≤ unvisited m := by
  induction m with
  | nil => simp [unvisited, map_modify]
  | cons p m ih =>
    obtain ⟨a, b⟩ := p
    unfold unvisited map_modify at ih ⊢
    beta_reduce at ih ⊢
    rw [List.map_cons]
    by_cases ha : a = k
    · rw [if_pos ha]
      cases b
      · simp only [List.filter_cons, Bool.not_true, Bool.false_eq_true, if_false, Bool.not_false,
          if_true, List.length_cons]
        omega
      · simp only [List.filter_cons, Bool.not_true, Bool.false_eq_true, if_false]
        exact ih
    · rw [if_neg ha]
      cases b
      · simp only [List.filter_cons, Bool.not_false, if_true, List.length_cons]
        omega
      · simp only [List.filter_cons, Bool.not_true, Bool.false_eq_true, if_false]
        exact ih

theorem unvisited_set_lt (m : std_map Bool) (k : Int) (h : map_find m k = some false) :
    unvisited (map_modify m k (fun _ => true)) < unvisited m := by
  induction m with
  | nil => simp [map_find] at h
  | cons p m ih =>
    obtain ⟨a, b⟩ := p
    have hle := unvisited_set_le m k
    unfold unvisited map_modify at ih hle ⊢
    beta_reduce at ih hle ⊢
    rw [List.map_cons]
    simp only [map_find] at h
    by_cases ha : a = k
    · rw [if_pos ha] at h ⊢
      cases h
      simp only [List.filter_cons, Bool.not_true, Bool.false_eq_true, if_false, Bool.not_false,
        if_true, List.length_cons]
      omega
    · rw [if_neg ha] at h ⊢
      have := ih h
      cases b
      · simp only [List.filter_cons, Bool.not_false, if_true, List.length_cons]
        omega
      · simp only [List.filter_cons, Bool.not_true, Bool.false_eq_true, if_false]
        exact this

theorem searched_refl (succ : Int → Option (List Int)) (vis : std_map Bool) :
    searched succ [] vis vis :=
  ⟨fun _ => rfl, fun _ h => h, by simp, fun _ h => Or.inl h,
    fun _ h h1 => absurd h h1, le_refl _⟩

theorem closed_graph_of_keys (succ : Int → Option (List Int)) (vis vis1 : std_map Bool)
    (hk : ∀ x, map_contains vis1 x = map_contains vis x) (h : closed_graph succ vis) :
    closed_graph succ vis1 := by
  intro u hu
  rw [hk] at hu
  obtain ⟨nbrs, h1, h2⟩ := h u hu
  exact ⟨nbrs, h1, fun v hv => by rw [hk]; exact h2 v hv⟩

theorem searched_cons_marked (succ : Int → Option (List Int)) (y : Int) (rest : List Int)
    (vis vis1 : std_map Bool) (hy : map_find vis y = some true)
    (h : searched succ rest vis vis1) : searched succ (y :: rest) vis vis1 := by
  refine ⟨h.keys, h.mono, ?_, ?_, h.closed, h.count⟩
  · intro r hr
    rcases List.mem_cons.1 hr with rfl | hr
    · exact h.mono _ hy
    · exact h.roots_marked r hr
  · intro x hx
    rcases h.sound x hx with h1 | ⟨r, hr, h2⟩
    · exact Or.inl h1
    · exact Or.inr ⟨r, List.mem_cons_of_mem _ hr, h2⟩

theorem searched_cons_step (succ : Int → Option (List Int)) (y : Int) (rest : List Int)
    (vis vis1 vis2 : std_map Bool)
    (h1 : searched succ [y] vis vis1) (h2 : searched succ rest vis1 vis2) :
    searched succ (y :: rest) vis vis2 := by
  refine ⟨?_, ?_, ?_, ?_, ?_, le_trans h2.count h1.count⟩
  · intro x; rw [h2.keys, h1.keys]
  · intro x hx; exact h2.mono x (h1.mono x hx)
  · intro r hr
    rcases List.mem_cons.1 hr with rfl | hr
    · exact h2.mono _ (h1.roots_marked _ (List.mem_singleton_self _))
    · exact h2.roots_marked r hr
  · intro x hx
    rcases h2.sound x hx with h3 | ⟨r, hr, h3⟩
    · rcases h1.sound x h3 with h4 | ⟨r, hr, h4⟩
      · exact Or.inl h4
      · rw [List.mem_singleton] at hr
        subst hr
        exact Or.inr ⟨r, List.mem_cons_self _ _, h4⟩
    · exact Or.inr ⟨r, List.mem_cons_of_mem _ hr, h3⟩
  · intro x hx hnew z hz
    by_cases hx1 : map_find vis1 x = some true
    · exact h2.mono z (h1.closed x hx1 hnew z hz)
    · exact h2.closed x hx hx1 z hz

/-- The loop of a search marks what the calls it makes mark. -/
theorem dfs_visit_loop_spec (succ : Int → Option (List Int)) (fuel : Nat)
    (call : Int → std_map Bool → Except exception (std_map Bool))
    (hcall : ∀ node vis, closed_graph succ vis → map_find vis node = some false →
      unvisited vis ≤ fuel → ∃ vis1, call node vis = .ok vis1 ∧ searched succ [node] vis vis1)
    (l : List Int) :
    ∀ vis, closed_graph succ vis → (∀ y ∈ l, map_contains vis y = true) →
      unvisited vis ≤ fuel →
      ∃ vis1, dfs_visit_loop call l vis = .ok vis1 ∧ searched succ l vis vis1 := by
  induction l with
  | nil =>
    intro vis _ _ _
    exact ⟨vis, rfl, searched_refl succ vis⟩
  | cons y rest ih =>
    intro vis hg hl hf
    obtain ⟨b, hb⟩ := pipeline.find_of_contains vis y (hl y (List.mem_cons_self _ _))
    cases b with
    | true =>
      obtain ⟨vis1, h1, h2⟩ := ih vis hg (fun z hz => hl z (List.mem_cons_of_mem _ hz)) hf
      refine ⟨vis1, ?_, searched_cons_marked succ y rest vis vis1 hb h2⟩
      simp only [dfs_visit_loop, hb]
      exact h1
    | false =>
      obtain ⟨visa, ha, hsa⟩ := hcall y vis hg hb hf
      obtain ⟨vis1, h1, h2⟩ := ih visa (closed_graph_of_keys succ vis visa hsa.keys hg)
        (fun z hz => by rw [hsa.keys]; exact hl z (List.mem_cons_of_mem _ hz))
        (le_trans hsa.count hf)
      refine ⟨vis1, ?_, searched_cons_step succ y rest vis visa vis1 hsa h2⟩
      simp only [dfs_visit_loop, hb, ha]
      exact h1

/-- A search from an unvisited node returns when the fuel is at least the
number of unvisited nodes, and marks what is reachable through them. -/
theorem dfs_visit_spec (succ : Int → Option (List Int)) (fuel : Nat) :
    ∀ node vis, closed_graph succ vis → map_find vis node = some false →
      unvisited vis ≤ fuel →
      ∃ vis1, dfs_visit succ fuel node vis = .ok vis1 ∧ searched succ [node] vis vis1 := by
  induction fuel with
  | zero =>
    intro node vis _ hn hf
    have := unvisited_set_lt vis node hn
    omega
  | succ fuel ih =>
    intro node vis hg hn hf
    have hc : map_contains vis node = true := pipeline.contains_of_find vis node false hn
    obtain ⟨nbrs, hnb, hnbk⟩ := hg node hc
    have hk1 : ∀ x, map_contains (map_modify vis node (fun _ => true)) x = map_contains vis x :=
      fun x => map_contains_modify vis node x _
    have hlt := unvisited_set_lt vis node hn
    obtain ⟨vis2, h2, hs2⟩ := dfs_visit_loop_spec succ fuel (dfs_visit succ fuel) ih nbrs
      (map_modify vis node (fun _ => true))
      (closed_graph_of_keys succ vis _ hk1 hg)
      (fun y hy => by rw [hk1]; exact hnbk y hy) (by omega)
    refine ⟨vis2, ?_, ?_⟩
    · simp only [dfs_visit, map_set_at_of_contains vis node true hc, hnb]
      exact h2
    · have hfind : ∀ x, map_find (map_modify vis node (fun _ => true)) x =
          if x = node then some true else map_find vis x :=
        fun x => map_find_set vis node x true hc
      refine ⟨?_, ?_, ?_, ?_, ?_, ?_⟩
      · intro x; rw [hs2.keys, hk1]
      · intro x hx
        apply hs2.mono
        rw [hfind]
        split
        · rfl
        · exact hx
      · intro r hr
        rw [List.mem_singleton] at hr
        subst hr
        apply hs2.mono
        rw [hfind, if_pos rfl]
      · intro x hx
        rcases hs2.sound x hx with h3 | ⟨r, hr, h3⟩
        · rw [hfind] at h3
          split at h3
          · rename_i hxn
            subst hxn
            exact Or.inr ⟨x, List.mem_singleton_self _, Relation.ReflTransGen.refl⟩
          · exact Or.inl h3
        · exact Or.inr ⟨node, List.mem_singleton_self _,
            Relation.ReflTransGen.head ⟨nbrs, hnb, hr⟩ h3⟩
      · intro x hx hnew z hz
        by_cases hxn : x = node
        · subst hxn
          obtain ⟨nb, h4, h5⟩ := hz
          rw [hnb] at h4
          cases h4
          exact hs2.roots_marked z h5
        · apply hs2.closed x hx _ z hz
          rw [hfind, if_neg hxn]
          exact hnew
      · exact le_trans hs2.count (le_of_lt hlt)

/-- From a map without marks, the search marks exactly the nodes reachable from
the root. -/
theorem searched_iff_reachable (succ : Int → Option (List Int)) (root : Int)
    (vis vis1 : std_map Bool) (h0 : ∀ x, map_find vis x ≠ some true)
    (h : searched succ [root] vis vis1) (x : Int) :
    map_find vis1 x = some true ↔ Relation.ReflTransGen (succ_rel succ) root x := by
  constructor
  · intro hx
    rcases h.sound x hx with h1 | ⟨r, hr, h1⟩
    · exact absurd h1 (h0 x)
    · rw [List.mem_singleton] at hr
      subst hr
      exact h1
  · intro hx
    induction hx with
    | refl => exact h.roots_marked root (List.mem_singleton_self _)
    | tail _ hbc ih => exact h.closed _ ih (h0 _) _ hbc

end internal
end ppl

namespace ppl
namespace internal

/-! ## The connectivity check -/

theorem dfs_forwards_loop_eq
    (call : List Int → Int → std_map Bool → Except exception (List Int × std_map Bool))
    (call1 : Int → std_map Bool → Except exception (std_map Bool))
    (hcall : ∀ st n vis, Except.map Prod.snd (call st n vis) = call1 n vis)
    (l : List Int) :
    ∀ st vis, Except.map Prod.snd (dfs_forwards_loop call l st vis) =
      dfs_visit_loop call1 l vis := by
  induction l with
  | nil => intro st vis; rfl
  | cons y rest ih =>
    intro st vis
    simp only [dfs_forwards_loop, dfs_visit_loop]
    cases hb : map_find vis y with
    | none => rfl
    | some b =>
      cases b with
      | true => exact ih st vis
      | false =>
        simp only
        rw [← hcall st y vis]
        cases hc : call st y vis with
        | error e => rfl
        | ok r =>
          obtain ⟨st1, vis1⟩ := r
          exact ih st1 vis1

/-- The `visited` map computed by `dfs_forwards` is that of the search along the
outgoing sets. -/
theorem dfs_forwards_eq (nodes_to_ : std_map std_set) (fuel : Nat) :
    ∀ st n vis, Except.map Prod.snd (dfs_forwards fuel st n vis nodes_to_) =
      dfs_visit (map_find nodes_to_) fuel n vis := by
  induction fuel with
  | zero => intro st n vis; rfl
  | succ fuel ih =>
    intro st n vis
    simp only [dfs_forwards, dfs_visit]
    cases map_set_at vis n true with
    | none => rfl
    | some vis1 =>
      simp only
      cases map_find nodes_to_ n with
      | none => rfl
      | some tos =>
        simp only
        rw [← dfs_forwards_loop_eq _ (dfs_visit (map_find nodes_to_) fuel) ih tos st vis1]
        cases dfs_forwards_loop (fun st n vis => dfs_forwards fuel st n vis nodes_to_)
            tos st vis1 with
        | error e => rfl
        | ok r => rfl

theorem dfs_backwards_loop_eq
    (call call1 : Int → std_map Bool → Except exception (std_map Bool))
    (hcall : ∀ n vis, call n vis = call1 n vis) (l : List (Int × Int)) :
    ∀ vis, dfs_backwards_loop call l vis = dfs_visit_loop call1 (l.map Prod.snd) vis := by
  induction l with
  | nil => intro vis; rfl
  | cons y rest ih =>
    intro vis
    simp only [dfs_backwards_loop, List.map_cons, dfs_visit_loop]
    cases hb : map_find vis y.2 with
    | none => rfl
    | some b =>
      cases b with
      | true => exact ih vis
      | false =>
        simp only
        rw [hcall y.2 vis]
        cases hc : call1 y.2 vis with
        | error e => rfl
        | ok vis1 => exact ih vis1

/-- The neighbours `dfs_backwards` follows from a node: the producers of its
slots. -/
theorem dfs_backwards_eq (nodes_from_ : std_map (std_map Int)) (fuel : Nat) :
    ∀ n vis, dfs_backwards fuel n vis nodes_from_ =
      dfs_visit (fun n => (map_find nodes_from_ n).map (fun slots => slots.map Prod.snd))
        fuel n vis := by
  induction fuel with
  | zero => intro n vis; rfl
  | succ fuel ih =>
    intro n vis
    simp only [dfs_backwards, dfs_visit]
    cases map_set_at vis n true with
    | none => rfl
    | some vis1 =>
      simp only
      cases map_find nodes_from_ n with
      | none => rfl
      | some slots =>
        simp only [Option.map_some']
        exact dfs_backwards_loop_eq _ _ ih slots vis1

theorem map_find_foldl_all_false (l : List (Int × node)) :
    ∀ (acc : std_map Bool) (x : Int),
      map_find (l.foldl (fun visited nd => map_emplace visited nd.1 false) acc) x =
        if map_contains acc x = true then map_find acc x
        else if map_contains l x = true then some false else none := by
  induction l with
  | nil =>
    intro acc x
    simp only [List.foldl_nil, map_contains, map_find, Option.isSome_none, Bool.false_eq_true,
      if_false]
    cases map_find acc x <;> simp
  | cons p rest ih =>
    intro acc x
    obtain ⟨a, n⟩ := p
    rw [List.foldl_cons, ih]
    simp only [map_contains_emplace, map_find_emplace]
    by_cases hx : x = a
    · subst hx
      cases hacc : map_find acc x with
      | none => simp [map_contains, hacc, map_find]
      | some b => simp [map_contains, hacc, map_find]
    · have : map_contains ((a, n) :: rest) x = map_contains rest x := by
        simp [map_contains, map_find, Ne.symm hx]
      simp [hx, this]

theorem map_find_all_false (nodes_ : std_map node) (x : Int) :
    map_find (all_false nodes_) x = if map_contains nodes_ x = true then some false else none := by
  unfold all_false
  rw [map_find_foldl_all_false]
  simp [map_contains, map_find]

theorem map_contains_all_false (nodes_ : std_map node) (x : Int) :
    map_contains (all_false nodes_) x = map_contains nodes_ x := by
  unfold map_contains
  rw [map_find_all_false]
  unfold map_contains
  cases map_find nodes_ x <;> simp

theorem length_map_emplace_le {V : Type} (m : std_map V) (k : Int) (v : V) :
    (map_emplace m k v).length ≤ m.length + 1 := by
  unfold map_emplace
  split
  · omega
  · have : ∀ m : std_map V, (map_insert_sorted m k v).length = m.length + 1 := by
      intro m
      induction m with
      | nil => rfl
      | cons p m ih =>
        simp only [map_insert_sorted]
        split
        · rfl
        · simp [ih]
    rw [this]

theorem length_foldl_all_false (l : List (Int × node)) :
    ∀ acc : std_map Bool,
      (l.foldl (fun visited nd => map_emplace visited nd.1 false) acc).length ≤
        acc.length + l.length := by
  induction l with
  | nil => intro acc; simp
  | cons p rest ih =>
    intro acc
    rw [List.foldl_cons]
    have h1 := ih (map_emplace acc p.1 false)
    have h2 := length_map_emplace_le acc p.1 false
    simp only [List.length_cons]
    omega

theorem unvisited_all_false_le (nodes_ : std_map node) :
    unvisited (all_false nodes_) ≤ nodes_.length := by
  unfold unvisited
  have h1 := List.length_filter_le (fun p : Int × Bool => !p.2) (all_false nodes_)
  have h2 := length_foldl_all_false nodes_ []
  unfold all_false at h1 ⊢
  simp only [List.length_nil, Nat.zero_add] at h2
  omega

/-- The last loop of `is_connected` answers whether every node is marked in one
of the two maps. -/
theorem is_connected_loop_spec (vf vb : std_map Bool) (l : List (Int × node))
    (hf : ∀ nd ∈ l, map_contains vf nd.1 = true)
    (hb : ∀ nd ∈ l, map_contains vb nd.1 = true) :
    ∃ b, is_connected_loop vf vb l = .ok b ∧
      (b = true ↔ ∀ nd ∈ l, map_find vf nd.1 = some true ∨ map_find vb nd.1 = some true) := by
  induction l with
  | nil => exact ⟨true, rfl, by simp⟩
  | cons p rest ih =>
    obtain ⟨b, hb1, hb2⟩ := ih (fun nd h => hf nd (List.mem_cons_of_mem _ h))
      (fun nd h => hb nd (List.mem_cons_of_mem _ h))
    obtain ⟨x, hx⟩ := pipeline.find_of_contains vf p.1 (hf p (List.mem_cons_self _ _))
    obtain ⟨y, hy⟩ := pipeline.find_of_contains vb p.1 (hb p (List.mem_cons_self _ _))
    cases x with
    | true =>
      refine ⟨b, by simp only [is_connected_loop, hx]; exact hb1, ?_⟩
      rw [hb2]
      simp [hx]
    | false =>
      cases y with
      | true =>
        refine ⟨b, by simp only [is_connected_loop, hx, hy]; exact hb1, ?_⟩
        rw [hb2]
        simp [hy]
      | false =>
        refine ⟨false, by simp only [is_connected_loop, hx, hy], ?_⟩
        simp [hx, hy]

end internal
end ppl

namespace ppl
namespace pipeline

open internal

/-! ## The connectivity check on a pipeline -/

theorem succ_rel_forwards (s : pipeline) (a b : Int) :
    succ_rel (map_find s.nodes_to_) a b ↔ edge s a b := by
  unfold succ_rel edge outgoing
  constructor
  · rintro ⟨tos, h1, h2⟩
    simp [h1, h2]
  · intro h
    cases hf : map_find s.nodes_to_ a with
    | none => simp [hf] at h
    | some tos => exact ⟨tos, rfl, by simpa [hf] using h⟩

theorem succ_rel_backwards (s : pipeline) (hw : WF s) (a b : Int) :
    succ_rel (fun n => (map_find s.nodes_from_ n).map (fun slots => slots.map Prod.snd)) a b ↔
      edge s b a := by
  unfold succ_rel edge
  rw [hw.recip b a]
  unfold incoming
  constructor
  · rintro ⟨nbrs, h1, h2⟩
    cases hf : map_find s.nodes_from_ a with
    | none => simp [hf] at h1
    | some slots =>
      simp only [hf, Option.map_some', Option.some.injEq] at h1
      subst h1
      obtain ⟨p, hp, rfl⟩ := List.mem_map.1 h2
      exact ⟨p.1, by
        simp only [Option.some_bind]
        exact map_find_of_mem _ _ _ (hw.sorted_in a slots hf) hp⟩
  · rintro ⟨k, hk⟩
    cases hf : map_find s.nodes_from_ a with
    | none => simp [hf] at hk
    | some slots =>
      simp only [hf, Option.some_bind] at hk
      exact ⟨slots.map Prod.snd, by simp [hf],
        List.mem_map.2 ⟨(k, b), mem_of_map_find _ _ _ hk, rfl⟩⟩

theorem reach_forwards (s : pipeline) (a b : Int) :
    Relation.ReflTransGen (succ_rel (map_find s.nodes_to_)) a b ↔
      Relation.ReflTransGen (edge s) a b := by
  constructor
  · exact Relation.ReflTransGen.mono (fun x y h => (succ_rel_forwards s x y).1 h)
  · exact Relation.ReflTransGen.mono (fun x y h => (succ_rel_forwards s x y).2 h)

theorem reach_backwards (s : pipeline) (hw : WF s) (a b : Int) :
    Relation.ReflTransGen
      (succ_rel (fun n => (map_find s.nodes_from_ n).map (fun slots => slots.map Prod.snd)))
      a b ↔ Relation.ReflTransGen (edge s) b a := by
  refine Iff.trans ?_ (@Relation.reflTransGen_swap _ (edge s) a b)
  constructor
  · exact Relation.ReflTransGen.mono (fun x y h => (succ_rel_backwards s hw x y).1 h)
  · exact Relation.ReflTransGen.mono (fun x y h => (succ_rel_backwards s hw x y).2 h)

theorem closed_graph_forwards (s : pipeline) (hw : WF s) :
    closed_graph (map_find s.nodes_to_) (all_false s.nodes_) := by
  intro u hu
  rw [map_contains_all_false] at hu
  obtain ⟨tos, hts⟩ := find_of_contains _ _ ((hw.keys_to u).trans hu)
  refine ⟨tos, hts, ?_⟩
  intro v hv
  rw [map_contains_all_false]
  exact hw.out_live u v (by simp [outgoing, hts, hv])

theorem closed_graph_backwards (s : pipeline) (hw : WF s) :
    closed_graph (fun n => (map_find s.nodes_from_ n).map (fun slots => slots.map Prod.snd))
      (all_false s.nodes_) := by
  intro u hu
  rw [map_contains_all_false] at hu
  obtain ⟨slots, hsl⟩ := find_of_contains _ _ ((hw.keys_from u).trans hu)
  refine ⟨slots.map Prod.snd, by simp [hsl], ?_⟩
  intro v hv
  rw [map_contains_all_false]
  obtain ⟨p, hp, rfl⟩ := List.mem_map.1 hv
  have : incoming s u p.1 = some p.2 := by
    simp only [incoming, hsl, Option.some_bind]
    exact map_find_of_mem _ _ _ (hw.sorted_in u slots hsl) hp
  exact (live_of_incoming s hw _ _ _ this).2

theorem live_iff_mem_nodes (s : pipeline) (v : Int) :
    live s v ↔ ∃ nd ∈ s.nodes_, nd.1 = v := by
  unfold live
  rw [map_contains_iff_mem_keys]
  unfold map_keys
  simp [List.mem_map]

/-- The first node of the node map is the smallest live id. -/
theorem smallest_live_head (s : pipeline) (hw : WF s) (first : Int × node)
    (rest : std_map node) (h : s.nodes_ = first :: rest) : smallest_live s first.1 := by
  constructor
  · rw [live_iff_mem_nodes]
    exact ⟨first, by rw [h]; exact List.mem_cons_self _ _, rfl⟩
  · intro v hv
    rw [live_iff_mem_nodes] at hv
    obtain ⟨nd, hnd, rfl⟩ := hv
    have hs := hw.sorted_nodes
    rw [h] at hs hnd
    simp only [map_keys, List.map_cons, List.pairwise_cons] at hs
    rcases List.mem_cons.1 hnd with rfl | hnd
    · exact le_refl _
    · exact le_of_lt (hs.1 nd.1 (List.mem_map.2 ⟨nd, hnd, rfl⟩))

theorem smallest_live_unique (s : pipeline) (r r1 : Int) (h : smallest_live s r)
    (h1 : smallest_live s r1) : r = r1 :=
  le_antisymm (h.2 r1 h1.1) (h1.2 r h.1)

/-- On a consistent pipeline with a node, `is_connected` returns when the fuel
is at least the number of nodes, and answers whether every node is reachable
from the first node or reaches it. -/
theorem is_connected_spec (s : pipeline) (hw : WF s) (first : Int × node)
    (rest : std_map node) (hnodes : s.nodes_ = first :: rest) (fuel : Nat)
    (hfuel : s.nodes_.length ≤ fuel) :
    ∃ b, is_connected fuel s.nodes_ s.nodes_to_ s.nodes_from_ = .ok b ∧
      (b = true ↔ ∀ v, live s v →
        Relation.ReflTransGen (edge s) first.1 v ∨
        Relation.ReflTransGen (edge s) v first.1) := by
  have hfirst : map_find (all_false s.nodes_) first.1 = some false := by
    rw [map_find_all_false]
    have : map_contains s.nodes_ first.1 = true := (smallest_live_head s hw first rest hnodes).1
    simp [this]
  have h0 : ∀ x, map_find (all_false s.nodes_) x ≠ some true := by
    intro x
    rw [map_find_all_false]
    split <;> simp
  have hcount : unvisited (all_false s.nodes_) ≤ fuel :=
    le_trans (unvisited_all_false_le s.nodes_) hfuel
  obtain ⟨vf, hvf, hsf⟩ := dfs_visit_spec (map_find s.nodes_to_) fuel first.1
    (all_false s.nodes_) (closed_graph_forwards s hw) hfirst hcount
  obtain ⟨vb, hvb, hsb⟩ := dfs_visit_spec
    (fun n => (map_find s.nodes_from_ n).map (fun slots => slots.map Prod.snd)) fuel first.1
    (all_false s.nodes_) (closed_graph_backwards s hw) hfirst hcount
  rw [← dfs_forwards_eq s.nodes_to_ fuel [] first.1 (all_false s.nodes_)] at hvf
  rw [← dfs_backwards_eq s.nodes_from_ fuel first.1 (all_false s.nodes_)] at hvb
  obtain ⟨st, hvf1⟩ : ∃ st, dfs_forwards fuel [] first.1 (all_false s.nodes_) s.nodes_to_ =
      .ok (st, vf) := by
    cases hd : dfs_forwards fuel [] first.1 (all_false s.nodes_) s.nodes_to_ with
    | error e => rw [hd] at hvf; cases hvf
    | ok r =>
      rw [hd] at hvf
      obtain ⟨st, v⟩ := r
      cases hvf
      exact ⟨st, rfl⟩
  have hkf : ∀ nd ∈ s.nodes_, map_contains vf nd.1 = true := by
    intro nd hnd
    rw [hsf.keys, map_contains_all_false]
    exact (live_iff_mem_nodes s nd.1).2 ⟨nd, hnd, rfl⟩
  have hkb : ∀ nd ∈ s.nodes_, map_contains vb nd.1 = true := by
    intro nd hnd
    rw [hsb.keys, map_contains_all_false]
    exact (live_iff_mem_nodes s nd.1).2 ⟨nd, hnd, rfl⟩
  obtain ⟨b, hb, hbiff⟩ := is_connected_loop_spec vf vb s.nodes_ hkf hkb
  refine ⟨b, ?_, ?_⟩
  · unfold is_connected
    simp only
    rw [hnodes] at hvf1 hvb hb ⊢
    simp only [hvf1, hvb]
    exact hb
  · rw [hbiff]
    constructor
    · intro h v hv
      obtain ⟨nd, hnd, rfl⟩ := (live_iff_mem_nodes s v).1 hv
      rcases h nd hnd with h1 | h1
      · left
        exact (reach_forwards s _ _).1
          ((searched_iff_reachable _ first.1 _ vf h0 hsf nd.1).1 h1)
      · right
        exact (reach_backwards s hw _ _).1
          ((searched_iff_reachable _ first.1 _ vb h0 hsb nd.1).1 h1)
    · intro h nd hnd
      rcases h nd.1 ((live_iff_mem_nodes s nd.1).2 ⟨nd, hnd, rfl⟩) with h1 | h1
      · left
        exact (searched_iff_reachable _ first.1 _ vf h0 hsf nd.1).2
          ((reach_forwards s _ _).2 h1)
      · right
        exact (searched_iff_reachable _ first.1 _ vb h0 hsb nd.1).2
          ((reach_backwards s hw _ _).2 h1)

theorem root_connected_iff (s : pipeline) (hw : WF s) (first : Int × node)
    (rest : std_map node) (hnodes : s.nodes_ = first :: rest) :
    root_connected s ↔ ∀ v, live s v →
      Relation.ReflTransGen (edge s) first.1 v ∨ Relation.ReflTransGen (edge s) v first.1 := by
  have hsm := smallest_live_head s hw first rest hnodes
  constructor
  · intro h; exact h first.1 hsm
  · intro h r hr
    rw [smallest_live_unique s r first.1 hr hsm]
    exact h

end pipeline
end ppl

namespace ppl
namespace internal

/-! ## Cycle detection -/

theorem cycle_step_refl (succ : Int → Option (List Int)) (vis stk : std_map Bool)
    (h : cycle_inv succ vis stk) : cycle_step succ vis stk vis stk :=
  ⟨h, fun _ => rfl, fun _ h => h, fun _ => rfl, le_refl _⟩

theorem cycle_step_trans (succ : Int → Option (List Int))
    (vis stk vis1 stk1 vis2 stk2 : std_map Bool)
    (h1 : cycle_step succ vis stk vis1 stk1) (h2 : cycle_step succ vis1 stk1 vis2 stk2) :
    cycle_step succ vis stk vis2 stk2 :=
  ⟨h2.inv, fun x => (h2.stack_same x).trans (h1.stack_same x),
    fun x h => h2.mono x (h1.mono x h), fun x => (h2.keys x).trans (h1.keys x),
    le_trans h2.count h1.count⟩

theorem finished_of_step (succ : Int → Option (List Int))
    (vis stk vis1 stk1 : std_map Bool) (h : cycle_step succ vis stk vis1 stk1) (x : Int)
    (hx : finished vis stk x) : finished vis1 stk1 x :=
  ⟨h.mono x hx.1, (h.stack_same x).trans hx.2⟩

theorem finished_of_reach (succ : Int → Option (List Int)) (vis stk : std_map Bool)
    (h : cycle_inv succ vis stk) (x y : Int) (hx : finished vis stk x)
    (hr : Relation.ReflTransGen (succ_rel succ) x y) : finished vis stk y := by
  induction hr with
  | refl => exact hx
  | tail _ hbc ih => exact h.closed _ ih _ hbc

/-- The loop of `check_cycle` over the neighbours of a node. -/
theorem check_cycle_loop_spec (succ : Int → Option (List Int)) (fuel : Nat)
    (call : Int → std_map Bool → std_map Bool →
      Except exception (Bool × std_map Bool × std_map Bool))
    (hcall : ∀ node vis stk, cycle_inv succ vis stk → map_contains vis node = true →
      unvisited vis < fuel →
      (∀ x, map_find stk x = some true → Relation.TransGen (succ_rel succ) x node) →
      ∃ b vis1 stk1, call node vis stk = .ok (b, vis1, stk1) ∧
        (b = true → ∃ x, Relation.TransGen (succ_rel succ) x x) ∧
        (b = false → cycle_step succ vis stk vis1 stk1 ∧ finished vis1 stk1 node))
    (l : List Int) :
    ∀ vis stk, cycle_inv succ vis stk → (∀ y ∈ l, map_contains vis y = true) →
      unvisited vis < fuel →
      (∀ x, map_find stk x = some true → ∀ y ∈ l, Relation.TransGen (succ_rel succ) x y) →
      ∃ b vis1 stk1, check_cycle_loop call l vis stk = .ok (b, vis1, stk1) ∧
        (b = true → ∃ x, Relation.TransGen (succ_rel succ) x x) ∧
        (b = false → cycle_step succ vis stk vis1 stk1 ∧ ∀ y ∈ l, finished vis1 stk1 y) := by
  induction l with
  | nil =>
    intro vis stk hinv _ _ _
    exact ⟨false, vis, stk, rfl, by simp, fun _ => ⟨cycle_step_refl succ vis stk hinv, by simp⟩⟩
  | cons y rest ih =>
    intro vis stk hinv hl hf hpath
    obtain ⟨b, visa, stka, hc, hbt, hbf⟩ := hcall y vis stk hinv
      (hl y (List.mem_cons_self _ _)) hf (fun x hx => hpath x hx y (List.mem_cons_self _ _))
    cases b with
    | true =>
      exact ⟨true, visa, stka, by simp only [check_cycle_loop, hc], fun _ => hbt rfl, by simp⟩
    | false =>
      obtain ⟨hstep, hfin⟩ := hbf rfl
      obtain ⟨b2, vis1, stk1, hc2, hbt2, hbf2⟩ := ih visa stka hstep.inv
        (fun z hz => by rw [hstep.keys]; exact hl z (List.mem_cons_of_mem _ hz))
        (lt_of_le_of_lt hstep.count hf)
        (fun x hx z hz => hpath x (by rw [← hstep.stack_same]; exact hx) z
          (List.mem_cons_of_mem _ hz))
      refine ⟨b2, vis1, stk1, by simp only [check_cycle_loop, hc]; exact hc2, hbt2, ?_⟩
      intro hb2
      obtain ⟨hstep2, hfin2⟩ := hbf2 hb2
      refine ⟨cycle_step_trans succ _ _ _ _ _ _ hstep hstep2, ?_⟩
      intro z hz
      rcases List.mem_cons.1 hz with rfl | hz
      · exact finished_of_step succ _ _ _ _ hstep2 _ hfin
      · exact hfin2 z hz

/-- A call of `check_cycle` returns when the fuel exceeds the number of
unvisited nodes; `true` is returned only when the graph has a cycle, and after
`false` the node is finished and the invariant holds. -/
theorem check_cycle_spec (nodes_to_ : std_map std_set) (fuel : Nat) :
    ∀ node vis stk, cycle_inv (map_find nodes_to_) vis stk → map_contains vis node = true →
      unvisited vis < fuel →
      (∀ x, map_find stk x = some true →
        Relation.TransGen (succ_rel (map_find nodes_to_)) x node) →
      ∃ b vis1 stk1, check_cycle fuel node vis stk nodes_to_ = .ok (b, vis1, stk1) ∧
        (b = true → ∃ x, Relation.TransGen (succ_rel (map_find nodes_to_)) x x) ∧
        (b = false → cycle_step (map_find nodes_to_) vis stk vis1 stk1 ∧
          finished vis1 stk1 node) := by
  induction fuel with
  | zero => intro node vis stk _ _ hf; omega
  | succ fuel ih =>
    intro node vis stk hinv hnode hf hpath
    have hnode' : map_contains stk node = true := by rw [hinv.keys]; exact hnode
    obtain ⟨bs, hbs⟩ := pipeline.find_of_contains stk node hnode'
    obtain ⟨bv, hbv⟩ := pipeline.find_of_contains vis node hnode
    cases bs with
    | true =>
      exact ⟨true, vis, stk, by simp only [check_cycle, hbs],
        fun _ => ⟨node, hpath node hbs⟩, by simp⟩
    | false =>
      cases bv with
      | true =>
        exact ⟨false, vis, stk, by simp only [check_cycle, hbs, hbv], by simp,
          fun _ => ⟨cycle_step_refl _ vis stk hinv, hbv, hbs⟩⟩
      | false =>
        obtain ⟨tos, hts, htsk⟩ := hinv.graph node hnode
        have hv1 : ∀ x, map_find (map_modify vis node (fun _ => true)) x =
            if x = node then some true else map_find vis x :=
          fun x => map_find_set vis node x true hnode
        have hs1 : ∀ x, map_find (map_modify stk node (fun _ => true)) x =
            if x = node then some true else map_find stk x :=
          fun x => map_find_set stk node x true hnode'
        have hkv1 : ∀ x, map_contains (map_modify vis node (fun _ => true)) x =
            map_contains vis x := fun x => map_contains_modify vis node x _
        have hks1 : ∀ x, map_contains (map_modify stk node (fun _ => true)) x =
            map_contains stk x := fun x => map_contains_modify stk node x _
        have hfin1 : ∀ x, finished (map_modify vis node (fun _ => true))
            (map_modify stk node (fun _ => true)) x ↔ finished vis stk x := by
          intro x
          unfold finished
          rw [hv1, hs1]
          by_cases hx : x = node
          · subst hx; simp [hbv]
          · simp [hx]
        have hinv1 : cycle_inv (map_find nodes_to_) (map_modify vis node (fun _ => true))
            (map_modify stk node (fun _ => true)) := by
          refine ⟨?_, ?_, ?_, ?_, ?_⟩
          · intro x; rw [hks1, hkv1, hinv.keys]
          · intro u hu
            rw [hkv1] at hu
            obtain ⟨nb, h1, h2⟩ := hinv.graph u hu
            exact ⟨nb, h1, fun v hv => by rw [hkv1]; exact h2 v hv⟩
          · intro x hx
            rw [hs1] at hx
            rw [hv1]
            split
            · rfl
            · rename_i hxn
              rw [if_neg hxn] at hx
              exact hinv.stack_visited x hx
          · intro x hx y hy
            rw [hfin1] at hx ⊢
            exact hinv.closed x hx y hy
          · intro x hx
            rw [hfin1] at hx
            exact hinv.no_cycle x hx
        have hlt := unvisited_set_lt vis node hbv
        have hpath1 : ∀ x, map_find (map_modify stk node (fun _ => true)) x = some true →
            ∀ y ∈ tos, Relation.TransGen (succ_rel (map_find nodes_to_)) x y := by
          intro x hx y hy
          rw [hs1] at hx
          by_cases hxn : x = node
          · subst hxn
            exact Relation.TransGen.single ⟨tos, hts, hy⟩
          · rw [if_neg hxn] at hx
            exact Relation.TransGen.tail (hpath x hx) ⟨tos, hts, hy⟩
        obtain ⟨b, vis2, stk2, hc, hbt, hbf⟩ := check_cycle_loop_spec (map_find nodes_to_) fuel
          (fun v vis stk => check_cycle fuel v vis stk nodes_to_) ih tos
          (map_modify vis node (fun _ => true)) (map_modify stk node (fun _ => true)) hinv1
          (fun y hy => by rw [hkv1]; exact htsk y hy) (by omega) hpath1
        cases b with
        | true =>
          exact ⟨true, vis2, stk2, by
            simp only [check_cycle, hbs, hbv, map_set_at_of_contains vis node true hnode,
              map_set_at_of_contains stk node true hnode', hts, hc], fun _ => hbt rfl, by simp⟩
        | false =>
          obtain ⟨hstep, hfin⟩ := hbf rfl
          have hk2 : map_contains stk2 node = true := by
            rw [hstep.inv.keys, hstep.keys, hkv1]; exact hnode
          have hs2node : map_find stk2 node = some true := by
            rw [hstep.stack_same, hs1, if_pos rfl]
          have hs3 : ∀ x, map_find (map_modify stk2 node (fun _ => false)) x =
              if x = node then some false else map_find stk2 x :=
            fun x => map_find_set stk2 node x false hk2
          have hv2node : map_find vis2 node = some true := by
            apply hstep.mono
            rw [hv1, if_pos rfl]
          have hfin3 : ∀ x, x ≠ node →
              (finished vis2 (map_modify stk2 node (fun _ => false)) x ↔
                finished vis2 stk2 x) := by
            intro x hx
            unfold finished
            rw [hs3, if_neg hx]
          have hnf2 : ¬ finished vis2 stk2 node := by
            intro h
            have h2 := h.2
            rw [hs2node] at h2
            cases h2
          have hsucc_fin : ∀ y, succ_rel (map_find nodes_to_) node y →
              finished vis2 stk2 y := by
            rintro y ⟨nb, h1, h2⟩
            rw [hts] at h1
            cases h1
            exact hfin y h2
          refine ⟨false, vis2, map_modify stk2 node (fun _ => false),
            by simp only [check_cycle, hbs, hbv, map_set_at_of_contains vis node true hnode,
              map_set_at_of_contains stk node true hnode', hts, hc,
              map_set_at_of_contains stk2 node false hk2],
            by simp, fun _ => ⟨⟨⟨?_, ?_, ?_, ?_, ?_⟩, ?_, ?_, ?_, ?_⟩, hv2node, ?_⟩⟩
          · intro x
            rw [map_contains_modify, hstep.inv.keys]
          · exact hstep.inv.graph
          · intro x hx
            rw [hs3] at hx
            split at hx
            · cases hx
            · exact hstep.inv.stack_visited x hx
          · intro x hx y hy
            have hy2 : finished vis2 stk2 y := by
              by_cases hxn : x = node
              · subst hxn; exact hsucc_fin y hy
              · exact hstep.inv.closed x ((hfin3 x hxn).1 hx) y hy
            have hyn : y ≠ node := by rintro rfl; exact hnf2 hy2
            exact (hfin3 y hyn).2 hy2
          · intro x hx hcyc
            by_cases hxn : x = node
            · subst hxn
              obtain ⟨y, hy, hyx⟩ := Relation.TransGen.head'_iff.1 hcyc
              exact hnf2 (finished_of_reach _ vis2 stk2 hstep.inv y x (hsucc_fin y hy) hyx)
            · exact hstep.inv.no_cycle x ((hfin3 x hxn).1 hx) hcyc
          · intro x
            rw [hs3]
            by_cases hxn : x = node
            · subst hxn; rw [if_pos rfl, hbs]
            · rw [if_neg hxn, hstep.stack_same, hs1, if_neg hxn]
          · intro x hx
            apply hstep.mono
            rw [hv1]
            split
            · rfl
            · exact hx
          · intro x
            rw [hstep.keys, hkv1]
          · exact le_trans hstep.count (le_of_lt hlt)
          · rw [hs3, if_pos rfl]

end internal
end ppl

namespace ppl
namespace pipeline

open internal

/-! ## The cycle check and `is_valid` on a pipeline -/

theorem trans_forwards (s : pipeline) (a b : Int) :
    Relation.TransGen (succ_rel (map_find s.nodes_to_)) a b ↔
      Relation.TransGen (edge s) a b := by
  constructor
  · exact Relation.TransGen.mono (fun x y h => (succ_rel_forwards s x y).1 h)
  · exact Relation.TransGen.mono (fun x y h => (succ_rel_forwards s x y).2 h)

theorem has_cycle_loop_spec (nodes_to_ : std_map std_set) (fuel : Nat)
    (l : List (Int × node)) :
    ∀ vis stk, cycle_inv (map_find nodes_to_) vis stk →
      (∀ nd ∈ l, map_contains vis nd.1 = true) →
      (∀ x, map_find stk x ≠ some true) → unvisited vis < fuel →
      ∃ b, has_cycle_loop fuel nodes_to_ l vis stk = .ok b ∧
        (b = true → ∃ x, Relation.TransGen (succ_rel (map_find nodes_to_)) x x) ∧
        (b = false → ∃ vis1 stk1, cycle_step (map_find nodes_to_) vis stk vis1 stk1 ∧
          ∀ nd ∈ l, finished vis1 stk1 nd.1) := by
  induction l with
  | nil =>
    intro vis stk hinv _ _ _
    exact ⟨false, rfl, by simp, fun _ => ⟨vis, stk, cycle_step_refl _ vis stk hinv, by simp⟩⟩
  | cons p rest ih =>
    intro vis stk hinv hl hstk hf
    obtain ⟨b, visa, stka, hc, hbt, hbf⟩ := check_cycle_spec nodes_to_ fuel p.1 vis stk hinv
      (hl p (List.mem_cons_self _ _)) hf (fun x hx => absurd hx (hstk x))
    cases b with
    | true =>
      exact ⟨true, by simp only [has_cycle_loop, hc], fun _ => hbt rfl, by simp⟩
    | false =>
      obtain ⟨hstep, hfin⟩ := hbf rfl
      obtain ⟨b2, hc2, hbt2, hbf2⟩ := ih visa stka hstep.inv
        (fun nd hnd => by rw [hstep.keys]; exact hl nd (List.mem_cons_of_mem _ hnd))
        (fun x => by rw [hstep.stack_same]; exact hstk x)
        (lt_of_le_of_lt hstep.count hf)
      refine ⟨b2, by simp only [has_cycle_loop, hc]; exact hc2, hbt2, ?_⟩
      intro hb2
      obtain ⟨vis1, stk1, hstep2, hfin2⟩ := hbf2 hb2
      refine ⟨vis1, stk1, cycle_step_trans _ _ _ _ _ _ _ hstep hstep2, ?_⟩
      intro nd hnd
      rcases List.mem_cons.1 hnd with rfl | hnd
      · exact finished_of_step _ _ _ _ _ hstep2 _ hfin
      · exact hfin2 nd hnd

/-- On a consistent pipeline `has_cycle` returns when the fuel exceeds the number
of nodes, and answers whether the outgoing relation has a directed cycle. -/
theorem has_cycle_spec (s : pipeline) (hw : WF s) (fuel : Nat)
    (hfuel : s.nodes_.length < fuel) :
    ∃ b, has_cycle fuel s.nodes_ s.nodes_to_ = .ok b ∧
      (b = true ↔ ∃ x, Relation.TransGen (edge s) x x) := by
  have h0 : ∀ x, map_find (all_false s.nodes_) x ≠ some true := by
    intro x
    rw [map_find_all_false]
    split <;> simp
  have hinv : cycle_inv (map_find s.nodes_to_) (all_false s.nodes_) (all_false s.nodes_) :=
    ⟨fun _ => rfl, closed_graph_forwards s hw, fun x hx => absurd hx (h0 x),
      fun x hx => absurd hx.1 (h0 x), fun x hx => absurd hx.1 (h0 x)⟩
  obtain ⟨b, hb, hbt, hbf⟩ := has_cycle_loop_spec s.nodes_to_ fuel s.nodes_
    (all_false s.nodes_) (all_false s.nodes_) hinv
    (fun nd hnd => by
      rw [map_contains_all_false]
      exact (live_iff_mem_nodes s nd.1).2 ⟨nd, hnd, rfl⟩)
    h0 (lt_of_le_of_lt (unvisited_all_false_le s.nodes_) hfuel)
  refine ⟨b, hb, ?_⟩
  constructor
  · intro h
    obtain ⟨x, hx⟩ := hbt h
    exact ⟨x, (trans_forwards s x x).1 hx⟩
  · rintro ⟨x, hx⟩
    cases b with
    | true => rfl
    | false =>
      exfalso
      obtain ⟨vis1, stk1, hstep, hfin⟩ := hbf rfl
      have hx' := (trans_forwards s x x).2 hx
      obtain ⟨y, hy, _⟩ := Relation.TransGen.head'_iff.1 hx'
      obtain ⟨tos, hts, _⟩ := hy
      have hlive : live s x := by
        unfold live
        rw [← hw.keys_to x]
        exact contains_of_find _ _ _ hts
      obtain ⟨nd, hnd, rfl⟩ := (live_iff_mem_nodes s x).1 hlive
      exact hstep.inv.no_cycle nd.1 (hfin nd hnd) hx'

theorem or_exists_cons {α : Type} (c : Bool) (q : α → Bool) (p : α) (rest : List α) :
    ((c || q p) = true ∨ ∃ nd ∈ rest, q nd = true) ↔
      (c = true ∨ ∃ nd ∈ p :: rest, q nd = true) := by
  constructor
  · rintro (h | ⟨nd, hnd, h⟩)
    · rcases Bool.or_eq_true_iff.1 h with h | h
      · exact Or.inl h
      · exact Or.inr ⟨p, List.mem_cons_self _ _, h⟩
    · exact Or.inr ⟨nd, List.mem_cons_of_mem _ hnd, h⟩
  · rintro (h | ⟨nd, hnd, h⟩)
    · left; rw [h]; rfl
    · rcases List.mem_cons.1 hnd with rfl | hnd
      · left; rw [h]; exact Bool.or_true c
      · exact Or.inr ⟨nd, hnd, h⟩

/-- The loop of `is_valid` leaves early exactly when a node has an unfilled slot
or a node that is not a sink has no dependent; otherwise it reports whether a
source and a sink were seen. -/
theorem is_valid_loop_spec (s : pipeline) (hw : WF s) (l : List (Int × node)) :
    (∀ nd ∈ l, live s nd.1) → ∀ cs ck : Bool,
    ∃ r, is_valid_loop s.nodes_to_ s.nodes_from_ l cs ck = .ok r ∧
      (r = none ↔ ∃ nd ∈ l, ¬ (filled_slots s nd.1 = nd.2.input_types_.length ∧
        (nd.2.is_sink = false → ∃ w, w ∈ outgoing s nd.1))) ∧
      (∀ a b, r = some (a, b) →
        (a = true ↔ cs = true ∨ ∃ nd ∈ l, nd.2.is_source = true) ∧
        (b = true ↔ ck = true ∨ ∃ nd ∈ l, nd.2.is_sink = true)) := by
  induction l with
  | nil =>
    intro _ cs ck
    refine ⟨some (cs, ck), rfl, by simp, ?_⟩
    intro a b h
    cases h
    simp
  | cons p rest ih =>
    intro hl cs ck
    have hp : map_contains s.nodes_ p.1 = true := hl p (List.mem_cons_self _ _)
    obtain ⟨slots, hsl⟩ := find_of_contains _ _ ((hw.keys_from p.1).trans hp)
    obtain ⟨tos, hts⟩ := find_of_contains _ _ ((hw.keys_to p.1).trans hp)
    have hfs : filled_slots s p.1 = slots.length := by simp [filled_slots, hsl]
    have hout : outgoing s p.1 = tos := by simp [outgoing, hts]
    have hrest : ∀ nd ∈ rest, live s nd.1 := fun nd h => hl nd (List.mem_cons_of_mem _ h)
    by_cases h1 : p.2.input_types_.length = slots.length
    swap
    · refine ⟨none, by simp only [is_valid_loop, hsl]; simp [h1], ?_, by simp⟩
      simp only [true_iff]
      exact ⟨p, List.mem_cons_self _ _, fun h => h1 (by rw [← hfs]; exact h.1.symm)⟩
    cases hsink : p.2.is_sink with
    | true =>
      obtain ⟨r, hr, hnone, hsome⟩ := ih hrest (cs || p.2.is_source) true
      refine ⟨r, by simp only [is_valid_loop, hsl]; simp [h1, hsink]; exact hr, ?_, ?_⟩
      · rw [hnone]
        constructor
        · rintro ⟨nd, hnd, h⟩
          exact ⟨nd, List.mem_cons_of_mem _ hnd, h⟩
        · rintro ⟨nd, hnd, h⟩
          rcases List.mem_cons.1 hnd with rfl | hnd
          · exact absurd ⟨by rw [hfs]; exact h1.symm, fun h2 => by simp [hsink] at h2⟩ h
          · exact ⟨nd, hnd, h⟩
      · intro a b hab
        obtain ⟨ha, hb⟩ := hsome a b hab
        constructor
        · rw [ha]
          exact or_exists_cons cs (fun nd : Int × node => nd.2.is_source) p rest
        · rw [hb]
          have := or_exists_cons ck (fun nd : Int × node => nd.2.is_sink) p rest
          rw [hsink, Bool.or_true] at this
          exact this
    | false =>
      by_cases h2 : tos.length = 0
      · refine ⟨none, by simp only [is_valid_loop, hsl, hts]; simp [h1, hsink, h2], ?_, by simp⟩
        simp only [true_iff]
        refine ⟨p, List.mem_cons_self _ _, ?_⟩
        rintro ⟨_, h⟩
        obtain ⟨w, hw'⟩ := h hsink
        rw [hout, List.length_eq_zero.1 h2] at hw'
        cases hw'
      · obtain ⟨r, hr, hnone, hsome⟩ := ih hrest (cs || p.2.is_source) ck
        refine ⟨r, by simp only [is_valid_loop, hsl, hts]; simp [h1, hsink, h2]; exact hr,
          ?_, ?_⟩
        · rw [hnone]
          constructor
          · rintro ⟨nd, hnd, h⟩
            exact ⟨nd, List.mem_cons_of_mem _ hnd, h⟩
          · rintro ⟨nd, hnd, h⟩
            rcases List.mem_cons.1 hnd with rfl | hnd
            · exfalso
              apply h
              refine ⟨by rw [hfs]; exact h1.symm, fun _ => ?_⟩
              rw [hout]
              cases tos with
              | nil => simp at h2
              | cons w _ => exact ⟨w, List.mem_cons_self _ _⟩
            · exact ⟨nd, hnd, h⟩
        · intro a b hab
          obtain ⟨ha, hb⟩ := hsome a b hab
          constructor
          · rw [ha]
            exact or_exists_cons cs (fun nd : Int × node => nd.2.is_source) p rest
          · rw [hb]
            have := or_exists_cons ck (fun nd : Int × node => nd.2.is_sink) p rest
            rw [hsink, Bool.or_false] at this
            exact this

theorem mem_nodes_iff_find (s : pipeline) (hw : WF s) (v : Int) (n : node) :
    (v, n) ∈ s.nodes_ ↔ map_find s.nodes_ v = some n :=
  ⟨map_find_of_mem _ _ _ hw.sorted_nodes, mem_of_map_find _ _ _⟩

/-- On a consistent pipeline `is_valid` returns when the fuel exceeds the number
of nodes, and answers whether the six conditions hold. -/
theorem is_valid_spec (s : pipeline) (hw : WF s) (fuel : Nat)
    (hfuel : s.nodes_.length < fuel) :
    ∃ b, is_valid fuel s = .ok b ∧
      (b = true ↔ all_slots_filled s ∧ no_dangling_producer s ∧ has_source s ∧
        has_sink s ∧ root_connected s ∧ acyclic s) := by
  obtain ⟨r, hr, hnone, hsome⟩ := is_valid_loop_spec s hw s.nodes_
    (fun nd hnd => (live_iff_mem_nodes s nd.1).2 ⟨nd, hnd, rfl⟩) false false
  have h12 : (all_slots_filled s ∧ no_dangling_producer s) ↔
      ¬ ∃ nd ∈ s.nodes_, ¬ (filled_slots s nd.1 = nd.2.input_types_.length ∧
        (nd.2.is_sink = false → ∃ w, w ∈ outgoing s nd.1)) := by
    unfold all_slots_filled no_dangling_producer
    constructor
    · rintro ⟨h1, h2⟩ ⟨nd, hnd, h⟩
      have := (mem_nodes_iff_find s hw nd.1 nd.2).1 hnd
      exact h ⟨h1 _ _ this, h2 _ _ this⟩
    · intro h
      constructor
      · intro v n hv
        by_contra hc
        exact h ⟨(v, n), (mem_nodes_iff_find s hw v n).2 hv, fun h' => hc h'.1⟩
      · intro v n hv hs
        by_contra hc
        exact h ⟨(v, n), (mem_nodes_iff_find s hw v n).2 hv, fun h' => hc (h'.2 hs)⟩
  have hsrc : has_source s ↔ ∃ nd ∈ s.nodes_, nd.2.is_source = true := by
    unfold has_source
    constructor
    · rintro ⟨v, n, h1, h2⟩
      exact ⟨(v, n), (mem_nodes_iff_find s hw v n).2 h1, h2⟩
    · rintro ⟨nd, h1, h2⟩
      exact ⟨nd.1, nd.2, (mem_nodes_iff_find s hw nd.1 nd.2).1 h1, h2⟩
  have hsnk : has_sink s ↔ ∃ nd ∈ s.nodes_, nd.2.is_sink = true := by
    unfold has_sink
    constructor
    · rintro ⟨v, n, h1, h2⟩
      exact ⟨(v, n), (mem_nodes_iff_find s hw v n).2 h1, h2⟩
    · rintro ⟨nd, h1, h2⟩
      exact ⟨nd.1, nd.2, (mem_nodes_iff_find s hw nd.1 nd.2).1 h1, h2⟩
  cases r with
  | none =>
    refine ⟨false, by simp only [is_valid, hr], ?_⟩
    simp only [Bool.false_eq_true, false_iff]
    rintro ⟨h1, h2, _⟩
    exact (h12.1 ⟨h1, h2⟩) (hnone.1 rfl)
  | some ab =>
    obtain ⟨cs, ck⟩ := ab
    have hV12 : all_slots_filled s ∧ no_dangling_producer s := by
      rw [h12, ← hnone]
      simp
    obtain ⟨hcs, hck⟩ := hsome cs ck rfl
    simp only [Bool.false_eq_true, false_or] at hcs hck
    cases hcs' : cs with
    | false =>
      refine ⟨false, by simp only [is_valid, hr, hcs']; rfl, ?_⟩
      simp only [Bool.false_eq_true, false_iff]
      rintro ⟨_, _, h3, _⟩
      rw [hsrc, ← hcs, hcs'] at h3
      cases h3
    | true =>
      cases hck' : ck with
      | false =>
        refine ⟨false, by simp only [is_valid, hr, hcs', hck']; rfl, ?_⟩
        simp only [Bool.false_eq_true, false_iff]
        rintro ⟨_, _, _, h4, _⟩
        rw [hsnk, ← hck, hck'] at h4
        cases h4
      | true =>
        have h3 : has_source s := by rw [hsrc, ← hcs]; exact hcs'
        have h4 : has_sink s := by rw [hsnk, ← hck]; exact hck'
        obtain ⟨first, rest, hnodes⟩ : ∃ first rest, s.nodes_ = first :: rest := by
          obtain ⟨nd, hnd, _⟩ := hsrc.1 h3
          cases hn : s.nodes_ with
          | nil => rw [hn] at hnd; cases hnd
          | cons a b => exact ⟨a, b, rfl⟩
        obtain ⟨bc, hbc, hbciff⟩ := is_connected_spec s hw first rest hnodes fuel
          (le_of_lt hfuel)
        rw [← root_connected_iff s hw first rest hnodes] at hbciff
        obtain ⟨bh, hbh, hbhiff⟩ := has_cycle_spec s hw fuel hfuel
        have hacyc : acyclic s ↔ bh = false := by
          unfold acyclic
          constructor
          · intro h
            cases hb : bh with
            | false => rfl
            | true =>
              obtain ⟨x, hx⟩ := hbhiff.1 hb
              exact absurd hx (h x)
          · intro h v hv
            have := hbhiff.2 ⟨v, hv⟩
            rw [h] at this
            cases this
        cases bc with
        | false =>
          refine ⟨false, by simp only [is_valid, hr, hcs', hck', hbc]; rfl, ?_⟩
          simp only [Bool.false_eq_true, false_iff]
          rintro ⟨_, _, _, _, h5, _⟩
          have := hbciff.2 h5
          cases this
        | true =>
          refine ⟨!bh, by simp only [is_valid, hr, hcs', hck', hbc, hbh]; rfl, ?_⟩
          constructor
          · intro h
            refine ⟨hV12.1, hV12.2, h3, h4, hbciff.1 rfl, hacyc.2 ?_⟩
            simpa using h
          · rintro ⟨_, _, _, _, _, h6⟩
            simp [hacyc.1 h6]

end pipeline
end ppl

namespace ppl
namespace pipeline

open internal

/-! ## Claims about `is_valid` -/

/-- C8: in a reachable state `is_valid()` returns (the searches need no more fuel
than there are nodes, plus one), and it returns true exactly when all six hold:
every node has as many filled slots as input types, every node that is not a
sink has a dependent, there is a source, there is a sink, every node is
reachable from the smallest live id or reaches it, and the outgoing relation
has no directed cycle. -/
theorem is_valid_iff (s : pipeline) (hs : Reachable s) (fuel : Nat)
    (hfuel : s.nodes_.length < fuel) :
    ∃ b, is_valid fuel s = .ok b ∧
      (b = true ↔ all_slots_filled s ∧ no_dangling_producer s ∧ has_source s ∧
        has_sink s ∧ root_connected s ∧ acyclic s) :=
  is_valid_spec s hs.wf fuel hfuel

/-- C8, on the first pipeline of "Testing is_valid for 'There are no
subpipelines'": the chain is valid, hence connected from its root and acyclic. -/
theorem is_valid_iff_witness :
    Reachable examples.chain ∧ examples.chain.nodes_.length < 4 ∧
    is_valid 4 examples.chain = .ok true ∧
    root_connected examples.chain ∧ acyclic examples.chain := by
  have hv : is_valid 4 examples.chain = .ok true := by decide
  obtain ⟨b, hb, hiff⟩ := is_valid_iff examples.chain reachable_chain 4 (by decide)
  rw [hv] at hb
  cases hb
  have h := hiff.1 rfl
  exact ⟨reachable_chain, by decide, hv, h.2.2.2.2.1, h.2.2.2.2.2⟩

theorem single_sink_nodes_to :
    examples.single_sink.nodes_to_ = [(1, [3]), (2, [3]), (3, [4]), (4, [])] := by decide

theorem single_sink_live (u : Int) (h : live examples.single_sink u) :
    u = 1 ∨ u = 2 ∨ u = 3 ∨ u = 4 := by
  have hn : map_keys examples.single_sink.nodes_ = [1, 2, 3, 4] := by decide
  unfold live at h
  rw [map_contains_iff_mem_keys, hn] at h
  simpa using h

/-- C9 (the code departs from the claim): on the pipeline of "Testing step for a
single sink", two sources feeding one component that feeds a sink,
`is_connected` returns false although any two nodes are joined by a path when
the direction of the edges is ignored. -/
theorem is_connected_rejects_weakly_connected :
    is_connected 5 examples.single_sink.nodes_ examples.single_sink.nodes_to_
      examples.single_sink.nodes_from_ = .ok false ∧
    weakly_connected examples.single_sink ∧
    Reachable examples.single_sink := by
  refine ⟨by decide, ?_, reachable_single_sink⟩
  have hub : ∀ u, live examples.single_sink u →
      Relation.ReflTransGen
        (fun a b => edge examples.single_sink a b ∨ edge examples.single_sink b a) u 3 ∧
      Relation.ReflTransGen
        (fun a b => edge examples.single_sink a b ∨ edge examples.single_sink b a) 3 u := by
    intro u hu
    rcases single_sink_live u hu with rfl | rfl | rfl | rfl
    · exact ⟨Relation.ReflTransGen.single (Or.inl (by decide)),
        Relation.ReflTransGen.single (Or.inr (by decide))⟩
    · exact ⟨Relation.ReflTransGen.single (Or.inl (by decide)),
        Relation.ReflTransGen.single (Or.inr (by decide))⟩
    · exact ⟨Relation.ReflTransGen.refl, Relation.ReflTransGen.refl⟩
    · exact ⟨Relation.ReflTransGen.single (Or.inr (by decide)),
        Relation.ReflTransGen.single (Or.inl (by decide))⟩
  intro u v hu hv
  exact (hub u hu).1.trans (hub v hv).2

/-- A set of nodes that no edge enters or leaves contains, with a node, all
nodes reachable from it in either direction. -/
theorem group_of_reach (s : pipeline) (A : Int → Prop)
    (hno : ∀ u v, edge s u v → (A u ↔ A v)) (u v : Int)
    (h : Relation.ReflTransGen (edge s) u v) : A u ↔ A v := by
  induction h with
  | refl => exact Iff.rfl
  | tail _ hbc ih => exact ih.trans (hno _ _ hbc)

/-- C10: when the live nodes of a reachable state split into two non-empty groups
(those in `A` and the others) and no edge joins a node of one group to a node of
the other, `is_valid()` returns false. -/
theorem disconnected_groups_invalid (s : pipeline) (hs : Reachable s) (fuel : Nat)
    (hfuel : s.nodes_.length < fuel) (A : Int → Prop) (a b : Int)
    (ha : live s a ∧ A a) (hb : live s b ∧ ¬ A b)
    (hno : ∀ u v, edge s u v → (A u ↔ A v)) :
    is_valid fuel s = .ok false := by
  have hw := hs.wf
  obtain ⟨r, hr, hiff⟩ := is_valid_spec s hw fuel hfuel
  cases r with
  | false => exact hr
  | true =>
    exfalso
    obtain ⟨_, _, _, _, h5, _⟩ := hiff.1 rfl
    obtain ⟨first, rest, hnodes⟩ : ∃ first rest, s.nodes_ = first :: rest := by
      obtain ⟨nd, hnd, _⟩ := (live_iff_mem_nodes s a).1 ha.1
      cases hn : s.nodes_ with
      | nil => rw [hn] at hnd; cases hnd
      | cons x y => exact ⟨x, y, rfl⟩
    have hroot := (root_connected_iff s hw first rest hnodes).1 h5
    have key : ∀ v, live s v → (A first.1 ↔ A v) := by
      intro v hv
      rcases hroot v hv with h | h
      · exact group_of_reach s A hno _ _ h
      · exact (group_of_reach s A hno _ _ h).symm
    exact hb.2 ((key b hb.1).1 ((key a ha.1).2 ha.2))

set_option maxRecDepth 100000

theorem two_chains_edges (u v : Int) (h : edge examples.two_chains u v) :
    (u = 1 ∧ v = 2) ∨ (u = 2 ∧ v = 3) ∨ (u = 4 ∧ v = 5) ∨ (u = 5 ∧ v = 6) := by
  have hn : examples.two_chains.nodes_to_ =
      [(1, [2]), (2, [3]), (3, []), (4, [5]), (5, [6]), (6, [])] := by decide
  unfold edge outgoing at h
  rw [hn] at h
  simp only [map_find] at h
  split_ifs at h <;> simp at h <;> omega

/-- C10, on the second pipeline of "Testing is_valid for 'There are no
subpipelines'": the chains 1, 2, 3 and 4, 5, 6 are two groups without an edge
between them, and `is_valid()` returns false. -/
theorem disconnected_groups_invalid_witness :
    Reachable examples.two_chains ∧ examples.two_chains.nodes_.length < 7 ∧
    (live examples.two_chains 1 ∧ (1 : Int) ≤ 3) ∧
    (live examples.two_chains 4 ∧ ¬ (4 : Int) ≤ 3) ∧
    (∀ u v, edge examples.two_chains u v → (u ≤ 3 ↔ v ≤ 3)) ∧
    is_valid 7 examples.two_chains = .ok false :=
  have hno : ∀ u v, edge examples.two_chains u v → (u ≤ 3 ↔ v ≤ 3) := by
    intro u v h
    rcases two_chains_edges u v h with ⟨rfl, rfl⟩ | ⟨rfl, rfl⟩ | ⟨rfl, rfl⟩ | ⟨rfl, rfl⟩ <;>
      decide
  ⟨reachable_two_chains, by decide, by decide, by decide, hno,
    disconnected_groups_invalid examples.two_chains reachable_two_chains 7 (by decide)
      (fun v => v ≤ 3) 1 4 (by decide) (by decide) hno⟩

end pipeline
end ppl

namespace ppl
namespace internal

open pipeline

/-! ## Topological order -/

theorem ordered_suffix (E : Int → Int → Prop) (pre post : List Int)
    (h : topologically_ordered E (pre ++ post)) : topologically_ordered E post := by
  induction pre with
  | nil => exact h
  | cons a pre ih => exact ih h.2

theorem ordered_edge (E : Int → Int → Prop) (pre post : List Int) (x y : Int)
    (h : topologically_ordered E (pre ++ x :: post)) (hxy : E x y) : y ∈ post :=
  (ordered_suffix E pre (x :: post) h).1 y hxy

/-- In a topologically ordered list the descendants of a node come after it. -/
theorem ordered_descendant (E : Int → Int → Prop) (l : List Int)
    (h : topologically_ordered E l) (x d : Int) (hxd : Relation.TransGen E x d) :
    ∀ pre post, l = pre ++ x :: post → d ∈ post := by
  induction hxd with
  | single hxy =>
    intro pre post hl
    rw [hl] at h
    exact ordered_edge E pre post x _ h hxy
  | @tail b c _ hbc ih =>
    intro pre post hl
    have hb := ih pre post hl
    obtain ⟨p1, p2, hp⟩ := List.append_of_mem hb
    have hl2 : l = (pre ++ x :: p1) ++ b :: p2 := by
      rw [hl, hp]; simp
    rw [hl2] at h
    have := ordered_edge E _ p2 b c h hbc
    rw [hp]
    exact List.mem_append_right _ (List.mem_cons_of_mem _ this)

/-- The loop of `dfs_forwards`: the nodes it pushes are those it marks, each
once, and with an acyclic graph the stack stays topologically ordered. -/
theorem dfs_forwards_loop_stack (nodes_to_ : std_map std_set) (fuel : Nat)
    (call : List Int → Int → std_map Bool → Except exception (List Int × std_map Bool))
    (hcall : ∀ node S vis, closed_graph (map_find nodes_to_) vis →
      map_find vis node = some false → unvisited vis ≤ fuel →
      ∃ new vis1, call S node vis = .ok (new ++ S, vis1) ∧
        (∀ x, map_contains vis1 x = map_contains vis x) ∧
        (∀ x, map_find vis1 x = some true ↔ (map_find vis x = some true ∨ x ∈ new)) ∧
        new.Nodup ∧ node ∈ new ∧ (∀ x ∈ new, map_find vis x ≠ some true) ∧
        unvisited vis1 ≤ unvisited vis ∧
        ((∀ x, ¬ Relation.TransGen (succ_rel (map_find nodes_to_)) x x) →
          (∀ x, map_find vis x = some true → x ∉ S →
            Relation.TransGen (succ_rel (map_find nodes_to_)) x node) →
          topologically_ordered (succ_rel (map_find nodes_to_)) S →
          topologically_ordered (succ_rel (map_find nodes_to_)) (new ++ S)))
    (l : List Int) :
    ∀ S vis, closed_graph (map_find nodes_to_) vis → (∀ y ∈ l, map_contains vis y = true) →
      unvisited vis ≤ fuel →
      ∃ new vis1, dfs_forwards_loop call l S vis = .ok (new ++ S, vis1) ∧
        (∀ x, map_contains vis1 x = map_contains vis x) ∧
        (∀ x, map_find vis1 x = some true ↔ (map_find vis x = some true ∨ x ∈ new)) ∧
        new.Nodup ∧ (∀ y ∈ l, map_find vis1 y = some true) ∧
        (∀ x ∈ new, map_find vis x ≠ some true) ∧
        unvisited vis1 ≤ unvisited vis ∧
        ((∀ x, ¬ Relation.TransGen (succ_rel (map_find nodes_to_)) x x) →
          (∀ x, map_find vis x = some true → x ∉ S →
            ∀ y ∈ l, Relation.TransGen (succ_rel (map_find nodes_to_)) x y) →
          topologically_ordered (succ_rel (map_find nodes_to_)) S →
          topologically_ordered (succ_rel (map_find nodes_to_)) (new ++ S)) := by
  induction l with
  | nil =>
    intro S vis _ _ _
    exact ⟨[], vis, rfl, fun _ => rfl, by simp, List.nodup_nil, by simp, by simp, le_refl _,
      fun _ _ h => h⟩
  | cons y rest ih =>
    intro S vis hg hl hf
    obtain ⟨b, hb⟩ := find_of_contains vis y (hl y (List.mem_cons_self _ _))
    cases b with
    | true =>
      obtain ⟨new, vis1, h1, hk, hm, hnd, hall, hnew, hc, hord⟩ :=
        ih S vis hg (fun z hz => hl z (List.mem_cons_of_mem _ hz)) hf
      refine ⟨new, vis1, by simp only [dfs_forwards_loop, hb]; exact h1, hk, hm, hnd, ?_, hnew,
        hc, ?_⟩
      · intro z hz
        rcases List.mem_cons.1 hz with rfl | hz
        · exact (hm z).2 (Or.inl hb)
        · exact hall z hz
      · intro hac hgrey hS
        exact hord hac (fun x hx hxS z hz => hgrey x hx hxS z (List.mem_cons_of_mem _ hz)) hS
    | false =>
      obtain ⟨newa, visa, ha, hka, hma, hnda, hya, hnewa, hca, horda⟩ := hcall y S vis hg hb hf
      obtain ⟨newb, vis1, h1, hkb, hmb, hndb, hallb, hnewb, hcb, hordb⟩ :=
        ih (newa ++ S) visa (closed_graph_of_keys _ vis visa hka hg)
          (fun z hz => by rw [hka]; exact hl z (List.mem_cons_of_mem _ hz)) (le_trans hca hf)
      refine ⟨newb ++ newa, vis1, ?_, ?_, ?_, ?_, ?_, ?_, le_trans hcb hca, ?_⟩
      · simp only [dfs_forwards_loop, hb, ha, List.append_assoc]
        exact h1
      · intro x; rw [hkb, hka]
      · intro x
        rw [hmb x, hma x, List.mem_append]
        tauto
      · rw [List.nodup_append]
        refine ⟨hndb, hnda, ?_⟩
        intro x hxb hxa
        exact hnewb x hxb ((hma x).2 (Or.inr hxa))
      · intro z hz
        rcases List.mem_cons.1 hz with rfl | hz
        · exact (hmb z).2 (Or.inl ((hma z).2 (Or.inr hya)))
        · exact hallb z hz
      · intro x hx
        rcases List.mem_append.1 hx with hx | hx
        · exact fun h => hnewb x hx ((hma x).2 (Or.inl h))
        · exact hnewa x hx
      · intro hac hgrey hS
        have hSa := horda hac (fun x hx hxS => hgrey x hx hxS y (List.mem_cons_self _ _)) hS
        have := hordb hac (fun x hx hxS z hz => by
          rcases (hma x).1 hx with hx1 | hx1
          · exact hgrey x hx1 (fun h => hxS (List.mem_append_right _ h)) z
              (List.mem_cons_of_mem _ hz)
          · exact absurd (List.mem_append_left _ hx1) hxS) hSa
        rw [List.append_assoc]
        exact this

/-- A call of `dfs_forwards` on an unvisited node returns when the fuel is at
least the number of unvisited nodes; it pushes the nodes it marks, each once
and the node itself on top, and with an acyclic graph the stack stays
topologically ordered. -/
theorem dfs_forwards_stack (nodes_to_ : std_map std_set) (fuel : Nat) :
    ∀ node S vis, closed_graph (map_find nodes_to_) vis →
      map_find vis node = some false → unvisited vis ≤ fuel →
      ∃ new vis1, dfs_forwards fuel S node vis nodes_to_ = .ok (new ++ S, vis1) ∧
        (∀ x, map_contains vis1 x = map_contains vis x) ∧
        (∀ x, map_find vis1 x = some true ↔ (map_find vis x = some true ∨ x ∈ new)) ∧
        new.Nodup ∧ node ∈ new ∧ (∀ x ∈ new, map_find vis x ≠ some true) ∧
        unvisited vis1 ≤ unvisited vis ∧
        ((∀ x, ¬ Relation.TransGen (succ_rel (map_find nodes_to_)) x x) →
          (∀ x, map_find vis x = some true → x ∉ S →
            Relation.TransGen (succ_rel (map_find nodes_to_)) x node) →
          topologically_ordered (succ_rel (map_find nodes_to_)) S →
          topologically_ordered (succ_rel (map_find nodes_to_)) (new ++ S)) := by
  induction fuel with
  | zero =>
    intro node S vis _ hn hf
    have := unvisited_set_lt vis node hn
    omega
  | succ fuel ih =>
    intro node S vis hg hn hf
    have hc : map_contains vis node = true := contains_of_find vis node false hn
    obtain ⟨tos, hts, htsk⟩ := hg node hc
    have hk1 : ∀ x, map_contains (map_modify vis node (fun _ => true)) x = map_contains vis x :=
      fun x => map_contains_modify vis node x _
    have hv1 : ∀ x, map_find (map_modify vis node (fun _ => true)) x =
        if x = node then some true else map_find vis x :=
      fun x => map_find_set vis node x true hc
    have hlt := unvisited_set_lt vis node hn
    obtain ⟨new, vis2, h2, hk2, hm2, hnd2, hall2, hnew2, hc2, hord2⟩ :=
      dfs_forwards_loop_stack nodes_to_ fuel
        (fun st n vis => dfs_forwards fuel st n vis nodes_to_) ih tos S
        (map_modify vis node (fun _ => true)) (closed_graph_of_keys _ vis _ hk1 hg)
        (fun y hy => by rw [hk1]; exact htsk y hy) (by omega)
    have hnode_new : node ∉ new := by
      intro h
      exact hnew2 node h (by rw [hv1, if_pos rfl])
    refine ⟨node :: new, vis2, ?_, ?_, ?_, ?_, List.mem_cons_self _ _, ?_, ?_, ?_⟩
    · simp only [dfs_forwards, map_set_at_of_contains vis node true hc, hts, h2,
        List.cons_append]
    · intro x; rw [hk2, hk1]
    · intro x
      rw [hm2 x, hv1 x, List.mem_cons]
      by_cases hx : x = node
      · simp [hx]
      · simp [hx]
    · exact List.nodup_cons.2 ⟨hnode_new, hnd2⟩
    · intro x hx
      rcases List.mem_cons.1 hx with rfl | hx
      · rw [hn]; simp
      · intro h
        apply hnew2 x hx
        rw [hv1]
        split
        · rfl
        · exact h
    · exact le_trans hc2 (le_of_lt hlt)
    · intro hac hgrey hS
      have hgrey1 : ∀ x, map_find (map_modify vis node (fun _ => true)) x = some true → x ∉ S →
          ∀ y ∈ tos, Relation.TransGen (succ_rel (map_find nodes_to_)) x y := by
        intro x hx hxS y hy
        rw [hv1] at hx
        by_cases hxn : x = node
        · subst hxn
          exact Relation.TransGen.single ⟨tos, hts, hy⟩
        · rw [if_neg hxn] at hx
          exact Relation.TransGen.tail (hgrey x hx hxS) ⟨tos, hts, hy⟩
      have hS2 := hord2 hac hgrey1 hS
      refine ⟨?_, hS2⟩
      rintro y ⟨tos1, h1, h2y⟩
      rw [hts] at h1
      cases h1
      by_contra hny
      have hy2 : map_find vis2 y = some true := hall2 y h2y
      have hy1 : map_find (map_modify vis node (fun _ => true)) y = some true := by
        rcases (hm2 y).1 hy2 with h | h
        · exact h
        · exact absurd (List.mem_append_left _ h) hny
      have hE : succ_rel (map_find nodes_to_) node y := ⟨tos, hts, h2y⟩
      rw [hv1] at hy1
      by_cases hyn : y = node
      · subst hyn
        exact hac y (Relation.TransGen.single hE)
      · rw [if_neg hyn] at hy1
        have := hgrey y hy1 (fun h => hny (List.mem_append_right _ h))
        exact hac y (Relation.TransGen.tail this hE)

theorem topological_sort_loop_spec (nodes_to_ : std_map std_set) (fuel : Nat)
    (l : List (Int × node)) :
    ∀ S vis, closed_graph (map_find nodes_to_) vis → (∀ nd ∈ l, map_contains vis nd.1 = true) →
      unvisited vis ≤ fuel → S.Nodup → (∀ x, map_find vis x = some true ↔ x ∈ S) →
      ∃ S1, topological_sort_loop fuel nodes_to_ l S vis = .ok S1 ∧ S1.Nodup ∧
        (∀ x ∈ S, x ∈ S1) ∧ (∀ nd ∈ l, nd.1 ∈ S1) ∧
        (∀ x ∈ S1, map_contains vis x = true) ∧
        ((∀ x, ¬ Relation.TransGen (succ_rel (map_find nodes_to_)) x x) →
          topologically_ordered (succ_rel (map_find nodes_to_)) S →
          topologically_ordered (succ_rel (map_find nodes_to_)) S1) := by
  induction l with
  | nil =>
    intro S vis _ _ _ hnd hm
    exact ⟨S, rfl, hnd, fun _ h => h, by simp,
      fun x hx => contains_of_find vis x true ((hm x).2 hx), fun _ h => h⟩
  | cons p rest ih =>
    intro S vis hg hl hf hnd hm
    obtain ⟨b, hb⟩ := find_of_contains vis p.1 (hl p (List.mem_cons_self _ _))
    cases b with
    | true =>
      obtain ⟨S1, h1, hnd1, hsub, hall, hkeys, hord⟩ :=
        ih S vis hg (fun nd h => hl nd (List.mem_cons_of_mem _ h)) hf hnd hm
      refine ⟨S1, by simp only [topological_sort_loop, hb]; exact h1, hnd1, hsub, ?_, hkeys,
        hord⟩
      intro nd hnd'
      rcases List.mem_cons.1 hnd' with rfl | hnd'
      · exact hsub _ ((hm _).1 hb)
      · exact hall nd hnd'
    | false =>
      obtain ⟨new, visa, ha, hka, hma, hnda, hpa, hnewa, hca, horda⟩ :=
        dfs_forwards_stack nodes_to_ fuel p.1 S vis hg hb hf
      have hnda' : (new ++ S).Nodup := by
        rw [List.nodup_append]
        exact ⟨hnda, hnd, fun x hx hxS => hnewa x hx ((hm x).2 hxS)⟩
      have hma' : ∀ x, map_find visa x = some true ↔ x ∈ new ++ S := by
        intro x
        rw [hma x, hm x, List.mem_append]
        tauto
      obtain ⟨S1, h1, hnd1, hsub, hall, hkeys, hord⟩ :=
        ih (new ++ S) visa (closed_graph_of_keys _ vis visa hka hg)
          (fun nd h => by rw [hka]; exact hl nd (List.mem_cons_of_mem _ h))
          (le_trans hca hf) hnda' hma'
      refine ⟨S1, by simp only [topological_sort_loop, hb, ha]; exact h1, hnd1, ?_, ?_, ?_, ?_⟩
      · intro x hx
        exact hsub x (List.mem_append_right _ hx)
      · intro nd hnd'
        rcases List.mem_cons.1 hnd' with rfl | hnd'
        · exact hsub _ (List.mem_append_left _ hpa)
        · exact hall nd hnd'
      · intro x hx
        rw [← hka]
        exact hkeys x hx
      · intro hac hS
        exact hord hac (horda hac (fun x hx hxS => absurd ((hm x).1 hx) hxS) hS)

end internal

namespace pipeline

open internal

/-- On a consistent pipeline `topological_sort` returns when the fuel is at
least the number of nodes; the stack holds every live id once, and when the
outgoing relation is acyclic every node is above the nodes it feeds. -/
theorem topological_sort_spec (s : pipeline) (hw : WF s) (fuel : Nat)
    (hfuel : s.nodes_.length ≤ fuel) :
    ∃ stack, topological_sort fuel s.nodes_ s.nodes_to_ = .ok stack ∧ stack.Nodup ∧
      (∀ x, x ∈ stack ↔ live s x) ∧
      (acyclic s → topologically_ordered (edge s) stack) := by
  have h0 : ∀ x, map_find (all_false s.nodes_) x ≠ some true := by
    intro x
    rw [map_find_all_false]
    split <;> simp
  obtain ⟨S1, h1, hnd, _, hall, hkeys, hord⟩ := topological_sort_loop_spec s.nodes_to_ fuel
    s.nodes_ [] (all_false s.nodes_) (closed_graph_forwards s hw)
    (fun nd hnd => by
      rw [map_contains_all_false]
      exact (live_iff_mem_nodes s nd.1).2 ⟨nd, hnd, rfl⟩)
    (le_trans (unvisited_all_false_le s.nodes_) hfuel) List.nodup_nil
    (fun x => by simp [h0 x])
  refine ⟨S1, h1, hnd, ?_, ?_⟩
  · intro x
    constructor
    · intro hx
      have := hkeys x hx
      rw [map_contains_all_false] at this
      exact this
    · intro hx
      obtain ⟨nd, hnd', rfl⟩ := (live_iff_mem_nodes s x).1 hx
      exact hall nd hnd'
  · intro hac
    have hac' : ∀ x, ¬ Relation.TransGen (succ_rel (map_find s.nodes_to_)) x x := by
      intro x hx
      exact hac x ((Relation.TransGen.mono (fun a b h => (succ_rel_forwards s a b).1 h)) hx)
    have := hord hac' trivial
    have hE : succ_rel (map_find s.nodes_to_) = edge s := by
      funext a b
      exact propext (succ_rel_forwards s a b)
    rw [hE] at this
    exact this

end pipeline
end ppl

namespace ppl
namespace internal

open pipeline

/-! ## Propagation of poll states -/

theorem map_find_paint (p : std_map poll) (y x : Int) (st : poll) :
    map_find (paint p y st) x =
      if x = y then some (painted st (map_find p y)) else map_find p x := by
  unfold paint painted
  by_cases hc : map_contains p y = true
  · obtain ⟨v, hv⟩ := find_of_contains p y hc
    rw [if_pos hc]
    by_cases hcl : v = poll.closed
    · subst hcl
      simp only [hv, ne_eq, not_true_eq_false, if_false, if_true]
      by_cases hx : x = y
      · subst hx; simp [hv]
      · simp [hx]
    · have hne : map_find p y ≠ some poll.closed := by
        rw [hv]; simpa using hcl
      rw [if_pos hne, map_find_set p y x st hc]
      simp [hne]
  · rw [if_neg hc, map_find_emplace]
    have hnone : map_find p y = none := by
      unfold map_contains at hc
      cases h : map_find p y with
      | none => rfl
      | some v => simp [h] at hc
    simp [hnone]

theorem painted_idem (st : poll) (o : Option poll) :
    painted st (some (painted st o)) = painted st o := by
  unfold painted
  by_cases h : o = some poll.closed
  · simp [h]
  · by_cases hs : st = poll.closed
    · simp [h, hs]
    · simp [h, hs]

theorem painted_closed (st : poll) : painted st (some poll.closed) = poll.closed := by
  simp [painted]

theorem reach_cons_iff (E : Int → Int → Prop) (y : Int) (rest : List Int) (x : Int) :
    (∃ z ∈ y :: rest, Relation.ReflTransGen E z x) ↔
      (Relation.ReflTransGen E y x ∨ ∃ z ∈ rest, Relation.ReflTransGen E z x) := by
  simp only [List.mem_cons, exists_eq_or_imp]

theorem reach_succ_iff (G : std_map std_set) (y : Int) (tos : std_set)
    (hts : map_find G y = some tos) (x : Int) :
    Relation.ReflTransGen (succ_rel (map_find G)) y x ↔
      (x = y ∨ ∃ z ∈ tos, Relation.ReflTransGen (succ_rel (map_find G)) z x) := by
  constructor
  · intro h
    rcases Relation.ReflTransGen.cases_head h with h1 | ⟨z, hyz, hzx⟩
    · exact Or.inl h1.symm
    · obtain ⟨tos1, h1, h2⟩ := hyz
      rw [hts] at h1
      cases h1
      exact Or.inr ⟨z, h2, hzx⟩
  · rintro (rfl | ⟨z, hz, hzx⟩)
    · exact Relation.ReflTransGen.refl
    · exact Relation.ReflTransGen.head ⟨tos, hts, hz⟩ hzx

/-- The loop of `update_poll`, given what the recursive calls do. -/
theorem update_poll_loop_spec (G : std_map std_set) (status : poll)
    (call : std_set → std_map poll → Except exception (std_map poll))
    (T : List Int)
    (hcall : ∀ y tos p, y ∈ T → map_find G y = some tos →
      ∃ p1, call tos p = .ok p1 ∧
        (∀ x, (∃ z ∈ tos, Relation.ReflTransGen (succ_rel (map_find G)) z x) →
          map_find p1 x = some (painted status (map_find p x))) ∧
        (∀ x, ¬ (∃ z ∈ tos, Relation.ReflTransGen (succ_rel (map_find G)) z x) →
          map_find p1 x = map_find p x))
    (hG : ∀ x ∈ T, ∃ tos, map_find G x = some tos) (l : List Int) :
    ∀ p, (∀ y ∈ l, y ∈ T) →
      ∃ p1, update_poll_loop status G call l p = .ok p1 ∧
        (∀ x, (∃ z ∈ l, Relation.ReflTransGen (succ_rel (map_find G)) z x) →
          map_find p1 x = some (painted status (map_find p x))) ∧
        (∀ x, ¬ (∃ z ∈ l, Relation.ReflTransGen (succ_rel (map_find G)) z x) →
          map_find p1 x = map_find p x) := by
  induction l with
  | nil =>
    intro p _
    exact ⟨p, rfl, by simp, fun _ _ => rfl⟩
  | cons y rest ih =>
    intro p hl
    have hy : y ∈ T := hl y (List.mem_cons_self _ _)
    obtain ⟨tos, hts⟩ := hG y hy
    obtain ⟨p2, h2, hin2, hout2⟩ := hcall y tos (paint p y status) hy hts
    obtain ⟨p1, h1, hin1, hout1⟩ := ih p2 (fun z hz => hl z (List.mem_cons_of_mem _ hz))
    have hp2 : ∀ x, Relation.ReflTransGen (succ_rel (map_find G)) y x →
        map_find p2 x = some (painted status (map_find p x)) := by
      intro x hx
      rcases (reach_succ_iff G y tos hts x).1 hx with hxy | hx1
      · by_cases hx2 : ∃ z ∈ tos, Relation.ReflTransGen (succ_rel (map_find G)) z x
        · rw [hin2 x hx2, map_find_paint, if_pos hxy, painted_idem, hxy]
        · rw [hout2 x hx2, map_find_paint, if_pos hxy, hxy]
      · have hne : (map_find (paint p y status) x = map_find p x) ∨
            map_find (paint p y status) x = some (painted status (map_find p x)) := by
          rw [map_find_paint]
          by_cases hxy : x = y
          · right; rw [if_pos hxy, hxy]
          · left; rw [if_neg hxy]
        rw [hin2 x hx1]
        rcases hne with h | h
        · rw [h]
        · rw [h, painted_idem]
    have hp2' : ∀ x, ¬ Relation.ReflTransGen (succ_rel (map_find G)) y x →
        map_find p2 x = map_find p x := by
      intro x hx
      have hxy : x ≠ y := by
        rintro rfl
        exact hx Relation.ReflTransGen.refl
      have hx2 : ¬ ∃ z ∈ tos, Relation.ReflTransGen (succ_rel (map_find G)) z x :=
        fun h => hx ((reach_succ_iff G y tos hts x).2 (Or.inr h))
      rw [hout2 x hx2, map_find_paint, if_neg hxy]
    refine ⟨p1, ?_, ?_, ?_⟩
    · simp only [update_poll_loop, hts, h2]
      exact h1
    · intro x hx
      rw [reach_cons_iff] at hx
      by_cases hr : ∃ z ∈ rest, Relation.ReflTransGen (succ_rel (map_find G)) z x
      · rw [hin1 x hr]
        by_cases hy' : Relation.ReflTransGen (succ_rel (map_find G)) y x
        · rw [hp2 x hy', painted_idem]
        · rw [hp2' x hy']
      · rw [hout1 x hr]
        rcases hx with hx | hx
        · exact hp2 x hx
        · exact absurd hx hr
    · intro x hx
      rw [reach_cons_iff, not_or] at hx
      rw [hout1 x hx.2, hp2' x hx.1]

/-- A call of `update_poll` on nodes of a topologically ordered list returns
when the fuel exceeds the length of the list: every node reachable from the
given nodes takes the status unless it was closed, and no other node changes. -/
theorem update_poll_spec (G : std_map std_set) (status : poll) (fuel : Nat) :
    ∀ (T l : List Int) (p : std_map poll),
      topologically_ordered (succ_rel (map_find G)) T →
      (∀ x ∈ T, ∃ tos, map_find G x = some tos) → T.length < fuel → (∀ y ∈ l, y ∈ T) →
      ∃ p1, update_poll fuel l status p G = .ok p1 ∧
        (∀ x, (∃ z ∈ l, Relation.ReflTransGen (succ_rel (map_find G)) z x) →
          map_find p1 x = some (painted status (map_find p x))) ∧
        (∀ x, ¬ (∃ z ∈ l, Relation.ReflTransGen (succ_rel (map_find G)) z x) →
          map_find p1 x = map_find p x) := by
  induction fuel with
  | zero => intro T l p _ _ hf; omega
  | succ fuel ih =>
    intro T l p hT hG hf hl
    have hcall : ∀ y tos p, y ∈ T → map_find G y = some tos →
        ∃ p1, update_poll fuel tos status p G = .ok p1 ∧
          (∀ x, (∃ z ∈ tos, Relation.ReflTransGen (succ_rel (map_find G)) z x) →
            map_find p1 x = some (painted status (map_find p x))) ∧
          (∀ x, ¬ (∃ z ∈ tos, Relation.ReflTransGen (succ_rel (map_find G)) z x) →
            map_find p1 x = map_find p x) := by
      intro y tos p hy hts
      obtain ⟨pre, post, hT'⟩ := List.append_of_mem hy
      rw [hT'] at hT
      have hpost := ordered_suffix _ pre (y :: post) hT
      apply ih post tos p hpost.2
      · intro x hx
        exact hG x (by rw [hT']; exact List.mem_append_right _ (List.mem_cons_of_mem _ hx))
      · rw [hT'] at hf
        simp only [List.length_append, List.length_cons] at hf
        omega
      · intro z hz
        exact hpost.1 z ⟨tos, hts, hz⟩
    simp only [update_poll]
    exact update_poll_loop_spec G status _ T hcall hG l p hl

end internal
end ppl

namespace ppl
namespace pipeline

open internal

/-! ## The loop of `step` -/

theorem blocked_contains (p : std_map poll) (x : Int) (h : blocked p x) :
    map_contains p x = true := by
  rcases h with h | h <;> exact contains_of_find p x _ h

theorem step_loop_cons_blocked (fuel : Nat) (poll_next : List Int → Int → poll)
    (N : std_map node) (G : std_map std_set) (n : Int) (rest : List Int)
    (p : std_map poll) (h : List Int) (hb : blocked p n) :
    step_loop fuel poll_next N G (n :: rest) p h = step_loop fuel poll_next N G rest p h := by
  have hc := blocked_contains p n hb
  rw [step_loop]
  rcases hb with hb | hb <;> simp [hc, hb]

theorem map_find_store (p : std_map poll) (n x : Int) (r : poll) :
    map_find (if map_contains p n then map_modify p n (fun _ => r) else map_emplace p n r) x =
      if x = n then some r else map_find p x := by
  by_cases hc : map_contains p n = true
  · obtain ⟨v, hv⟩ := find_of_contains p n hc
    rw [if_pos hc, map_find_modify]
    by_cases hx : x = n
    · subst hx
      simp [hv]
    · simp [hx]
  · have hc' : map_contains p n = false := by simpa using hc
    rw [if_neg hc, map_find_emplace]
    by_cases hx : x = n
    · subst hx
      have hnone : map_find p x = none := by
        unfold map_contains at hc'
        simpa using hc'
      simp [hnone]
    · simp [hx]

/-- One iteration of the loop of `step` on a node that is not blocked: the
node is polled, the result is stored, and a result other than ready is
painted on everything below the node. -/
theorem step_loop_cons_polled (fuel : Nat) (poll_next : List Int → Int → poll)
    (N : std_map node) (G : std_map std_set) (n : Int) (rest : List Int)
    (p : std_map poll) (h : List Int) (hb : ¬ blocked p n)
    (hord : topologically_ordered (succ_rel (map_find G)) (n :: rest))
    (hnd : (n :: rest).Nodup)
    (hN : ∃ nd, map_find N n = some nd)
    (hG : ∀ x ∈ n :: rest, ∃ tos, map_find G x = some tos)
    (hfuel : rest.length < fuel) :
    ∃ p1, step_loop fuel poll_next N G (n :: rest) p h =
        step_loop fuel poll_next N G rest p1 (h ++ [n]) ∧
      map_find p1 n = some (poll_next h n) ∧
      (∀ x, x ≠ n → poll_next h n ≠ poll.ready →
        Relation.TransGen (succ_rel (map_find G)) n x →
        map_find p1 x = some (painted (poll_next h n) (map_find p x))) ∧
      (∀ x, x ≠ n →
        ¬ (poll_next h n ≠ poll.ready ∧ Relation.TransGen (succ_rel (map_find G)) n x) →
        map_find p1 x = map_find p x) := by
  obtain ⟨nd, hnd'⟩ := hN
  obtain ⟨tos, htos⟩ := hG n (List.mem_cons_self _ _)
  have hcond : (!(map_contains p n &&
      (decide (map_find p n = some poll.closed) ||
        decide (map_find p n = some poll.empty)))) = true := by
    by_contra hcon
    apply hb
    simp only [Bool.not_eq_true, Bool.not_eq_false', Bool.not_not, Bool.and_eq_true,
      Bool.or_eq_true, decide_eq_true_eq] at hcon
    exact hcon.2
  have htr : ∀ x, Relation.TransGen (succ_rel (map_find G)) n x ↔
      ∃ z ∈ tos, Relation.ReflTransGen (succ_rel (map_find G)) z x := by
    intro x
    rw [Relation.TransGen.head'_iff]
    constructor
    · rintro ⟨b, ⟨tos', h1, h2⟩, h3⟩
      rw [htos] at h1
      cases h1
      exact ⟨b, h2, h3⟩
    · rintro ⟨z, hz, h3⟩
      exact ⟨z, ⟨tos, htos, hz⟩, h3⟩
  have hrest : topologically_ordered (succ_rel (map_find G)) rest := hord.2
  have hsub : ∀ y ∈ tos, y ∈ rest := fun y hy => hord.1 y ⟨tos, htos, hy⟩
  have hnrest : n ∉ rest := (List.nodup_cons.mp hnd).1
  have hdesc : ∀ x, Relation.TransGen (succ_rel (map_find G)) n x → x ∈ rest := by
    intro x hx
    exact ordered_descendant _ (n :: rest) hord n x hx [] rest rfl
  -- the propagation
  have hprop : ∀ q : std_map poll, ∀ st : poll,
      ∃ p1, update_poll_at fuel G n st q = .ok p1 ∧
        (∀ x, Relation.TransGen (succ_rel (map_find G)) n x →
          map_find p1 x = some (painted st (map_find q x))) ∧
        (∀ x, ¬ Relation.TransGen (succ_rel (map_find G)) n x →
          map_find p1 x = map_find q x) := by
    intro q st
    obtain ⟨p1, h1, h2, h3⟩ := update_poll_spec G st fuel rest tos q hrest
      (fun x hx => hG x (List.mem_cons_of_mem _ hx)) hfuel hsub
    refine ⟨p1, ?_, ?_, ?_⟩
    · simp only [update_poll_at, htos]
      exact h1
    · intro x hx
      exact h2 x ((htr x).mp hx)
    · intro x hx
      exact h3 x (fun hh => hx ((htr x).mpr hh))
  rw [step_loop, if_pos hcond]
  simp only [hnd']
  generalize hq : (if map_contains p n = true then map_modify p n (fun _ => poll_next h n)
      else map_emplace p n (poll_next h n)) = q
  have hqf : ∀ x, map_find q x = if x = n then some (poll_next h n) else map_find p x := by
    intro x
    rw [← hq]
    exact map_find_store p n x (poll_next h n)
  have hnn : ¬ Relation.TransGen (succ_rel (map_find G)) n n := fun hh => hnrest (hdesc n hh)
  cases hr : poll_next h n with
  | ready =>
    refine ⟨q, ?_, ?_, ?_, ?_⟩
    · simp
    · rw [hqf]
      simp [hr]
    · intro x _ hne
      exact absurd rfl hne
    · intro x hx _
      rw [hqf]
      simp [hx]
  | empty =>
    obtain ⟨p1, h1, h2, h3⟩ := hprop q poll.empty
    refine ⟨p1, ?_, ?_, ?_, ?_⟩
    · simp [h1]
    · rw [h3 n hnn, hqf]
      simp [hr]
    · intro x hx _ htx
      rw [h2 x htx, hqf]
      simp [hx]
    · intro x hx hneg
      have : ¬ Relation.TransGen (succ_rel (map_find G)) n x := fun hh => hneg ⟨by simp, hh⟩
      rw [h3 x this, hqf]
      simp [hx]
  | closed =>
    obtain ⟨p1, h1, h2, h3⟩ := hprop q poll.closed
    refine ⟨p1, ?_, ?_, ?_, ?_⟩
    · simp [h1]
    · rw [h3 n hnn, hqf]
      simp [hr]
    · intro x hx _ htx
      rw [h2 x htx, hqf]
      simp [hx]
    · intro x hx hneg
      have : ¬ Relation.TransGen (succ_rel (map_find G)) n x := fun hh => hneg ⟨by simp, hh⟩
      rw [h3 x this, hqf]
      simp [hx]

/-- The nodes a loop of `step` polls are a sublist of its stack, whatever
the graph. -/
theorem step_loop_sublist (fuel : Nat) (poll_next : List Int → Int → poll)
    (N : std_map node) (G : std_map std_set) :
    ∀ (S : List Int) (p : std_map poll) (h : List Int) (p1 : std_map poll) (h1 : List Int),
      step_loop fuel poll_next N G S p h = .ok (p1, h1) →
      ∃ t, h1 = h ++ t ∧ t.Sublist S := by
  intro S
  induction S with
  | nil =>
    intro p h p1 h1 hs
    rw [step_loop] at hs
    cases hs
    exact ⟨[], by simp, List.Sublist.refl _⟩
  | cons n rest ih =>
    intro p h p1 h1 hs
    rw [step_loop] at hs
    split at hs
    · split at hs
      · cases hs
      · dsimp only at hs
        split at hs
        · cases hs
        · obtain ⟨t, ht, hsub⟩ := ih _ _ _ _ hs
          refine ⟨n :: t, ?_, hsub.cons₂ n⟩
          rw [ht]
          simp
    · obtain ⟨t, ht, hsub⟩ := ih _ _ _ _ hs
      exact ⟨t, ht, hsub.cons n⟩

theorem painted_blocked (st : poll) (o : Option poll) (hst : st ≠ poll.ready) :
    painted st o = poll.closed ∨ painted st o = poll.empty := by
  unfold painted
  split
  · exact Or.inl rfl
  · cases st with
    | ready => exact absurd rfl hst
    | empty => exact Or.inr rfl
    | closed => exact Or.inl rfl

/-- The loop of `step` on a topologically ordered stack without repetition. -/
theorem step_loop_spec (fuel : Nat) (poll_next : List Int → Int → poll)
    (N : std_map node) (G : std_map std_set) :
    ∀ (S : List Int) (p : std_map poll) (h : List Int),
      topologically_ordered (succ_rel (map_find G)) S → S.Nodup →
      (∀ x ∈ S, ∃ nd, map_find N x = some nd) →
      (∀ x ∈ S, ∃ tos, map_find G x = some tos) →
      S.length ≤ fuel →
      (∀ x, blocked p x → ∀ y, succ_rel (map_find G) x y → blocked p y) →
      ∃ p1 t, step_loop fuel poll_next N G S p h = .ok (p1, h ++ t) ∧
        scheduled poll_next (succ_rel (map_find G)) S p h p1 t := by
  intro S
  induction S with
  | nil =>
    intro p h _ _ _ _ _ hinv
    refine ⟨p, [], by simp [step_loop], ?_⟩
    exact {
      sublist := List.Sublist.refl _
      blocked_stays := fun x hx => ⟨hx, by simp⟩
      closed_stays := fun x hx => hx
      blocked_closed := hinv
      skip_below := by
        intro pre a post ht
        simp at ht
      closed_below := by
        intro pre a post ht
        simp at ht
      producers_ready := by
        intro u v _ hu
        simp at hu
      roots_polled := by
        intro x hx
        simp at hx }
  | cons n rest ih =>
    intro p h hord hnd hN hG hfuel hinv
    have hord' : topologically_ordered (succ_rel (map_find G)) rest := hord.2
    have hnd' : rest.Nodup := (List.nodup_cons.mp hnd).2
    have hnrest : n ∉ rest := (List.nodup_cons.mp hnd).1
    have hN' : ∀ x ∈ rest, ∃ nd, map_find N x = some nd :=
      fun x hx => hN x (List.mem_cons_of_mem _ hx)
    have hG' : ∀ x ∈ rest, ∃ tos, map_find G x = some tos :=
      fun x hx => hG x (List.mem_cons_of_mem _ hx)
    have hfuel' : rest.length ≤ fuel := by
      simp only [List.length_cons] at hfuel
      omega
    have hlt : rest.length < fuel := by
      simp only [List.length_cons] at hfuel
      omega
    have hdescn : ∀ x, Relation.TransGen (succ_rel (map_find G)) n x → x ∈ rest :=
      fun x hx => ordered_descendant _ (n :: rest) hord n x hx [] rest rfl
    have hdescr : ∀ a ∈ rest, ∀ x, Relation.TransGen (succ_rel (map_find G)) a x → x ∈ rest := by
      intro a ha x hx
      obtain ⟨q1, q2, hq⟩ := List.append_of_mem ha
      have := ordered_descendant _ rest hord' a x hx q1 q2 hq
      rw [hq]
      simp [this]
    by_cases hb : blocked p n
    · rw [step_loop_cons_blocked fuel poll_next N G n rest p h hb]
      obtain ⟨p1, t, hs, hsch⟩ := ih p h hord' hnd' hN' hG' hfuel' hinv
      refine ⟨p1, t, hs, ?_⟩
      exact {
        sublist := hsch.sublist.cons n
        blocked_stays := hsch.blocked_stays
        closed_stays := hsch.closed_stays
        blocked_closed := hsch.blocked_closed
        skip_below := hsch.skip_below
        closed_below := hsch.closed_below
        producers_ready := by
          intro u v huv hu hv
          rcases List.mem_cons.mp hu with hu | hu
          · subst hu
            exact absurd hv (hsch.blocked_stays v (hinv u hb v huv)).2
          · exact hsch.producers_ready u v huv hu hv
        roots_polled := by
          intro x hx hroot hnb
          rcases List.mem_cons.mp hx with hx | hx
          · subst hx
            exact absurd hb hnb
          · exact hsch.roots_polled x hx hroot hnb }
    · obtain ⟨q, hstep, hqn, hqd, hqo⟩ := step_loop_cons_polled fuel poll_next N G n rest p h hb
        hord hnd (hN n (List.mem_cons_self _ _)) hG hlt
      -- the states after the iteration
      have hbm : ∀ x, blocked p x → blocked q x := by
        intro x hx
        have hxn : x ≠ n := fun hh => hb (hh ▸ hx)
        by_cases hc : poll_next h n ≠ poll.ready ∧ Relation.TransGen (succ_rel (map_find G)) n x
        · have := hqd x hxn hc.1 hc.2
          unfold blocked
          rw [this]
          rcases painted_blocked (poll_next h n) (map_find p x) hc.1 with h1 | h1
          · exact Or.inl (by rw [h1])
          · exact Or.inr (by rw [h1])
        · have := hqo x hxn hc
          unfold blocked at hx ⊢
          rw [this]
          exact hx
      have hcm : ∀ x, map_find p x = some poll.closed → map_find q x = some poll.closed := by
        intro x hx
        have hxn : x ≠ n := fun hh => hb (hh ▸ Or.inl hx)
        by_cases hc : poll_next h n ≠ poll.ready ∧ Relation.TransGen (succ_rel (map_find G)) n x
        · rw [hqd x hxn hc.1 hc.2, hx, painted_closed]
        · rw [hqo x hxn hc, hx]
      have hbelow : poll_next h n ≠ poll.ready →
          ∀ d, Relation.TransGen (succ_rel (map_find G)) n d → blocked q d := by
        intro hne d hd
        have hdn : d ≠ n := fun hh => hnrest (hh ▸ hdescn d hd)
        unfold blocked
        rw [hqd d hdn hne hd]
        rcases painted_blocked (poll_next h n) (map_find p d) hne with h1 | h1
        · exact Or.inl (by rw [h1])
        · exact Or.inr (by rw [h1])
      have hinvq : ∀ x, blocked q x → ∀ y, succ_rel (map_find G) x y → blocked q y := by
        intro x hx y hxy
        by_cases hxn : x = n
        · subst hxn
          have hne : poll_next h x ≠ poll.ready := by
            intro hr
            unfold blocked at hx
            rw [hqn, hr] at hx
            rcases hx with hx | hx <;> cases hx
          exact hbelow hne y (Relation.TransGen.single hxy)
        · by_cases hc : poll_next h n ≠ poll.ready ∧
              Relation.TransGen (succ_rel (map_find G)) n x
          · exact hbelow hc.1 y (Relation.TransGen.tail hc.2 hxy)
          · have hpx : blocked p x := by
              unfold blocked at hx ⊢
              rw [hqo x hxn hc] at hx
              exact hx
            exact hbm y (hinv x hpx y hxy)
      obtain ⟨p1, t, hs, hsch⟩ := ih q (h ++ [n]) hord' hnd' hN' hG' hfuel' hinvq
      refine ⟨p1, n :: t, ?_, ?_⟩
      · rw [hstep, hs]
        simp
      · have htrest : ∀ x ∈ t, x ∈ rest := fun x hx => hsch.sublist.subset hx
        exact {
          sublist := hsch.sublist.cons₂ n
          blocked_stays := by
            intro x hx
            have := hsch.blocked_stays x (hbm x hx)
            refine ⟨this.1, ?_⟩
            intro hmem
            rcases List.mem_cons.mp hmem with hh | hh
            · exact hb (hh ▸ hx)
            · exact this.2 hh
          closed_stays := fun x hx => hsch.closed_stays x (hcm x hx)
          blocked_closed := hsch.blocked_closed
          skip_below := by
            intro pre a post ht hne d hd
            cases pre with
            | nil =>
              simp only [List.nil_append, List.cons.injEq] at ht
              obtain ⟨ha, _⟩ := ht
              subst ha
              simp only [List.append_nil] at hne
              have hbd := hbelow hne d hd
              have := hsch.blocked_stays d hbd
              refine ⟨?_, this.1⟩
              intro hmem
              rcases List.mem_cons.mp hmem with hh | hh
              · exact hnrest (hh ▸ hdescn d hd)
              · exact this.2 hh
            | cons c pre =>
              simp only [List.cons_append, List.cons.injEq] at ht
              obtain ⟨hc, ht⟩ := ht
              subst hc
              have hne' : poll_next ((h ++ [n]) ++ pre) a ≠ poll.ready := by
                simpa using hne
              have := hsch.skip_below pre a post ht hne' d hd
              refine ⟨?_, this.2⟩
              intro hmem
              rcases List.mem_cons.mp hmem with hh | hh
              · have ha : a ∈ rest := htrest a (by rw [ht]; simp)
                exact hnrest (hh ▸ hdescr a ha d hd)
              · exact this.1 hh
          closed_below := by
            intro pre a post ht hcl
            cases pre with
            | nil =>
              simp only [List.nil_append, List.cons.injEq] at ht
              obtain ⟨ha, _⟩ := ht
              subst ha
              simp only [List.append_nil] at hcl
              refine ⟨hsch.closed_stays n (by rw [hqn, hcl]), ?_⟩
              intro d hd
              have hdn : d ≠ n := fun hh => hnrest (hh ▸ hdescn d hd)
              apply hsch.closed_stays
              rw [hqd d hdn (by rw [hcl]; decide) hd, hcl]
              unfold painted
              split <;> rfl
            | cons c pre =>
              simp only [List.cons_append, List.cons.injEq] at ht
              obtain ⟨hc, ht⟩ := ht
              subst hc
              have hcl' : poll_next ((h ++ [n]) ++ pre) a = poll.closed := by
                simpa using hcl
              exact hsch.closed_below pre a post ht hcl'
          producers_ready := by
            intro u v huv hu hv
            have hvt : v ∈ t := by
              rcases List.mem_cons.mp hv with hh | hh
              · exfalso
                subst hh
                rcases List.mem_cons.mp hu with hu | hu
                · subst hu
                  exact hnrest (hord.1 u huv)
                · exact hnrest (hdescr u hu v (Relation.TransGen.single huv))
              · exact hh
            rcases List.mem_cons.mp hu with hu | hu
            · subst hu
              by_cases hr : poll_next h u = poll.ready
              · exact ⟨[], t, rfl, hvt, by simpa using hr⟩
              · exfalso
                exact (hsch.blocked_stays v
                  (hbelow hr v (Relation.TransGen.single huv))).2 hvt
            · obtain ⟨pre, post, ht, hvp, hr⟩ := hsch.producers_ready u v huv hu hvt
              refine ⟨n :: pre, post, by rw [ht]; simp, hvp, ?_⟩
              simpa using hr
          roots_polled := by
            intro x hx hroot hnb
            rcases List.mem_cons.mp hx with hx | hx
            · subst hx
              exact List.mem_cons_self _ _
            · have hxn : x ≠ n := fun hh => hnrest (hh ▸ hx)
              have hc : ¬ (poll_next h n ≠ poll.ready ∧
                  Relation.TransGen (succ_rel (map_find G)) n x) := by
                rintro ⟨_, htr⟩
                obtain ⟨u, _, hux⟩ := Relation.TransGen.tail'_iff.mp htr
                exact hroot u hux
              have hnbq : ¬ blocked q x := by
                unfold blocked at hnb ⊢
                rw [hqo x hxn hc]
                exact hnb
              exact List.mem_cons_of_mem _ (hsch.roots_polled x hx hroot hnbq) }

end pipeline
end ppl

namespace ppl
namespace pipeline

open internal

/-! ## Member `step` -/

theorem succ_rel_eq_edge (s : pipeline) : succ_rel (map_find s.nodes_to_) = edge s := by
  funext a b
  exact propext (succ_rel_forwards s a b)

theorem not_blocked_nil (x : Int) : ¬ blocked [] x := by
  unfold blocked
  simp [map_find]

theorem all_sinks_closed_iff (p : std_map poll) (N : std_map node) :
    all_sinks_closed p N = true ↔
      ∀ v n, (v, n) ∈ N → n.is_sink = true → map_find p v = some poll.closed := by
  induction N with
  | nil => simp [all_sinks_closed]
  | cons nd N ih =>
    obtain ⟨a, b⟩ := nd
    rw [all_sinks_closed]
    by_cases hs : b.is_sink = true
    · by_cases hc : map_find p a = some poll.closed
      · have hcon := contains_of_find p a _ hc
        simp only [hs, hcon, hc, decide_True, Bool.and_self, Bool.not_true, Bool.and_false,
          Bool.false_eq_true, ↓reduceIte, ih, List.mem_cons, Prod.mk.injEq]
        constructor
        · rintro h v n (⟨rfl, rfl⟩ | hmem) hsn
          · exact hc
          · exact h v n hmem hsn
        · intro h v n hmem hsn
          exact h v n (Or.inr hmem) hsn
      · simp only [hs, hc, decide_False, Bool.and_false, Bool.not_false, Bool.and_self,
          ↓reduceIte, Bool.false_eq_true, List.mem_cons, Prod.mk.injEq, false_iff]
        intro h
        exact hc (h a b (Or.inl ⟨rfl, rfl⟩) hs)
    · simp only [hs, Bool.false_and, Bool.false_eq_true, ↓reduceIte, ih, List.mem_cons,
        Prod.mk.injEq]
      constructor
      · rintro h v n (⟨rfl, rfl⟩ | hmem) hsn
        · exact absurd hsn hs
        · exact h v n hmem hsn
      · intro h v n hmem hsn
        exact h v n (Or.inr hmem) hsn

/-- What a returning `step` is made of. -/
theorem step_ok (fuel : Nat) (poll_next : List Int → Int → poll) (h : List Int)
    (s : pipeline) (r : step_outcome) (hs : step fuel poll_next h s = .ok r) :
    ∃ stack p, topological_sort fuel s.nodes_ s.nodes_to_ = .ok stack ∧
      step_loop fuel poll_next s.nodes_ s.nodes_to_ stack [] h = .ok (p, r.history) ∧
      r.state = { s with node_polls_ := p } ∧
      r.returned = all_sinks_closed p s.nodes_ := by
  unfold step at hs
  split at hs
  · cases hs
  · rename_i stack hst
    split at hs
    · cases hs
    · rename_i p h1 hl
      cases hs
      exact ⟨stack, p, hst, hl, rfl, rfl⟩

/-- On a consistent acyclic pipeline `step` returns when the fuel is at least
the number of nodes; its loop runs over a topological order of the live
nodes. -/
theorem step_spec (s : pipeline) (hw : WF s) (hac : acyclic s) (fuel : Nat)
    (hfuel : s.nodes_.length ≤ fuel) (poll_next : List Int → Int → poll) (h : List Int) :
    ∃ stack p t, stack.Nodup ∧ (∀ x, x ∈ stack ↔ live s x) ∧
      step fuel poll_next h s = .ok { returned := all_sinks_closed p s.nodes_
                                      state := { s with node_polls_ := p }
                                      history := h ++ t } ∧
      scheduled poll_next (edge s) stack [] h p t := by
  obtain ⟨stack, hts, hnd, hmem, hord⟩ := topological_sort_spec s hw fuel hfuel
  have hlen : stack.length ≤ fuel := by
    have hsub : stack ⊆ map_keys s.nodes_ := by
      intro x hx
      exact (map_contains_iff_mem_keys _ _).1 ((hmem x).1 hx)
    have := (List.subperm_of_subset hnd hsub).length_le
    unfold map_keys at this
    simp only [List.length_map] at this
    omega
  have hN : ∀ x ∈ stack, ∃ nd, map_find s.nodes_ x = some nd :=
    fun x hx => find_of_contains _ _ ((hmem x).1 hx)
  have hG : ∀ x ∈ stack, ∃ tos, map_find s.nodes_to_ x = some tos := by
    intro x hx
    apply find_of_contains
    rw [hw.keys_to]
    exact (hmem x).1 hx
  have hord' : topologically_ordered (succ_rel (map_find s.nodes_to_)) stack := by
    rw [succ_rel_eq_edge]
    exact hord hac
  obtain ⟨p, t, hl, hsch⟩ := step_loop_spec fuel poll_next s.nodes_ s.nodes_to_ stack [] h
    hord' hnd hN hG hlen (fun x hx => absurd hx (not_blocked_nil x))
  rw [succ_rel_eq_edge] at hsch
  refine ⟨stack, p, t, hnd, hmem, ?_, hsch⟩
  simp only [step, hts, hl]

theorem acyclic_of_has_cycle (s : pipeline) (hw : WF s) (fuel : Nat)
    (hfuel : s.nodes_.length < fuel)
    (h : has_cycle fuel s.nodes_ s.nodes_to_ = .ok false) : acyclic s := by
  obtain ⟨b, hb, hiff⟩ := has_cycle_spec s hw fuel hfuel
  rw [h] at hb
  cases hb
  intro v hv
  have := hiff.2 ⟨v, hv⟩
  cases this

theorem acyclic_chain : acyclic examples.chain :=
  acyclic_of_has_cycle _ reachable_chain.wf 4 (by decide) (by decide)

theorem acyclic_single_sink : acyclic examples.single_sink :=
  acyclic_of_has_cycle _ reachable_single_sink.wf 5 (by decide) (by decide)

end pipeline
end ppl

namespace ppl
namespace pipeline

open internal

/-! ## Claims on `is_valid` of an empty pipeline and on `step` -/

/-- C11: on a pipeline with no live node `is_valid()` returns false, whatever the
fuel, although the connectivity check on the same tables is undefined (it reads
the first element of the empty node map): `is_valid` leaves before evaluating
it. -/
theorem is_valid_empty (s : pipeline) (h : ∀ v, ¬ live s v) (fuel : Nat) :
    is_valid fuel s = .ok false ∧
    internal.is_connected fuel s.nodes_ s.nodes_to_ s.nodes_from_ =
      .error .undefined_behaviour := by
  have hn : s.nodes_ = [] := by
    cases hnodes : s.nodes_ with
    | nil => rfl
    | cons nd rest =>
      exfalso
      apply h nd.1
      rw [live_iff_mem_nodes]
      exact ⟨nd, by rw [hnodes]; exact List.mem_cons_self _ _, rfl⟩
  constructor
  · unfold is_valid
    rw [hn]
    rfl
  · unfold internal.is_connected
    rw [hn]

/-- C11, on the pipeline in which the only node created was erased again. -/
theorem is_valid_empty_witness :
    (∀ v, ¬ live (erase_node 1 (create_node (examples.simplest_source examples.typeid_int)
      init).1).state v) ∧
    is_valid 0 (erase_node 1 (create_node (examples.simplest_source examples.typeid_int)
      init).1).state = .ok false ∧
    internal.is_connected 0
      (erase_node 1 (create_node (examples.simplest_source examples.typeid_int)
        init).1).state.nodes_
      (erase_node 1 (create_node (examples.simplest_source examples.typeid_int)
        init).1).state.nodes_to_
      (erase_node 1 (create_node (examples.simplest_source examples.typeid_int)
        init).1).state.nodes_from_ = .error .undefined_behaviour :=
  have h : ∀ v, ¬ live (erase_node 1 (create_node
      (examples.simplest_source examples.typeid_int) init).1).state v := by
    intro v hv
    rw [live_iff_mem_nodes] at hv
    obtain ⟨nd, hnd, _⟩ := hv
    have hnil : (erase_node 1 (create_node (examples.simplest_source examples.typeid_int)
        init).1).state.nodes_ = [] := by decide
    rw [hnil] at hnd
    cases hnd
  ⟨h, is_valid_empty _ h 0⟩

/-- C12: a call of `step()` that returns, returns true exactly when every sink of
the node map is recorded closed in the poll states the call leaves behind; with
no sink it returns true. -/
theorem step_returns_iff (fuel : Nat) (poll_next : List Int → Int → poll) (h : List Int)
    (s : pipeline) (r : step_outcome) (hs : step fuel poll_next h s = .ok r) :
    (r.returned = true ↔
      ∀ v n, (v, n) ∈ s.nodes_ → n.is_sink = true →
        map_find r.state.node_polls_ v = some poll.closed) ∧
    ((∀ v n, (v, n) ∈ s.nodes_ → n.is_sink = false) → r.returned = true) := by
  obtain ⟨stack, p, _, _, hst, hret⟩ := step_ok fuel poll_next h s r hs
  have hiff : r.returned = true ↔
      ∀ v n, (v, n) ∈ s.nodes_ → n.is_sink = true →
        map_find r.state.node_polls_ v = some poll.closed := by
    rw [hret, hst]
    exact all_sinks_closed_iff p s.nodes_
  refine ⟨hiff, ?_⟩
  intro hno
  rw [hiff]
  intro v n hmem hsink
  rw [hno v n hmem] at hsink
  cases hsink

/-- C12, on the tick of `chain` in which the component returns closed: the call
returns true and the sink (id 3) is recorded closed. -/
theorem step_returns_iff_witness :
    step 4 (sequence_oracle examples.closing_component) [] examples.chain =
      .ok examples.closing_tick ∧
    examples.closing_tick.returned = true ∧
    ∀ v n, (v, n) ∈ examples.chain.nodes_ → n.is_sink = true →
      map_find examples.closing_tick.state.node_polls_ v = some poll.closed :=
  have hs : step 4 (sequence_oracle examples.closing_component) [] examples.chain =
      .ok examples.closing_tick := by decide
  ⟨hs, by decide,
    (step_returns_iff 4 (sequence_oracle examples.closing_component) [] examples.chain
      examples.closing_tick hs).1.1 (by decide)⟩

/-- C13: on an acyclic reachable pipeline `step()` returns, and when a node it
polled returned empty or closed, no node reachable from that node along one or
more outgoing edges is polled in that call. -/
theorem step_skips_below_not_ready (s : pipeline) (hs : Reachable s) (hac : acyclic s)
    (fuel : Nat) (hfuel : s.nodes_.length < fuel) (poll_next : List Int → Int → poll)
    (h : List Int) :
    ∃ r t, step fuel poll_next h s = .ok r ∧ r.history = h ++ t ∧
      ∀ pre a post d, t = pre ++ a :: post →
        (poll_next (h ++ pre) a = poll.empty ∨ poll_next (h ++ pre) a = poll.closed) →
        Relation.TransGen (edge s) a d → d ∉ t := by
  obtain ⟨stack, p, t, _, _, hstep, hsch⟩ :=
    step_spec s hs.wf hac fuel (Nat.le_of_lt hfuel) poll_next h
  refine ⟨_, t, hstep, rfl, ?_⟩
  intro pre a post d ht hres hd
  have hne : poll_next (h ++ pre) a ≠ poll.ready := by
    rcases hres with hres | hres <;> rw [hres] <;> decide
  exact (hsch.skip_below pre a post ht hne d hd).1

/-- C13, on `single_sink` with the nodes of the test after three ticks: the
string source (id 2) is polled first and returns closed, and the component
(id 3) and the sink (id 4) are not polled. -/
theorem step_skips_below_not_ready_witness :
    Reachable examples.single_sink ∧ acyclic examples.single_sink ∧
    ∃ r t, step 5 (sequence_oracle examples.single_sink_behaviour)
        [2, 1, 3, 4, 2, 1, 3, 4, 2, 1, 3, 4] examples.single_sink = .ok r ∧
      r.history = [2, 1, 3, 4, 2, 1, 3, 4, 2, 1, 3, 4] ++ t ∧
      (∀ post, t = 2 :: post → 3 ∉ t ∧ 4 ∉ t) := by
  refine ⟨reachable_single_sink, acyclic_single_sink, ?_⟩
  obtain ⟨r, t, hr, ht, hskip⟩ := step_skips_below_not_ready examples.single_sink
    reachable_single_sink acyclic_single_sink 5 (by decide)
    (sequence_oracle examples.single_sink_behaviour) [2, 1, 3, 4, 2, 1, 3, 4, 2, 1, 3, 4]
  refine ⟨r, t, hr, ht, ?_⟩
  intro post hpost
  have h23 : Relation.TransGen (edge examples.single_sink) 2 3 :=
    Relation.TransGen.single (by decide)
  have h34 : edge examples.single_sink 3 4 := by decide
  exact ⟨hskip [] 2 post 3 hpost (Or.inr (by decide)) h23,
    hskip [] 2 post 4 hpost (Or.inr (by decide)) (Relation.TransGen.tail h23 h34)⟩

/-- C14: in a call of `step()` on a reachable pipeline that returns, the nodes
polled are live and no node is polled twice. -/
theorem step_polls_at_most_once (s : pipeline) (hs : Reachable s) (fuel : Nat)
    (hfuel : s.nodes_.length < fuel) (poll_next : List Int → Int → poll) (h : List Int)
    (r : step_outcome) (hr : step fuel poll_next h s = .ok r) :
    ∃ t, r.history = h ++ t ∧ t.Nodup ∧ ∀ x ∈ t, live s x := by
  obtain ⟨stack, p, hts, hl, _, _⟩ := step_ok fuel poll_next h s r hr
  obtain ⟨stack1, hts1, hnd, hmem, _⟩ := topological_sort_spec s hs.wf fuel (Nat.le_of_lt hfuel)
  rw [hts] at hts1
  cases hts1
  obtain ⟨t, ht, hsub⟩ := step_loop_sublist fuel poll_next s.nodes_ s.nodes_to_ stack [] h p
    r.history hl
  exact ⟨t, ht, hnd.sublist hsub, fun x hx => (hmem x).1 (hsub.subset hx)⟩

/-- C14, on the first tick of `single_sink` with the nodes of the test: the four
nodes are polled once each. -/
theorem step_polls_at_most_once_witness :
    Reachable examples.single_sink ∧
    step 5 (sequence_oracle examples.single_sink_behaviour) [] examples.single_sink =
      .ok examples.single_sink_tick ∧
    ∃ t, examples.single_sink_tick.history = [] ++ t ∧ t.Nodup ∧
      ∀ x ∈ t, live examples.single_sink x :=
  have hr : step 5 (sequence_oracle examples.single_sink_behaviour) [] examples.single_sink =
      .ok examples.single_sink_tick := by decide
  ⟨reachable_single_sink, hr,
    step_polls_at_most_once examples.single_sink reachable_single_sink 5 (by decide)
      (sequence_oracle examples.single_sink_behaviour) [] examples.single_sink_tick hr⟩

/-- C15: on an acyclic reachable pipeline `step()` returns, and when it polls a
node, every producer filling a slot of that node was polled earlier in the same
call and returned ready. -/
theorem step_polls_after_producers (s : pipeline) (hs : Reachable s) (hac : acyclic s)
    (fuel : Nat) (hfuel : s.nodes_.length < fuel) (poll_next : List Int → Int → poll)
    (h : List Int) :
    ∃ r t, step fuel poll_next h s = .ok r ∧ r.history = h ++ t ∧
      ∀ u v k, v ∈ t → incoming s v k = some u →
        ∃ pre post, t = pre ++ u :: post ∧ v ∈ post ∧ poll_next (h ++ pre) u = poll.ready := by
  have hw := hs.wf
  obtain ⟨stack, p, t, _, hmem, hstep, hsch⟩ :=
    step_spec s hw hac fuel (Nat.le_of_lt hfuel) poll_next h
  refine ⟨_, t, hstep, rfl, ?_⟩
  intro u v k hv hin
  have huv : edge s u v := (hw.recip u v).2 ⟨k, hin⟩
  have hu : live s u := by
    unfold live
    rw [← hw.keys_to]
    unfold edge outgoing at huv
    cases hf : map_find s.nodes_to_ u with
    | none => simp [hf] at huv
    | some tos => exact contains_of_find _ _ _ hf
  exact hsch.producers_ready u v huv ((hmem u).2 hu) hv

/-- C15, on `chain` with a source and nodes that return ready: the sink (id 3) is
polled, and its producer, the component (id 2), was polled before it. -/
theorem step_polls_after_producers_witness :
    Reachable examples.chain ∧ acyclic examples.chain ∧
    ∃ r t, step 4 (sequence_oracle examples.chain_behaviour) [] examples.chain = .ok r ∧
      r.history = [] ++ t ∧
      (3 ∈ t → ∃ pre post, t = pre ++ 2 :: post ∧ 3 ∈ post ∧
        sequence_oracle examples.chain_behaviour ([] ++ pre) 2 = poll.ready) := by
  refine ⟨reachable_chain, acyclic_chain, ?_⟩
  obtain ⟨r, t, hr, ht, hprod⟩ := step_polls_after_producers examples.chain
    reachable_chain acyclic_chain 4 (by decide) (sequence_oracle examples.chain_behaviour) []
  exact ⟨r, t, hr, ht, fun h3 => hprod 2 3 0 h3 (by decide)⟩

/-- C16: `update_poll` leaves a closed poll state closed whatever it propagates,
and propagating closed overwrites empty; and on an acyclic reachable pipeline
`step()` returns with a node that returned closed, and every node reachable from
it, recorded closed at the end of the call, whatever else was polled before or
after. -/
theorem closed_is_sticky (s : pipeline) (hs : Reachable s) (hac : acyclic s)
    (fuel : Nat) (hfuel : s.nodes_.length < fuel) (poll_next : List Int → Int → poll)
    (h : List Int) :
    (∀ (p : std_map poll) (x : Int) (status : poll), map_find p x = some poll.closed →
      map_find (internal.paint p x status) x = some poll.closed) ∧
    (∀ (p : std_map poll) (x : Int), map_find p x = some poll.empty →
      map_find (internal.paint p x poll.closed) x = some poll.closed) ∧
    ∃ r t, step fuel poll_next h s = .ok r ∧ r.history = h ++ t ∧
      ∀ pre a post, t = pre ++ a :: post → poll_next (h ++ pre) a = poll.closed →
        map_find r.state.node_polls_ a = some poll.closed ∧
        ∀ d, Relation.TransGen (edge s) a d →
          map_find r.state.node_polls_ d = some poll.closed := by
  refine ⟨?_, ?_, ?_⟩
  · intro p x status hx
    rw [map_find_paint, if_pos rfl, hx, painted_closed]
  · intro p x hx
    rw [map_find_paint, if_pos rfl, hx]
    rfl
  · obtain ⟨stack, p, t, _, _, hstep, hsch⟩ :=
      step_spec s hs.wf hac fuel (Nat.le_of_lt hfuel) poll_next h
    exact ⟨_, t, hstep, rfl, fun pre a post ht hcl => hsch.closed_below pre a post ht hcl⟩

/-- C16, on `single_sink` with the nodes of the test after three ticks: the
string source (id 2) returns closed, the `int` source (id 1) polled after it
returns ready, and the component (id 3) and the sink (id 4) end the call
closed. -/
theorem closed_is_sticky_witness :
    Reachable examples.single_sink ∧ acyclic examples.single_sink ∧
    ∃ r t, step 5 (sequence_oracle examples.single_sink_behaviour)
        [2, 1, 3, 4, 2, 1, 3, 4, 2, 1, 3, 4] examples.single_sink = .ok r ∧
      r.history = [2, 1, 3, 4, 2, 1, 3, 4, 2, 1, 3, 4] ++ t ∧
      (∀ post, t = 2 :: post →
        map_find r.state.node_polls_ 3 = some poll.closed ∧
        map_find r.state.node_polls_ 4 = some poll.closed) := by
  refine ⟨reachable_single_sink, acyclic_single_sink, ?_⟩
  obtain ⟨_, _, r, t, hr, ht, hcl⟩ := closed_is_sticky examples.single_sink
    reachable_single_sink acyclic_single_sink 5 (by decide)
    (sequence_oracle examples.single_sink_behaviour) [2, 1, 3, 4, 2, 1, 3, 4, 2, 1, 3, 4]
  refine ⟨r, t, hr, ht, ?_⟩
  intro post hpost
  have h23 : Relation.TransGen (edge examples.single_sink) 2 3 :=
    Relation.TransGen.single (by decide)
  have h34 : edge examples.single_sink 3 4 := by decide
  have := (hcl [] 2 post hpost (by decide)).2
  exact ⟨this 3 h23, this 4 (Relation.TransGen.tail h23 h34)⟩

/-- C17: after any number of returning calls of `step()` the node map (live ids
and their type information), the id counter and the two adjacency tables are
those before the calls, and `is_valid()` gives what it gave before. -/
theorem step_preserves_graph (s s1 : pipeline) (h : Relation.ReflTransGen steps_to s s1) :
    s1.nodes_ = s.nodes_ ∧ s1.latest_id_ = s.latest_id_ ∧
    s1.nodes_to_ = s.nodes_to_ ∧ s1.nodes_from_ = s.nodes_from_ ∧
    ∀ fuel, is_valid fuel s1 = is_valid fuel s := by
  induction h with
  | refl => exact ⟨rfl, rfl, rfl, rfl, fun _ => rfl⟩
  | tail _ hstep ih =>
    obtain ⟨fuel, poll_next, history, r, hr, hst⟩ := hstep
    obtain ⟨_, p, _, _, hstate, _⟩ := step_ok fuel poll_next history _ r hr
    obtain ⟨h1, h2, h3, h4, h5⟩ := ih
    rw [← hst, hstate]
    refine ⟨h1, h2, h3, h4, ?_⟩
    intro f
    rw [← h5 f]
    rfl

/-- C17, on `chain`, valid before the tick in which the component returns
closed and valid after it. -/
theorem step_preserves_graph_witness :
    Relation.ReflTransGen steps_to examples.chain examples.closing_tick.state ∧
    is_valid 4 examples.chain = .ok true ∧
    is_valid 4 examples.closing_tick.state = .ok true :=
  have hsteps : Relation.ReflTransGen steps_to examples.chain examples.closing_tick.state :=
    Relation.ReflTransGen.single
      ⟨4, sequence_oracle examples.closing_component, [], examples.closing_tick,
        by decide, rfl⟩
  have hv : is_valid 4 examples.chain = .ok true := by decide
  ⟨hsteps, hv, by
    rw [(step_preserves_graph examples.chain examples.closing_tick.state hsteps).2.2.2.2 4]
    exact hv⟩

/-- C20: in a reachable state, for all ids `u` and `v`, live or not, some slot
of `v` is filled by `u` exactly when `v` is in the outgoing set of `u`. -/
theorem incoming_iff_outgoing (s : pipeline) (hs : Reachable s) (u v : Int) :
    (∃ k, incoming s v k = some u) ↔ v ∈ outgoing s u :=
  (hs.wf.recip u v).symm

/-- C20, on `same_source`, where the source (id 1) fills the slots 0 and 1 of the
component (id 2). -/
theorem incoming_iff_outgoing_witness :
    Reachable examples.same_source ∧ live examples.same_source 1 ∧
    live examples.same_source 2 ∧
    ((∃ k, incoming examples.same_source 2 k = some 1) ↔ 2 ∈ outgoing examples.same_source 1) ∧
    2 ∈ outgoing examples.same_source 1 :=
  ⟨reachable_same_source, by decide, by decide,
    incoming_iff_outgoing examples.same_source reachable_same_source 1 2, by decide⟩

end pipeline
end ppl

namespace ppl
namespace pipeline

open internal

/-! ## Member `run` -/

theorem no_edge_into_source (s : pipeline) (hw : WF s) (hout : ends_outermost s)
    (x : Int) (nx : node) (hx : (x, nx) ∈ s.nodes_) (hsrc : nx.is_source = true) :
    ∀ u, ¬ edge s u x := by
  intro u hux
  obtain ⟨k, hk⟩ := (hw.recip u x).1 hux
  have := (hout (x, nx) hx).1 hsrc
  simp [incoming, this, map_find] at hk

theorem no_edge_from_sink (s : pipeline) (hout : ends_outermost s)
    (x : Int) (nx : node) (hx : (x, nx) ∈ s.nodes_) (hsink : nx.is_sink = true) :
    ∀ y, ¬ edge s x y := by
  intro y hxy
  have := (hout (x, nx) hx).2 hsink
  simp [edge, outgoing, this] at hxy

/-- In a root-connected pipeline whose sources take no input and whose sinks
feed nothing, every sink is a source or lies below every source. -/
theorem sinks_below_source (s : pipeline) (hw : WF s) (hout : ends_outermost s)
    (hrc : root_connected s) (x : Int) (nx : node) (hx : (x, nx) ∈ s.nodes_)
    (hsrc : nx.is_source = true) (k : Int) (nk : node) (hk : (k, nk) ∈ s.nodes_)
    (hsink : nk.is_sink = true) :
    k = x ∨ Relation.TransGen (edge s) x k := by
  obtain ⟨first, rest, hnodes⟩ : ∃ first rest, s.nodes_ = first :: rest := by
    cases hn : s.nodes_ with
    | nil => rw [hn] at hx; cases hx
    | cons a l => exact ⟨a, l, rfl⟩
  have hroot := (root_connected_iff s hw first rest hnodes).1 hrc
  have hxl : live s x := (live_iff_mem_nodes s x).2 ⟨_, hx, rfl⟩
  have hkl : live s k := (live_iff_mem_nodes s k).2 ⟨_, hk, rfl⟩
  have hxr : Relation.ReflTransGen (edge s) x first.1 := by
    rcases hroot x hxl with h | h
    · rcases Relation.ReflTransGen.cases_tail h with h1 | ⟨b, _, hbx⟩
      · rw [h1]
      · exact absurd hbx (no_edge_into_source s hw hout x nx hx hsrc b)
    · exact h
  have hrk : Relation.ReflTransGen (edge s) first.1 k := by
    rcases hroot k hkl with h | h
    · exact h
    · rcases Relation.ReflTransGen.cases_head h with h1 | ⟨b, hkb, _⟩
      · rw [h1]
      · exact absurd hkb (no_edge_from_sink s hout k nk hk hsink b)
  rcases Relation.reflTransGen_iff_eq_or_transGen.1 (hxr.trans hrk) with h | h
  · exact Or.inl h
  · exact Or.inr h

/-- A call of `step` on a consistent acyclic pipeline polls a node without
producer once; when the node returns closed it and every node below it end the
call closed. -/
theorem step_polls_root (s : pipeline) (hw : WF s) (hac : acyclic s) (fuel : Nat)
    (hfuel : s.nodes_.length ≤ fuel) (behaviour : Int → Nat → poll) (h : List Int)
    (x : Int) (hlive : live s x) (hroot : ∀ u, ¬ edge s u x) :
    ∃ p t, step fuel (sequence_oracle behaviour) h s =
        .ok { returned := all_sinks_closed p s.nodes_
              state := { s with node_polls_ := p }
              history := h ++ t } ∧
      (h ++ t).count x = h.count x + 1 ∧
      (behaviour x (h.count x) = poll.closed →
        map_find p x = some poll.closed ∧
        ∀ d, Relation.TransGen (edge s) x d → map_find p d = some poll.closed) := by
  obtain ⟨stack, p, t, hnd, hmem, hstep, hsch⟩ :=
    step_spec s hw hac fuel hfuel (sequence_oracle behaviour) h
  have hxt : x ∈ t := hsch.roots_polled x ((hmem x).2 hlive) hroot (not_blocked_nil x)
  have htnd : t.Nodup := hnd.sublist hsch.sublist
  refine ⟨p, t, hstep, ?_, ?_⟩
  · rw [List.count_append, List.count_eq_one_of_mem htnd hxt]
  · intro hcl
    obtain ⟨pre, post, ht⟩ := List.append_of_mem hxt
    have hpre : x ∉ pre := by
      intro hmem1
      rw [ht] at htnd
      have := List.disjoint_of_nodup_append htnd
      exact this hmem1 (List.mem_cons_self _ _)
    apply hsch.closed_below pre x post ht
    unfold sequence_oracle
    rw [List.count_append, List.count_eq_zero_of_not_mem hpre, Nat.add_zero]
    exact hcl

/-- With a source whose sequence of poll results has closed at most `d` calls
ahead, `run` returns after at most `d + 1` ticks. -/
theorem run_returns (fuel : Nat) (behaviour : Int → Nat → poll) (x : Int) :
    ∀ (d : Nat) (s : pipeline) (h : List Int), WF s → acyclic s → s.nodes_.length ≤ fuel →
      live s x → (∀ u, ¬ edge s u x) →
      (∀ k nk, (k, nk) ∈ s.nodes_ → nk.is_sink = true →
        k = x ∨ Relation.TransGen (edge s) x k) →
      (∃ k, h.count x ≤ k ∧ k ≤ h.count x + d ∧ behaviour x k = poll.closed) →
      ∃ ticks r, run ticks fuel (sequence_oracle behaviour) h s = .ok r ∧
        r.returned = true := by
  intro d
  induction d with
  | zero =>
    intro s h hw hac hfuel hlive hroot hsinks ⟨k, hk1, hk2, hk⟩
    have hkeq : k = h.count x := by omega
    subst hkeq
    obtain ⟨p, t, hstep, _, hcl⟩ :=
      step_polls_root s hw hac fuel hfuel behaviour h x hlive hroot
    obtain ⟨hx, hbelow⟩ := hcl hk
    have hret : all_sinks_closed p s.nodes_ = true := by
      rw [all_sinks_closed_iff]
      intro v n hv hs
      rcases hsinks v n hv hs with h1 | h1
      · rw [h1]; exact hx
      · exact hbelow v h1
    refine ⟨1, { returned := all_sinks_closed p s.nodes_
                 state := { s with node_polls_ := p }
                 history := h ++ t }, ?_, hret⟩
    simp only [run, hstep, hret, if_true]
  | succ d ih =>
    intro s h hw hac hfuel hlive hroot hsinks ⟨k, hk1, hk2, hk⟩
    obtain ⟨p, t, hstep, hcount, hcl⟩ :=
      step_polls_root s hw hac fuel hfuel behaviour h x hlive hroot
    by_cases hret : all_sinks_closed p s.nodes_ = true
    · refine ⟨1, { returned := all_sinks_closed p s.nodes_
                   state := { s with node_polls_ := p }
                   history := h ++ t }, ?_, hret⟩
      simp only [run, hstep, hret, if_true]
    · have hne : k ≠ h.count x := by
        intro hkeq
        subst hkeq
        obtain ⟨hx, hbelow⟩ := hcl hk
        apply hret
        rw [all_sinks_closed_iff]
        intro v n hv hs
        rcases hsinks v n hv hs with h1 | h1
        · rw [h1]; exact hx
        · exact hbelow v h1
      obtain ⟨ticks, r, hrun, hr⟩ := ih { s with node_polls_ := p } (h ++ t)
        (WF_polls s hw p) hac hfuel hlive hroot hsinks
        ⟨k, by omega, by omega, hk⟩
      refine ⟨ticks + 1, r, ?_, hr⟩
      simp only [run, hstep, hret]
      exact hrun

end pipeline
end ppl

namespace ppl
namespace pipeline

open internal

/-! ## Claim on the termination of `run` -/

/-- C18, as stated, fails: `chain` is valid, and when its component returns
closed `run()` terminates at the first tick although the source never returns
closed. -/
theorem run_terminates_with_open_source :
    Reachable examples.chain ∧ is_valid 4 examples.chain = .ok true ∧
    run_terminates 4 (sequence_oracle examples.closing_component) [] examples.chain ∧
    ¬ sources_close examples.closing_component [] examples.chain := by
  refine ⟨reachable_chain, by decide, ⟨1, examples.closing_tick, by decide⟩, ?_⟩
  intro h
  obtain ⟨k, _, hk⟩ := h 1
    { input_types_ := [], output_type_ := 1, is_source := true, is_sink := false }
    (by decide) rfl
  simp [examples.closing_component] at hk

/-- C18, amended: on a valid reachable pipeline in which no slot of a source is
filled and no sink feeds a node, with every node a sequence of poll results,
`run()` terminates when every source eventually returns closed. -/
theorem run_terminates_if_sources_close (s : pipeline) (hs : Reachable s) (fuel : Nat)
    (hfuel : s.nodes_.length < fuel) (hv : is_valid fuel s = .ok true)
    (hout : ends_outermost s) (behaviour : Int → Nat → poll) (h : List Int)
    (hc : sources_close behaviour h s) :
    run_terminates fuel (sequence_oracle behaviour) h s := by
  have hw := hs.wf
  obtain ⟨b, hb, hiff⟩ := is_valid_spec s hw fuel hfuel
  rw [hv] at hb
  cases hb
  obtain ⟨_, _, ⟨x, nx, hx, hsrc⟩, _, hrc, hac⟩ := hiff.1 rfl
  obtain ⟨k, hk1, hk⟩ := hc x nx hx hsrc
  have hxm : (x, nx) ∈ s.nodes_ := mem_of_map_find _ _ _ hx
  obtain ⟨ticks, r, hrun, _⟩ := run_returns fuel behaviour x (k - h.count x) s h hw hac
    (Nat.le_of_lt hfuel) ((live_iff_mem_nodes s x).2 ⟨_, hxm, rfl⟩)
    (no_edge_into_source s hw hout x nx hxm hsrc)
    (fun v nv hvm hsink => sinks_below_source s hw hout hrc x nx hxm hsrc v nv hvm hsink)
    ⟨k, hk1, by omega, hk⟩
  exact ⟨ticks, r, hrun⟩

/-- C18, amended, on `chain` with the `int_source(0)` of the test suite, which
returns closed at its fifth call. -/
theorem run_terminates_if_sources_close_witness :
    Reachable examples.chain ∧ is_valid 4 examples.chain = .ok true ∧
    ends_outermost examples.chain ∧
    sources_close examples.chain_behaviour [] examples.chain ∧
    run_terminates 4 (sequence_oracle examples.chain_behaviour) [] examples.chain :=
  have hc : sources_close examples.chain_behaviour [] examples.chain := by
    intro v n hf hsrc
    have hm := mem_of_map_find _ _ _ hf
    have hn : examples.chain.nodes_ =
        [(1, { input_types_ := [], output_type_ := 1, is_source := true, is_sink := false }),
         (2, { input_types_ := [1], output_type_ := 1, is_source := false, is_sink := false }),
         (3, { input_types_ := [1], output_type_ := 0, is_source := false, is_sink := true })] := by
      decide
    rw [hn] at hm
    simp only [List.mem_cons, Prod.mk.injEq, List.mem_nil_iff, or_false] at hm
    rcases hm with ⟨rfl, _⟩ | ⟨_, rfl⟩ | ⟨_, rfl⟩
    · exact ⟨4, by simp, by decide⟩
    · cases hsrc
    · cases hsrc
  ⟨reachable_chain, by decide, by decide, hc,
    run_terminates_if_sources_close examples.chain reachable_chain 4 (by decide) (by decide)
      (by decide) examples.chain_behaviour [] hc⟩

end pipeline
end ppl

namespace ppl
namespace pipeline

/-! ## Claim on `connect` followed by `disconnect` -/

theorem set_erase_insert_sorted (t : std_set) (b : Int) :
    set_erase (set_insert_sorted t b) b = set_erase t b := by
  induction t with
  | nil => simp [set_insert_sorted, set_erase]
  | cons x t ih =>
    unfold set_insert_sorted
    split
    · simp [set_erase]
    · unfold set_erase at ih ⊢
      simp only [List.filter_cons, ih]

theorem set_erase_insert (t : std_set) (b : Int) :
    set_erase (set_insert t b) b = set_erase t b := by
  unfold set_insert
  split
  · rfl
  · exact set_erase_insert_sorted t b

theorem clear_producer_insert_sorted (slots : std_map Int) (k a : Int) :
    clear_producer a (map_insert_sorted slots k a) = clear_producer a slots := by
  induction slots with
  | nil => simp [map_insert_sorted, clear_producer]
  | cons x t ih =>
    obtain ⟨k1, v1⟩ := x
    unfold map_insert_sorted
    split
    · simp [clear_producer]
    · unfold clear_producer at ih ⊢
      simp only [List.filter_cons, ih]

theorem clear_producer_emplace (slots : std_map Int) (k a : Int) :
    clear_producer a (map_emplace slots k a) = clear_producer a slots := by
  unfold map_emplace
  split
  · rfl
  · exact clear_producer_insert_sorted slots k a

/-- C19, as stated, fails: after `connect(source, c1, 0)` on the nodes of
"Testing get_dependencies with same sources to one destination", the call
`connect(source, c1, 1)` succeeds and `disconnect(source, c1)` clears both slots,
so neither table is the one just before the second connect. -/
theorem connect_disconnect_not_restored :
    Reachable examples.one_slot ∧
    (connect 1 2 1 examples.one_slot).result = .ok () ∧
    (disconnect 1 2 (connect 1 2 1 examples.one_slot).state).state.nodes_to_ ≠
      examples.one_slot.nodes_to_ ∧
    (disconnect 1 2 (connect 1 2 1 examples.one_slot).state).state.nodes_from_ ≠
      examples.one_slot.nodes_from_ ∧
    incoming examples.one_slot 2 0 = some 1 ∧
    incoming (disconnect 1 2 (connect 1 2 1 examples.one_slot).state).state 2 0 = none :=
  ⟨reachable_connect_int _ _ _ _ reachable_same_source_nodes (by decide) (by decide),
    by decide, by decide, by decide, by decide, by decide⟩

/-- C19, amended: in a reachable state, when `connect(a, b, k)` succeeds,
`disconnect(a, b)` called next succeeds and leaves the outgoing and incoming
tables that `disconnect(a, b)` would have left from the state before the
connect.  They are the tables before the connect when `b` was not in the
outgoing set of `a` then; in any case `b` leaves the outgoing set of `a`, the
slots of `b` filled by `a` are cleared, and every other slot and every other
membership in an outgoing set is as before the connect. -/
theorem connect_disconnect_tables (s : pipeline) (hs : Reachable s) (a b k : Int)
    (hk : k ≤ INT_MAX) (hc : (connect a b k s).result = .ok ()) :
    (disconnect a b (connect a b k s).state).result = .ok () ∧
    (∀ u, map_find (disconnect a b (connect a b k s).state).state.nodes_to_ u =
      map_find (disconnect a b s).state.nodes_to_ u) ∧
    (∀ v, map_find (disconnect a b (connect a b k s).state).state.nodes_from_ v =
      map_find (disconnect a b s).state.nodes_from_ v) ∧
    (b ∉ outgoing s a →
      (∀ u, map_find (disconnect a b (connect a b k s).state).state.nodes_to_ u =
        map_find s.nodes_to_ u) ∧
      (∀ v, map_find (disconnect a b (connect a b k s).state).state.nodes_from_ v =
        map_find s.nodes_from_ v)) ∧
    (∀ u x, x ∈ outgoing (disconnect a b (connect a b k s).state).state u ↔
      x ∈ outgoing s u ∧ ¬ (u = a ∧ x = b)) ∧
    (∀ v j, incoming (disconnect a b (connect a b k s).state).state v j =
      if v = b ∧ incoming s v j = some a then none else incoming s v j) := by
  have hw := hs.wf
  obtain ⟨hst, ⟨slots, hsl, hfree⟩, ⟨tos, hts⟩⟩ := connect_ok_state s a b k hc
  have hla : live s a := by
    unfold live
    rw [← hw.keys_to]
    exact contains_of_find _ _ _ hts
  have hlb : live s b := by
    unfold live
    rw [← hw.keys_from]
    exact contains_of_find _ _ _ hsl
  have hw1 : WF (connect a b k s).state := WF_connect s hw a b k hk
  have hn1 : (connect a b k s).state.nodes_ = s.nodes_ := by rw [hst]
  have hto1 : ∀ u, map_find (connect a b k s).state.nodes_to_ u =
      if u = a then (map_find s.nodes_to_ a).map (fun t => set_insert t b)
      else map_find s.nodes_to_ u := by
    intro u
    rw [hst]
    show map_find (map_modify s.nodes_to_ a (fun t => set_insert t b)) u = _
    rw [map_find_modify]
  have hfrom1 : ∀ v, map_find (connect a b k s).state.nodes_from_ v =
      if v = b then (map_find s.nodes_from_ b).map (fun m => map_emplace m k a)
      else map_find s.nodes_from_ v := by
    intro v
    rw [hst]
    show map_find (map_modify s.nodes_from_ b (fun m => map_emplace m k a)) v = _
    rw [map_find_modify]
  have hla1 : live (connect a b k s).state a := by
    unfold live at hla ⊢
    rw [hn1]
    exact hla
  have hlb1 : live (connect a b k s).state b := by
    unfold live at hlb ⊢
    rw [hn1]
    exact hlb
  obtain ⟨s2, h2eq, _, _, _, hto2, hfrom2, _⟩ :=
    disconnect_spec (connect a b k s).state hw1 a b hla1 hlb1
  obtain ⟨d, hdeq, hnd, hld, _, htod, hfromd, hsame⟩ := disconnect_spec s hw a b hla hlb
  have hA : ∀ u, map_find s2.nodes_to_ u = map_find d.nodes_to_ u := by
    intro u
    rw [hto2 u, htod u, hto1 u]
    by_cases hu : u = a
    · subst hu
      simp only [if_true, hts, Option.map_some', set_erase_insert]
    · simp only [if_neg hu]
  have hB : ∀ v, map_find s2.nodes_from_ v = map_find d.nodes_from_ v := by
    intro v
    rw [hfrom2 v, hfromd v, hfrom1 v]
    by_cases hv : v = b
    · subst hv
      simp only [if_true, hsl, Option.map_some', clear_producer_emplace]
    · simp only [if_neg hv]
  obtain ⟨_, hout, hin⟩ := WF_disconnect_state s d hw a b hnd hld htod hfromd
  rw [h2eq, hdeq]
  refine ⟨rfl, hA, hB, ?_, ?_, ?_⟩
  · intro hnot
    have hds : d = s := hsame hnot
    rw [hds] at hA hB
    exact ⟨hA, hB⟩
  · intro u x
    rw [← hout u x]
    unfold outgoing
    rw [hA u]
  · intro v j
    rw [← hin v j]
    unfold incoming
    rw [hB v]

/-- C19, amended, on the nodes of "Testing get_dependencies with same sources to
one destination": `connect(source, c1, 0)` followed by `disconnect(source, c1)`
gives back the tables of the unconnected nodes. -/
theorem connect_disconnect_tables_witness :
    Reachable examples.same_source_nodes ∧
    (connect 1 2 0 examples.same_source_nodes).result = .ok () ∧
    2 ∉ outgoing examples.same_source_nodes 1 ∧
    (∀ u, map_find (disconnect 1 2 (connect 1 2 0 examples.same_source_nodes).state).state.nodes_to_
        u = map_find examples.same_source_nodes.nodes_to_ u) ∧
    (∀ v, map_find
        (disconnect 1 2 (connect 1 2 0 examples.same_source_nodes).state).state.nodes_from_ v =
      map_find examples.same_source_nodes.nodes_from_ v) :=
  have hnot : 2 ∉ outgoing examples.same_source_nodes 1 := by decide
  ⟨reachable_same_source_nodes, by decide, hnot,
    (connect_disconnect_tables examples.same_source_nodes reachable_same_source_nodes 1 2 0
      (by decide) (by decide)).2.2.2.1 hnot⟩

end pipeline
end ppl

namespace ppl
namespace pipeline

/-! ## Frame of the mutating members; sequences of calls -/

/-- What `connect` leaves untouched in every state, returning or throwing. -/
theorem connect_frame (s : pipeline) (src dst slot : Int) :
    (connect src dst slot s).state.nodes_ = s.nodes_ ∧
    (connect src dst slot s).state.latest_id_ = s.latest_id_ ∧
    map_keys (connect src dst slot s).state.nodes_from_ = map_keys s.nodes_from_ ∧
    map_keys (connect src dst slot s).state.nodes_to_ = map_keys s.nodes_to_ := by
  unfold connect
  dsimp only
  repeat' split
  all_goals simp [map_keys_modify]

/-- What `disconnect` leaves untouched in every state, returning or throwing. -/
theorem disconnect_frame (s : pipeline) (src dst : Int) :
    (disconnect src dst s).state.nodes_ = s.nodes_ ∧
    (disconnect src dst s).state.latest_id_ = s.latest_id_ ∧
    map_keys (disconnect src dst s).state.nodes_from_ = map_keys s.nodes_from_ ∧
    map_keys (disconnect src dst s).state.nodes_to_ = map_keys s.nodes_to_ := by
  unfold disconnect
  dsimp only
  repeat' split
  all_goals simp [map_keys_modify]

theorem disconnect_each_frame (incoming : Bool) (n_id : Int) :
    ∀ (l : List Int) (s : pipeline),
      (disconnect_each incoming n_id l s).state.nodes_ = s.nodes_ ∧
      (disconnect_each incoming n_id l s).state.latest_id_ = s.latest_id_ ∧
      map_keys (disconnect_each incoming n_id l s).state.nodes_from_ = map_keys s.nodes_from_ ∧
      map_keys (disconnect_each incoming n_id l s).state.nodes_to_ = map_keys s.nodes_to_ := by
  intro l
  induction l with
  | nil => intro s; simp [disconnect_each]
  | cons nb rest ih =>
    intro s
    have hd : ∀ s1 : pipeline,
        s1 = (if incoming then disconnect nb n_id s else disconnect n_id nb s).state →
        s1.nodes_ = s.nodes_ ∧ s1.latest_id_ = s.latest_id_ ∧
        map_keys s1.nodes_from_ = map_keys s.nodes_from_ ∧
        map_keys s1.nodes_to_ = map_keys s.nodes_to_ := by
      intro s1 hs1
      rw [hs1]
      cases incoming
      · exact disconnect_frame s n_id nb
      · exact disconnect_frame s nb n_id
    rw [disconnect_each]
    split
    · rename_i e s1 heq
      exact hd s1 (by rw [heq])
    · rename_i u s1 heq
      obtain ⟨h1, h2, h3, h4⟩ := hd s1 (by rw [heq])
      obtain ⟨i1, i2, i3, i4⟩ := ih s1
      exact ⟨i1.trans h1, i2.trans h2, i3.trans h3, i4.trans h4⟩

/-- What `erase_node` does to the id counter and to the keys of the tables, in
every state, returning or throwing. -/
theorem erase_node_frame (s : pipeline) (n_id : Int) :
    (erase_node n_id s).state.latest_id_ = s.latest_id_ ∧
    (map_keys (erase_node n_id s).state.nodes_ = map_keys s.nodes_ ∨
      map_keys (erase_node n_id s).state.nodes_ = map_keys (map_erase s.nodes_ n_id)) ∧
    (∃ m : std_map (std_map Int), map_keys m = map_keys s.nodes_from_ ∧
      ((erase_node n_id s).state.nodes_from_ = m ∨
        (erase_node n_id s).state.nodes_from_ = map_erase m n_id)) ∧
    (∃ m : std_map std_set, map_keys m = map_keys s.nodes_to_ ∧
      ((erase_node n_id s).state.nodes_to_ = m ∨
        (erase_node n_id s).state.nodes_to_ = map_erase m n_id)) := by
  unfold erase_node
  split
  · exact ⟨rfl, Or.inl rfl, ⟨_, rfl, Or.inl rfl⟩, ⟨_, rfl, Or.inl rfl⟩⟩
  split
  · exact ⟨rfl, Or.inl rfl, ⟨_, rfl, Or.inl rfl⟩, ⟨_, rfl, Or.inl rfl⟩⟩
  rename_i slots _
  dsimp only
  have h1 := disconnect_each_frame true n_id (slots.map Prod.snd) s
  split
  · rename_i e s1 heq
    rw [heq] at h1
    exact ⟨h1.2.1, Or.inl (by rw [h1.1]), ⟨_, h1.2.2.1, Or.inl rfl⟩, ⟨_, h1.2.2.2, Or.inl rfl⟩⟩
  rename_i u s1 heq
  rw [heq] at h1
  dsimp only at h1
  split
  · exact ⟨h1.2.1, Or.inl (by rw [h1.1]), ⟨_, h1.2.2.1, Or.inl rfl⟩, ⟨_, h1.2.2.2, Or.inl rfl⟩⟩
  rename_i tos _
  have h2 := disconnect_each_frame false n_id tos s1
  split
  · rename_i e s2 heq2
    rw [heq2] at h2
    dsimp only at h2
    exact ⟨h2.2.1.trans h1.2.1, Or.inl (by rw [h2.1, h1.1]),
      ⟨_, h2.2.2.1.trans h1.2.2.1, Or.inl rfl⟩, ⟨_, h2.2.2.2.trans h1.2.2.2, Or.inl rfl⟩⟩
  rename_i u2 s2 heq2
  rw [heq2] at h2
  dsimp only at h2
  refine ⟨h2.2.1.trans h1.2.1, Or.inr ?_, ⟨s2.nodes_from_, h2.2.2.1.trans h1.2.2.1, Or.inr rfl⟩,
    ⟨s2.nodes_to_, h2.2.2.2.trans h1.2.2.2, Or.inr rfl⟩⟩
  show map_keys (map_erase s2.nodes_ n_id) = _
  rw [h2.1, h1.1]

/-- In every state of a pipeline object the keys of the two adjacency tables
are in ascending order. -/
theorem Reachable.sorted_tables {s : pipeline} (h : Reachable s) :
    (map_keys s.nodes_from_).Pairwise (· < ·) ∧ (map_keys s.nodes_to_).Pairwise (· < ·) := by
  induction h with
  | init => simp [pipeline.init, map_keys]
  | create_node N s _ _ ih =>
    unfold pipeline.create_node
    exact ⟨map_keys_emplace_pairwise _ _ _ ih.1, map_keys_emplace_pairwise _ _ _ ih.2⟩
  | connect src dst slot s _ _ _ ih =>
    obtain ⟨_, _, h3, h4⟩ := connect_frame s src dst slot
    rw [h3, h4]
    exact ih
  | disconnect src dst s _ ih =>
    obtain ⟨_, _, h3, h4⟩ := disconnect_frame s src dst
    rw [h3, h4]
    exact ih
  | erase_node n_id s _ ih =>
    obtain ⟨_, _, ⟨m, hm, hfrom⟩, ⟨m1, hm1, hto⟩⟩ := erase_node_frame s n_id
    constructor
    · rcases hfrom with hf | hf
      · rw [hf, hm]; exact ih.1
      · rw [hf]
        apply map_keys_erase_pairwise
        rw [hm]; exact ih.1
    · rcases hto with hf | hf
      · rw [hf, hm1]; exact ih.2
      · rw [hf]
        apply map_keys_erase_pairwise
        rw [hm1]; exact ih.2
  | polls p s _ ih => exact ih

theorem live_iff_mem_keys (s : pipeline) (x : Int) : live s x ↔ x ∈ map_keys s.nodes_ := by
  unfold live
  exact map_contains_iff_mem_keys _ _

/-- A call made with defined behaviour leads from a state of a pipeline object
to a state of a pipeline object. -/
theorem call_reachable (c : call) (s : pipeline) (hs : Reachable s)
    (hd : c.defined s = true) : Reachable (c.apply s).1 := by
  cases c with
  | create_node N =>
    simp only [call.defined, decide_eq_true_eq] at hd
    exact Reachable.create_node N s hs hd
  | connect src dst slot =>
    simp only [call.defined, Bool.and_eq_true, decide_eq_true_eq] at hd
    exact Reachable.connect src dst slot s hs hd.1 hd.2
  | disconnect src dst => exact Reachable.disconnect src dst s hs
  | erase_node n_id => exact Reachable.erase_node n_id s hs
  | step p => exact Reachable.polls p s hs

/-- A call of `create_node` returns the id counter plus one and sets the counter
to it; no other call changes the counter or returns an id. -/
theorem call_latest (c : call) (s : pipeline) :
    ((c.apply s).2 = some (s.latest_id_ + 1) ∧ (c.apply s).1.latest_id_ = s.latest_id_ + 1) ∨
    ((c.apply s).2 = none ∧ (c.apply s).1.latest_id_ = s.latest_id_) := by
  cases c with
  | create_node N =>
    left
    simp [call.apply, create_node]
  | connect src dst slot => exact Or.inr ⟨rfl, (connect_frame s src dst slot).2.1⟩
  | disconnect src dst => exact Or.inr ⟨rfl, (disconnect_frame s src dst).2.1⟩
  | erase_node n_id => exact Or.inr ⟨rfl, (erase_node_frame s n_id).1⟩
  | step p => exact Or.inr ⟨rfl, rfl⟩

/-- No call makes live an id that is not live and does not exceed the id
counter. -/
theorem call_not_live (c : call) (s : pipeline) (x : Int)
    (hx : x ≤ s.latest_id_) (hn : ¬ live s x) : ¬ live (c.apply s).1 x := by
  rw [live_iff_mem_keys] at hn ⊢
  cases c with
  | create_node N =>
    simp only [call.apply]
    rw [create_node_keys]
    intro hmem
    have hc := (map_contains_iff_mem_keys _ _).2 hmem
    rw [map_contains_emplace] at hc
    have hne : x ≠ s.latest_id_ + 1 := by omega
    simp only [hne, decide_False, Bool.false_or] at hc
    exact hn ((map_contains_iff_mem_keys _ _).1 hc)
  | connect src dst slot =>
    simp only [call.apply]
    rw [(connect_frame s src dst slot).1]
    exact hn
  | disconnect src dst =>
    simp only [call.apply]
    rw [(disconnect_frame s src dst).1]
    exact hn
  | erase_node n_id =>
    simp only [call.apply]
    rcases (erase_node_frame s n_id).2.1 with h | h
    · rw [h]; exact hn
    · rw [h]
      intro hmem
      apply hn
      unfold map_keys map_erase at hmem
      unfold map_keys
      obtain ⟨p, hp, hpx⟩ := List.mem_map.1 hmem
      exact List.mem_map.2 ⟨p, (List.mem_filter.1 hp).1, hpx⟩
  | step p => exact hn

/-- A sequence of calls made with defined behaviour: the final state is a state
of a pipeline object, the ids returned count up from the id counter, the
counter ends at the last of them, and an id that was not live and not above the
counter is not live at the end. -/
theorem apply_calls_spec : ∀ (cs : List call) (s : pipeline), Reachable s →
    calls_defined cs s = true →
    Reachable (apply_calls cs s).1 ∧
    (apply_calls cs s).1.latest_id_ = s.latest_id_ + (apply_calls cs s).2.length ∧
    (apply_calls cs s).2 =
      (List.range (apply_calls cs s).2.length).map (fun k : Nat => s.latest_id_ + 1 + (k : Int)) ∧
    (∀ x, x ≤ s.latest_id_ → ¬ live s x → ¬ live (apply_calls cs s).1 x) := by
  intro cs
  induction cs with
  | nil =>
    intro s hs _
    exact ⟨hs, by simp [apply_calls], by simp [apply_calls], fun _ _ h => h⟩
  | cons c rest ih =>
    intro s hs hd
    simp only [calls_defined, Bool.and_eq_true] at hd
    have hr := call_reachable c s hs hd.1
    obtain ⟨i1, i2, i3, i4⟩ := ih (c.apply s).1 hr hd.2
    simp only [apply_calls]
    generalize (apply_calls rest (c.apply s).1).2 = ids at i2 i3 ⊢
    rcases call_latest c s with ⟨hid, hlat⟩ | ⟨hid, hlat⟩
    · rw [hid]
      simp only [Option.toList_some, List.singleton_append, List.length_cons]
      refine ⟨i1, ?_, ?_, ?_⟩
      · rw [i2, hlat]
        push_cast
        ring
      · rw [List.range_succ_eq_map, List.map_cons, List.map_map]
        congr 1
        · simp
        · nth_rewrite 1 [i3]
          apply List.map_congr_left
          intro k _
          simp only [Function.comp_apply, hlat]
          push_cast
          ring
      · intro x hx hn
        exact i4 x (by rw [hlat]; omega) (call_not_live c s x hx hn)
    · rw [hid]
      simp only [Option.toList_none, List.nil_append]
      refine ⟨i1, by rw [i2, hlat], ?_, ?_⟩
      · nth_rewrite 1 [i3]
        rw [hlat]
      · intro x hx hn
        exact i4 x (by rw [hlat]; exact hx) (call_not_live c s x hx hn)

end pipeline
end ppl

namespace ppl
namespace pipeline

/-! ## Claims on slots, identifiers and `get_node` -/

/-- C21, as stated, fails: after `connect(source, c1, 0)` on the nodes of
"Testing get_dependencies with same sources to one destination", `c1` is in the
outgoing set of the source and slot 1 of `c1` exists and has the output type of
the source, but slot 1 is not filled. -/
theorem typed_slot_not_filled :
    Reachable examples.one_slot ∧ live examples.one_slot 1 ∧ live examples.one_slot 2 ∧
    2 ∈ outgoing examples.one_slot 1 ∧
    (1 : Int) < (input_types examples.one_slot 2).length ∧
    (input_types examples.one_slot 2)[(1 : Int).toNat]? = output_type examples.one_slot 1 ∧
    incoming examples.one_slot 2 1 = none :=
  ⟨reachable_connect_int _ _ _ _ reachable_same_source_nodes (by decide) (by decide),
    by decide, by decide, by decide, by decide, by decide, by decide⟩

/-- C21, amended: in a reachable state, when slot `k` of `v` is filled with
producer `u`, then `u` and `v` are live, `v` is in the outgoing set of `u`, `k` is
the index of an input type of `v`, and that type is the output type of `u`;
and when `v` is in the outgoing set of `u`, some slot of `v` is filled with
producer `u`. -/
theorem filled_slot_typed (s : pipeline) (hs : Reachable s) (u v k : Int) :
    (incoming s v k = some u →
      live s u ∧ live s v ∧ v ∈ outgoing s u ∧ 0 ≤ k ∧
      k < (input_types s v).length ∧
      (input_types s v)[k.toNat]? = output_type s u) ∧
    (v ∈ outgoing s u → ∃ j, incoming s v j = some u) := by
  have hw := hs.wf
  refine ⟨?_, fun h => (hw.recip u v).1 h⟩
  intro h
  obtain ⟨hv, hu⟩ := live_of_incoming s hw v k u h
  obtain ⟨h0, _, hty⟩ := hw.slots_ok v k u h
  refine ⟨hu, hv, (hw.recip u v).2 ⟨k, h⟩, h0, ?_, hty⟩
  obtain ⟨n, hn⟩ := find_of_contains _ _ hu
  have hsome : (input_types s v)[k.toNat]? = some n.output_type_ := by
    rw [hty]
    simp [output_type, hn]
  have hlt := (List.getElem?_eq_some.1 hsome).1
  omega

/-- C21, amended, on `same_source`: slot 1 of the component (id 2) is filled by
the source (id 1). -/
theorem filled_slot_typed_witness :
    Reachable examples.same_source ∧ incoming examples.same_source 2 1 = some 1 ∧
    2 ∈ outgoing examples.same_source 1 ∧
    (1 : Int) < (input_types examples.same_source 2).length :=
  have h := (filled_slot_typed examples.same_source reachable_same_source 1 2 1).1 (by decide)
  ⟨reachable_same_source, by decide, h.2.2.1, h.2.2.2.2.1⟩

theorem connect_not_live (s : pipeline) (x y slot : Int) (hn : ¬ live s x) :
    (connect x y slot s).result = .error (.pipeline_error .invalid_node_id) ∧
    (connect y x slot s).result = .error (.pipeline_error .invalid_node_id) := by
  unfold live at hn
  unfold connect
  simp [hn]

theorem disconnect_not_live (s : pipeline) (x y : Int) (hn : ¬ live s x) :
    (disconnect x y s).result = .error (.pipeline_error .invalid_node_id) ∧
    (disconnect y x s).result = .error (.pipeline_error .invalid_node_id) := by
  unfold live at hn
  unfold disconnect
  simp [hn]

theorem get_node_spec (s : pipeline) (n_id : Int) :
    get_node n_id s = .ok (map_find s.nodes_ n_id) := by
  unfold get_node
  by_cases h : map_contains s.nodes_ n_id = true
  · obtain ⟨n, hn⟩ := find_of_contains _ _ h
    simp [h, hn]
  · have hnone : map_find s.nodes_ n_id = none := by
      unfold map_contains at h
      simpa using h
    simp [h, hnone]

/-- C22: over a sequence of calls made on a pipeline object, the ids returned by
`create_node` are strictly increasing, above the id counter and every live id
of the state the sequence starts in, and at most the counter at the end; an id
not above the counter that is not live (never created, or erased) is unknown
at the end: `get_node` returns null and `connect`, `disconnect`, `erase_node` and
`get_dependencies` fail with `invalid_node_id`. -/
theorem ids_never_reused (s : pipeline) (hs : Reachable s) (cs : List call)
    (hd : calls_defined cs s = true) :
    (apply_calls cs s).2.Pairwise (· < ·) ∧
    (∀ x, live s x → x ≤ s.latest_id_) ∧
    (∀ id ∈ (apply_calls cs s).2, s.latest_id_ < id ∧ id ≤ (apply_calls cs s).1.latest_id_) ∧
    (∀ x, x ≤ s.latest_id_ → ¬ live s x →
      ¬ live (apply_calls cs s).1 x ∧
      get_node x (apply_calls cs s).1 = .ok none ∧
      (∀ y slot,
        (connect x y slot (apply_calls cs s).1).result =
          .error (.pipeline_error .invalid_node_id) ∧
        (connect y x slot (apply_calls cs s).1).result =
          .error (.pipeline_error .invalid_node_id)) ∧
      (∀ y,
        (disconnect x y (apply_calls cs s).1).result =
          .error (.pipeline_error .invalid_node_id) ∧
        (disconnect y x (apply_calls cs s).1).result =
          .error (.pipeline_error .invalid_node_id)) ∧
      (erase_node x (apply_calls cs s).1).result = .error (.pipeline_error .invalid_node_id) ∧
      get_dependencies x (apply_calls cs s).1 = .error (.pipeline_error .invalid_node_id)) := by
  obtain ⟨_, hlat, hids, hdead⟩ := apply_calls_spec cs s hs hd
  generalize (apply_calls cs s).2 = ids at hlat hids
  refine ⟨?_, hs.wf.ids_le, ?_, ?_⟩
  · rw [hids, List.pairwise_map]
    apply List.Pairwise.imp _ (List.pairwise_lt_range _)
    intro a b hab
    omega
  · intro id hid
    rw [hids] at hid
    obtain ⟨k, hk, rfl⟩ := List.mem_map.1 hid
    rw [List.mem_range] at hk
    rw [hlat]
    omega
  · intro x hx hn
    have hn1 := hdead x hx hn
    refine ⟨hn1, ?_, fun y slot => connect_not_live _ x y slot hn1,
      fun y => disconnect_not_live _ x y hn1, ?_, get_dependencies_error _ x hn1⟩
    · rw [get_node_spec]
      unfold live map_contains at hn1
      simpa using hn1
    · rw [erase_node_error _ x hn1]

/-- C22, on the state in which four nodes were created and the third erased: a
fifth `create_node` returns 5, and the id 3 stays unknown. -/
theorem ids_never_reused_witness :
    Reachable (apply_calls examples.four_created_third_erased init).1 ∧
    ¬ live (apply_calls examples.four_created_third_erased init).1 3 ∧
    (apply_calls [call.create_node (examples.simplest_source examples.typeid_int)]
      (apply_calls examples.four_created_third_erased init).1).2 = [5] ∧
    ¬ live (apply_calls [call.create_node (examples.simplest_source examples.typeid_int)]
      (apply_calls examples.four_created_third_erased init).1).1 3 :=
  have hr : Reachable (apply_calls examples.four_created_third_erased init).1 :=
    (apply_calls_spec examples.four_created_third_erased init Reachable.init (by decide)).1
  have hn : ¬ live (apply_calls examples.four_created_third_erased init).1 3 := by decide
  ⟨hr, hn, by decide,
    ((ids_never_reused (apply_calls examples.four_created_third_erased init).1 hr
      [call.create_node (examples.simplest_source examples.typeid_int)] (by decide)).2.2.2
        3 (by decide) hn).1⟩

/-- C23: in a sequence of calls made on `ppl::pipeline{}`, the k-th call of
`create_node` returns the id k, whatever calls stand between. -/
theorem create_node_returns_kth (cs : List call) (hd : calls_defined cs init = true)
    (k : Nat) (hk : k < (apply_calls cs init).2.length) :
    (apply_calls cs init).2[k] = (k : Int) + 1 := by
  obtain ⟨_, _, hids, _⟩ := apply_calls_spec cs init Reachable.init hd
  generalize (apply_calls cs init).2 = ids at hk hids
  have h : ids[k]? = some ((k : Int) + 1) := by
    rw [hids]
    simp [hk, init]
    ring
  rw [List.getElem?_eq_getElem hk] at h
  exact Option.some.inj h

/-- C23, on four calls of `create_node` followed by `erase_node(3)`: the fourth
call returned 4 and the live ids are 1, 2 and 4. -/
theorem create_node_returns_kth_witness :
    calls_defined examples.four_created_third_erased init = true ∧
    (apply_calls examples.four_created_third_erased init).2 = [1, 2, 3, 4] ∧
    (apply_calls examples.four_created_third_erased init).2[3]? = some 4 ∧
    map_keys (apply_calls examples.four_created_third_erased init).1.nodes_ = [1, 2, 4] :=
  have hd : calls_defined examples.four_created_third_erased init = true := by decide
  have hk : 3 < (apply_calls examples.four_created_third_erased init).2.length := by decide
  ⟨hd, by decide, by
    rw [List.getElem?_eq_getElem hk,
      create_node_returns_kth examples.four_created_third_erased hd 3 hk]
    rfl, by decide⟩

/-- C26: in every state and for every id `get_node` returns; it returns the node
stored under the id when the id is live and the null pointer when it is not. -/
theorem get_node_total (s : pipeline) (n_id : Int) :
    (∃ r, get_node n_id s = .ok r) ∧
    ((∃ n, get_node n_id s = .ok (some n)) ↔ live s n_id) ∧
    (get_node n_id s = .ok none ↔ ¬ live s n_id) ∧
    (∀ n, get_node n_id s = .ok (some n) → map_find s.nodes_ n_id = some n) := by
  rw [get_node_spec]
  unfold live map_contains
  refine ⟨⟨_, rfl⟩, ?_, ?_, ?_⟩
  · cases map_find s.nodes_ n_id <;> simp
  · cases map_find s.nodes_ n_id <;> simp
  · intro n h
    exact Except.ok.inj h

/-- C26, on the state in which four nodes were created and the third erased:
`get_node` returns a node for the id 4 and null for the erased id 3 and for the
id 7 that was never returned. -/
theorem get_node_total_witness :
    live (apply_calls examples.four_created_third_erased init).1 4 ∧
    (∃ n, get_node 4 (apply_calls examples.four_created_third_erased init).1 = .ok (some n)) ∧
    get_node 3 (apply_calls examples.four_created_third_erased init).1 = .ok none ∧
    get_node 7 (apply_calls examples.four_created_third_erased init).1 = .ok none :=
  ⟨by decide,
    (get_node_total (apply_calls examples.four_created_third_erased init).1 4).2.1.2 (by decide),
    by decide, by decide⟩

end pipeline
end ppl

namespace ppl
namespace pipeline

/-! ## Rendering -/

theorem render_nodes_eq (name : Int → String) :
    ∀ (l : List (Int × node)) (os : String),
      render_nodes name l os = os ++ lines_text (l.map (fun nd => node_line name nd.1)) := by
  intro l
  induction l with
  | nil => intro os; simp [render_nodes, lines_text]
  | cons nd rest ih =>
    intro os
    rw [render_nodes, ih, List.map_cons, lines_text, String.append_assoc]

theorem render_edges_eq (name : Int → String) (nodes_ : std_map node) :
    ∀ (es : List (Int × Int)) (os : String),
      (∀ e ∈ es, (∃ n, map_find nodes_ e.1 = some n) ∧ (∃ n, map_find nodes_ e.2 = some n)) →
      render_edges name nodes_ es os = .ok (os ++ lines_text (es.map (edge_text name))) := by
  intro es
  induction es with
  | nil => intro os _; simp [render_edges, lines_text]
  | cons e rest ih =>
    intro os h
    obtain ⟨⟨n1, h1⟩, ⟨n2, h2⟩⟩ := h e (List.mem_cons_self _ _)
    have hline : edge_line name nodes_ e = .ok (edge_text name e) := by
      simp [edge_line, h1, h2, edge_text]
    rw [render_edges, hline]
    simp only
    rw [ih _ (fun e he => h e (List.mem_cons_of_mem _ he)), List.map_cons, lines_text,
      String.append_assoc]

theorem edge_less_false_iff (a b : Int × Int) : edge_less b a = false ↔ edge_le a b := by
  unfold edge_less edge_le
  by_cases h : b.1 = a.1
  · simp only [h, ne_eq, not_true_eq_false, ↓reduceIte, decide_eq_false_iff_not, not_lt,
      lt_self_iff_false, true_and, false_or]
  · simp only [ne_eq, h, not_false_eq_true, ↓reduceIte, decide_eq_false_iff_not, not_lt]
    constructor
    · intro hle
      left
      omega
    · rintro (hlt | ⟨heq, _⟩)
      · omega
      · exact absurd heq.symm h

/-- The list `std::sort` leaves is in the order of `edge_le` and is a
rearrangement of the list it was given. -/
theorem sort_edges_spec (l : List (Int × Int)) :
    (sort_edges l).Pairwise edge_le ∧ (sort_edges l).Perm l := by
  unfold sort_edges
  refine ⟨?_, List.perm_insertionSort _ l⟩
  haveI : IsTotal (Int × Int) (fun a b => edge_less b a = false) := ⟨by
    intro a b
    simp only [edge_less_false_iff]
    unfold edge_le
    omega⟩
  haveI : IsTrans (Int × Int) (fun a b => edge_less b a = false) := ⟨by
    intro a b c
    simp only [edge_less_false_iff]
    unfold edge_le
    omega⟩
  have := List.sorted_insertionSort (fun a b : Int × Int => edge_less b a = false) l
  unfold List.Sorted at this
  exact this.imp (fun h => (edge_less_false_iff _ _).1 h)

/-- The filled slots of a table `nodes_from_`, as triples (consumer, slot,
producer), listed without repetition when the keys are in ascending order. -/
theorem filled_slots_list (F : std_map (std_map Int))
    (hF : (map_keys F).Pairwise (· < ·))
    (hin : ∀ v slots, map_find F v = some slots → (map_keys slots).Pairwise (· < ·)) :
    ∃ slots : List (Int × Int × Int), slots.Nodup ∧
      (∀ v k u, (v, k, u) ∈ slots ↔ (map_find F v).bind (fun m => map_find m k) = some u) ∧
      edges_list F = slots.map (fun t => (t.2.2, t.1)) := by
  refine ⟨F.flatMap (fun e => e.2.map (fun p => (e.1, p.1, p.2))), ?_, ?_, ?_⟩
  · rw [List.nodup_flatMap]
    constructor
    · intro e he
      have hk := hin e.1 e.2 (map_find_of_mem _ _ _ hF he)
      have hnd : e.2.Nodup := by
        have : (map_keys e.2).Nodup := hk.imp (fun h => ne_of_lt h)
        exact List.Nodup.of_map _ this
      apply hnd.map
      intro p q hpq
      simp only [Prod.mk.injEq, true_and] at hpq
      exact Prod.ext hpq.1 hpq.2
    · have hnd : (map_keys F).Pairwise (· ≠ ·) := hF.imp (fun h => ne_of_lt h)
      unfold map_keys at hnd
      rw [List.pairwise_map] at hnd
      apply hnd.imp
      intro a b hab
      simp only [Function.onFun]
      intro t hta htb
      obtain ⟨p, _, hp⟩ := List.mem_map.1 hta
      obtain ⟨q, _, hq⟩ := List.mem_map.1 htb
      rw [← hq] at hp
      simp only [Prod.mk.injEq] at hp
      exact hab hp.1
  · intro v k u
    simp only [List.mem_flatMap, List.mem_map, Prod.mk.injEq]
    constructor
    · rintro ⟨e, he, p, hp, rfl, rfl, rfl⟩
      have h1 := map_find_of_mem _ _ _ hF he
      have h2 := map_find_of_mem _ _ _ (hin e.1 e.2 h1) hp
      simp [h1, h2]
    · intro h
      cases hf : map_find F v with
      | none => simp [hf] at h
      | some m =>
        simp only [hf, Option.some_bind] at h
        exact ⟨(v, m), mem_of_map_find _ _ _ hf, (k, u), mem_of_map_find _ _ _ h, rfl, rfl, rfl⟩
  · unfold edges_list
    rw [List.map_flatMap]
    congr 1
    funext e
    rw [List.map_map]
    rfl

/-- The text of `operator<<` in a state of a pipeline object: no lookup
fails, the node lines follow the ascending keys of the node map and the edge
lines the sorted list of edges. -/
theorem render_spec (name : Int → String) (s : pipeline) (hs : Reachable s) :
    render name s = .ok ("digraph G \x7b\n" ++
      lines_text ((map_keys s.nodes_).map (node_line name)) ++ "\n" ++
      lines_text ((sort_edges (edges_list s.nodes_from_)).map (edge_text name)) ++ "\x7d\n") ∧
    ∃ slots : List (Int × Int × Int), slots.Nodup ∧
      (∀ v k u, (v, k, u) ∈ slots ↔ incoming s v k = some u) ∧
      (sort_edges (edges_list s.nodes_from_)).Perm (slots.map (fun t => (t.2.2, t.1))) := by
  have hw := hs.wf
  obtain ⟨slots, hnd, hmem, hedges⟩ := filled_slots_list s.nodes_from_ hs.sorted_tables.1
    hw.sorted_in
  have hperm := (sort_edges_spec (edges_list s.nodes_from_)).2
  refine ⟨?_, slots, hnd, hmem, by rw [← hedges]; exact hperm⟩
  have hlive : ∀ e ∈ sort_edges (edges_list s.nodes_from_),
      (∃ n, map_find s.nodes_ e.1 = some n) ∧ (∃ n, map_find s.nodes_ e.2 = some n) := by
    intro e he
    have he1 := hperm.subset he
    rw [hedges] at he1
    obtain ⟨t, ht, rfl⟩ := List.mem_map.1 he1
    obtain ⟨v, k, u⟩ := t
    have hin : incoming s v k = some u := (hmem v k u).1 ht
    obtain ⟨hv, hu⟩ := live_of_incoming s hw v k u hin
    exact ⟨find_of_contains _ _ hu, find_of_contains _ _ hv⟩
  unfold render
  simp only
  rw [render_edges_eq name s.nodes_ _ _ hlive, render_nodes_eq]
  simp only [map_keys, List.map_map]
  rfl

theorem reachable_four_created_third_erased :
    Reachable (apply_calls examples.four_created_third_erased init).1 :=
  (apply_calls_spec examples.four_created_third_erased init Reachable.init (by decide)).1

theorem reachable_visual_twelve : Reachable examples.visual_twelve :=
  (apply_calls_spec examples.twelve_calls init Reachable.init (by decide)).1

theorem reachable_visual_simple : Reachable examples.visual_simple :=
  reachable_connect_int _ _ _ _ (reachable_connect_int _ _ _ _ (reachable_connect_int _ _ _ _
    reachable_four_created_third_erased (by decide) (by decide)) (by decide) (by decide))
    (by decide) (by decide)

theorem reachable_visual_multiple : Reachable examples.visual_multiple :=
  reachable_connect_int _ _ _ _ (reachable_connect_int _ _ _ _ (reachable_connect_int _ _ _ _
    (reachable_connect_int _ _ _ _
      (Reachable.erase_node _ _
        (Reachable.create_node _ _ (Reachable.create_node _ _ (Reachable.create_node _ _
          (Reachable.create_node _ _ Reachable.init (by decide)) (by decide)) (by decide))
          (by decide)))
      (by decide) (by decide)) (by decide) (by decide)) (by decide) (by decide))
    (by decide) (by decide)

theorem reachable_self_loop : Reachable examples.self_loop :=
  reachable_connect_int _ _ _ _ (reachable_connect_int _ _ _ _ (reachable_connect_int _ _ _ _
    (Reachable.create_node _ _ (Reachable.create_node _ _
      (Reachable.create_node _ _ Reachable.init (by decide)) (by decide)) (by decide))
    (by decide) (by decide)) (by decide) (by decide)) (by decide) (by decide)

end pipeline
end ppl

namespace ppl
namespace pipeline

/-! ## Claims on rendering and on the absence of failed lookups -/

set_option maxRecDepth 100000

/-- C24: in a reachable state the text of `operator<<` ends with the edge lines
and the closing brace; there is one edge line for every filled slot (consumer,
slot, producer), of the form two spaces, quoted producer, arrow, quoted
consumer, and the lines are in ascending order of producer id, then consumer
id. -/
theorem render_edge_block (name : Int → String) (s : pipeline) (hs : Reachable s) :
    ∃ (es : List (Int × Int)) (slots : List (Int × Int × Int)),
      render name s = .ok ("digraph G \x7b\n" ++
        lines_text ((map_keys s.nodes_).map (node_line name)) ++ "\n" ++
        lines_text (es.map (fun e => "  \"" ++ toString e.1 ++ " " ++ name e.1 ++ "\" -> \"" ++
          toString e.2 ++ " " ++ name e.2 ++ "\"\n")) ++ "\x7d\n") ∧
      slots.Nodup ∧
      (∀ v k u, (v, k, u) ∈ slots ↔ incoming s v k = some u) ∧
      es.Perm (slots.map (fun t => (t.2.2, t.1))) ∧
      es.Pairwise (fun a b => a.1 < b.1 ∨ (a.1 = b.1 ∧ a.2 ≤ b.2)) := by
  obtain ⟨hr, slots, hnd, hmem, hperm⟩ := render_spec name s hs
  exact ⟨sort_edges (edges_list s.nodes_from_), slots, hr, hnd, hmem, hperm,
    (sort_edges_spec _).1⟩

/-- C24, on the pipeline of "Testing visual representation: with multiple paths
between same pair of nodes": `foobar` (id 4) fills the slots 1 and 2 of `hello`
(id 1) and the edge block has two lines for it. -/
theorem render_edge_block_witness :
    Reachable examples.visual_multiple ∧
    incoming examples.visual_multiple 1 1 = some 4 ∧
    incoming examples.visual_multiple 1 2 = some 4 ∧
    render examples.visual_names examples.visual_multiple = .ok
      "digraph G \x7b\n  \"1 hello\"\n  \"2 world\"\n  \"4 foobar\"\n\n  \"2 world\" -> \"1 hello\"\n  \"2 world\" -> \"4 foobar\"\n  \"4 foobar\" -> \"1 hello\"\n  \"4 foobar\" -> \"1 hello\"\n\x7d\n" ∧
    ∃ (es : List (Int × Int)) (slots : List (Int × Int × Int)),
      slots.Nodup ∧ (1, 1, 4) ∈ slots ∧ (1, 2, 4) ∈ slots ∧
      es.Perm (slots.map (fun t => (t.2.2, t.1))) := by
  refine ⟨reachable_visual_multiple, by decide, by decide, by decide, ?_⟩
  obtain ⟨es, slots, _, hnd, hmem, hperm, _⟩ :=
    render_edge_block examples.visual_names examples.visual_multiple reachable_visual_multiple
  exact ⟨es, slots, hnd, (hmem 1 1 4).2 (by decide), (hmem 1 2 4).2 (by decide), hperm⟩

/-- C25: in a reachable state the text of `operator<<` is the line
`digraph G {`, one line of two spaces and the quoted id and name for every live
node in ascending order of the ids as numbers, an empty line, the edge lines,
each starting with two spaces, and the closing brace followed by a newline. -/
theorem render_layout (name : Int → String) (s : pipeline) (hs : Reachable s) :
    ∃ (ids : List Int) (es : List (Int × Int)),
      render name s = .ok ("digraph G \x7b\n" ++
        lines_text (ids.map (fun id => "  \"" ++ toString id ++ " " ++ name id ++ "\"\n")) ++
        "\n" ++
        lines_text (es.map (fun e => "  \"" ++ toString e.1 ++ " " ++ name e.1 ++ "\" -> \"" ++
          toString e.2 ++ " " ++ name e.2 ++ "\"\n")) ++ "\x7d\n") ∧
      ids.Pairwise (· < ·) ∧ (∀ x, x ∈ ids ↔ live s x) ∧
      es = sort_edges (edges_list s.nodes_from_) := by
  obtain ⟨hr, _⟩ := render_spec name s hs
  exact ⟨map_keys s.nodes_, sort_edges (edges_list s.nodes_from_), hr, hs.wf.sorted_nodes,
    fun x => (live_iff_mem_keys s x).symm, rfl⟩

/-- C25, on the pipeline of "Testing visual representation: more than 10
nodes", with the text the test expects: the line of node 10 follows that of
node 9. -/
theorem render_layout_witness :
    Reachable examples.visual_twelve ∧
    render examples.twelve_names examples.visual_twelve = .ok
      "digraph G \x7b\n  \"1 one\"\n  \"2 two\"\n  \"3 three\"\n  \"4 four\"\n  \"5 five\"\n  \"6 six\"\n  \"7 seven\"\n  \"8 eight\"\n  \"9 nine\"\n  \"10 ten\"\n  \"11 eleven\"\n  \"12 twelve\"\n\n  \"2 two\" -> \"11 eleven\"\n  \"12 twelve\" -> \"1 one\"\n\x7d\n" ∧
    ∃ (ids : List Int), ids.Pairwise (· < ·) ∧ (∀ x, x ∈ ids ↔ live examples.visual_twelve x) := by
  refine ⟨reachable_visual_twelve, by decide, ?_⟩
  obtain ⟨ids, _, _, hsorted, hmem, _⟩ :=
    render_layout examples.twelve_names examples.visual_twelve reachable_visual_twelve
  exact ⟨ids, hsorted, hmem⟩

/-- C27: in a reachable state, empty, cyclic or invalid ones included,
`is_valid()` returns a value when the fuel exceeds the number of nodes and
`operator<<` returns its text: no lookup of theirs throws. -/
theorem is_valid_and_render_return (s : pipeline) (hs : Reachable s) (fuel : Nat)
    (hfuel : s.nodes_.length < fuel) (name : Int → String) :
    (∃ b, is_valid fuel s = .ok b) ∧ (∃ out, render name s = .ok out) := by
  obtain ⟨b, hb, _⟩ := is_valid_spec s hs.wf fuel hfuel
  exact ⟨⟨b, hb⟩, ⟨_, (render_spec name s hs).1⟩⟩

/-- C27, on the pipeline with a node connected to itself. -/
theorem is_valid_and_render_return_witness :
    Reachable examples.self_loop ∧ is_valid 4 examples.self_loop = .ok false ∧
    (∃ b, is_valid 4 examples.self_loop = .ok b) ∧
    (∃ out, render examples.visual_names examples.self_loop = .ok out) :=
  ⟨reachable_self_loop, by decide,
    is_valid_and_render_return examples.self_loop reachable_self_loop 4 (by decide)
      examples.visual_names⟩

end pipeline
end ppl

namespace ppl
namespace pipeline

open internal

/-! ## Claims on the graph analyses -/

set_option maxRecDepth 100000

/-- C28: on a reachable state `has_cycle` returns, and returns true exactly when
some live node reaches itself along one or more outgoing edges; a node in its
own outgoing set makes it return true, and when it returns true `is_valid()`
returns false. -/
theorem has_cycle_iff (s : pipeline) (hs : Reachable s) (fuel : Nat)
    (hfuel : s.nodes_.length < fuel) :
    ∃ b, has_cycle fuel s.nodes_ s.nodes_to_ = .ok b ∧
      (b = true ↔ ∃ x, live s x ∧ Relation.TransGen (edge s) x x) ∧
      ((∃ x, edge s x x) → b = true) ∧
      (b = true → is_valid fuel s = .ok false) := by
  have hw := hs.wf
  obtain ⟨b, hb, hiff⟩ := has_cycle_spec s hw fuel hfuel
  have hlive : ∀ x, Relation.TransGen (edge s) x x → live s x := by
    intro x hx
    obtain ⟨y, hxy, _⟩ := Relation.TransGen.head'_iff.1 hx
    exact live_of_mem_outgoing_src s hw x y hxy
  refine ⟨b, hb, ?_, ?_, ?_⟩
  · rw [hiff]
    constructor
    · rintro ⟨x, hx⟩
      exact ⟨x, hlive x hx, hx⟩
    · rintro ⟨x, _, hx⟩
      exact ⟨x, hx⟩
  · rintro ⟨x, hx⟩
    exact hiff.2 ⟨x, Relation.TransGen.single hx⟩
  · intro hbt
    obtain ⟨x, hx⟩ := hiff.1 hbt
    obtain ⟨v, hv, hviff⟩ := is_valid_spec s hw fuel hfuel
    cases v with
    | false => exact hv
    | true =>
      exfalso
      exact (hviff.1 rfl).2.2.2.2.2 x hx

/-- C28, on the pipeline of the test in which a component feeds its own slot. -/
theorem has_cycle_iff_witness :
    Reachable examples.self_loop ∧ edge examples.self_loop 2 2 ∧
    has_cycle 4 examples.self_loop.nodes_ examples.self_loop.nodes_to_ = .ok true ∧
    is_valid 4 examples.self_loop = .ok false := by
  obtain ⟨b, hb, _, hself, hval⟩ := has_cycle_iff examples.self_loop reachable_self_loop 4
    (by decide)
  have hbt : b = true := hself ⟨2, by decide⟩
  subst hbt
  exact ⟨reachable_self_loop, by decide, hb, hval rfl⟩

/-- C29: on a reachable state `topological_sort` returns a stack that holds the
live ids and nothing else, each once; when the outgoing relation is acyclic,
every node is nearer to the top of the stack than the nodes in its outgoing
set, so it is popped before them. -/
theorem topological_sort_order (s : pipeline) (hs : Reachable s) (fuel : Nat)
    (hfuel : s.nodes_.length < fuel) :
    ∃ stack, topological_sort fuel s.nodes_ s.nodes_to_ = .ok stack ∧ stack.Nodup ∧
      (∀ x, x ∈ stack ↔ live s x) ∧
      (acyclic s → ∀ u v, edge s u v →
        ∃ pre post, stack = pre ++ u :: post ∧ v ∈ post) := by
  have hw := hs.wf
  obtain ⟨stack, hst, hnd, hmem, hord⟩ := topological_sort_spec s hw fuel (Nat.le_of_lt hfuel)
  refine ⟨stack, hst, hnd, hmem, ?_⟩
  intro hac u v huv
  have hu : u ∈ stack := (hmem u).2 (live_of_mem_outgoing_src s hw u v huv)
  obtain ⟨pre, post, hsplit⟩ := List.append_of_mem hu
  refine ⟨pre, post, hsplit, ?_⟩
  have := hord hac
  rw [hsplit] at this
  exact ordered_edge (edge s) pre post u v this huv

/-- C29, on `single_sink`: the stack is 2, 1, 3, 4 from the top, the sources
above the component and the component above the sink. -/
theorem topological_sort_order_witness :
    Reachable examples.single_sink ∧ acyclic examples.single_sink ∧
    topological_sort 5 examples.single_sink.nodes_ examples.single_sink.nodes_to_ =
      .ok [2, 1, 3, 4] ∧
    ∃ stack, topological_sort 5 examples.single_sink.nodes_ examples.single_sink.nodes_to_ =
        .ok stack ∧
      ∃ pre post, stack = pre ++ 3 :: post ∧ 4 ∈ post := by
  refine ⟨reachable_single_sink, acyclic_single_sink, by decide, ?_⟩
  obtain ⟨stack, hst, _, _, hord⟩ := topological_sort_order examples.single_sink
    reachable_single_sink 5 (by decide)
  exact ⟨stack, hst, hord acyclic_single_sink 3 4 (by decide)⟩

/-- C30: on a reachable state with smallest live id `r`, `is_connected` returns,
and returns true exactly when every live node is reachable from `r` along
outgoing edges or reaches `r` along outgoing edges. -/
theorem is_connected_iff (s : pipeline) (hs : Reachable s) (fuel : Nat)
    (hfuel : s.nodes_.length < fuel) (r : Int) (hr : smallest_live s r) :
    ∃ b, is_connected fuel s.nodes_ s.nodes_to_ s.nodes_from_ = .ok b ∧
      (b = true ↔ ∀ v, live s v →
        Relation.ReflTransGen (edge s) r v ∨ Relation.ReflTransGen (edge s) v r) := by
  have hw := hs.wf
  obtain ⟨first, rest, hnodes⟩ : ∃ first rest, s.nodes_ = first :: rest := by
    cases hn : s.nodes_ with
    | nil =>
      exfalso
      obtain ⟨nd, hnd, _⟩ := (live_iff_mem_nodes s r).1 hr.1
      rw [hn] at hnd
      cases hnd
    | cons a l => exact ⟨a, l, rfl⟩
  have hfirst := smallest_live_unique s r first.1 hr (smallest_live_head s hw first rest hnodes)
  rw [hfirst]
  exact is_connected_spec s hw first rest hnodes fuel (Nat.le_of_lt hfuel)

/-- C30, on `single_sink`, whose smallest id is 1: the second source (id 2) is
neither reached from 1 nor reaches 1, and `is_connected` returns false. -/
theorem is_connected_iff_witness :
    Reachable examples.single_sink ∧ smallest_live examples.single_sink 1 ∧
    is_connected 5 examples.single_sink.nodes_ examples.single_sink.nodes_to_
      examples.single_sink.nodes_from_ = .ok false ∧
    ¬ (∀ v, live examples.single_sink v →
      Relation.ReflTransGen (edge examples.single_sink) 1 v ∨
      Relation.ReflTransGen (edge examples.single_sink) v 1) := by
  have hsm : smallest_live examples.single_sink 1 :=
    smallest_live_head examples.single_sink reachable_single_sink.wf
      (1, { input_types_ := [], output_type_ := 1, is_source := true, is_sink := false })
      examples.single_sink.nodes_.tail (by decide)
  obtain ⟨b, hb, hiff⟩ := is_connected_iff examples.single_sink reachable_single_sink 5
    (by decide) 1 hsm
  have hv : is_connected 5 examples.single_sink.nodes_ examples.single_sink.nodes_to_
      examples.single_sink.nodes_from_ = .ok false := by decide
  rw [hv] at hb
  cases hb
  exact ⟨reachable_single_sink, hsm, hv, fun h => by simpa using hiff.2 h⟩

end pipeline
end ppl

namespace ppl
namespace pipeline

open internal

/-! ## Where the poll states of a tick come from -/

theorem nodup_split_unique (a : Int) :
    ∀ (pre pre1 post post1 : List Int), (pre ++ a :: post).Nodup →
      pre ++ a :: post = pre1 ++ a :: post1 → pre = pre1 := by
  intro pre
  induction pre with
  | nil =>
    intro pre1 post post1 hnd heq
    cases pre1 with
    | nil => rfl
    | cons b pre1 =>
      exfalso
      simp only [List.nil_append, List.cons_append, List.cons.injEq] at heq
      obtain ⟨hab, hpost⟩ := heq
      subst hab
      simp only [List.nil_append, List.nodup_cons] at hnd
      apply hnd.1
      rw [hpost]
      simp
  | cons c pre ih =>
    intro pre1 post post1 hnd heq
    cases pre1 with
    | nil =>
      exfalso
      simp only [List.nil_append, List.cons_append, List.cons.injEq] at heq
      obtain ⟨hca, _⟩ := heq
      subst hca
      simp only [List.cons_append, List.nodup_cons] at hnd
      apply hnd.1
      simp
    | cons b pre1 =>
      simp only [List.cons_append, List.cons.injEq] at heq
      obtain ⟨hcb, hrest⟩ := heq
      subst hcb
      simp only [List.cons_append, List.nodup_cons] at hnd
      rw [ih pre1 post post1 hnd.2 hrest]

/-- The loop of `step` on a topologically ordered stack: a node of the stack
that is not polled was blocked before the loop or lies below a node polled in
the loop that did not return ready; and a node recorded closed after the loop
was closed before it, or returned closed, or lies below a node that returned
closed. -/
theorem step_loop_origin (fuel : Nat) (poll_next : List Int → Int → poll)
    (N : std_map node) (G : std_map std_set) :
    ∀ (S : List Int) (p : std_map poll) (h : List Int) (p1 : std_map poll) (t : List Int),
      topologically_ordered (succ_rel (map_find G)) S → S.Nodup →
      (∀ x ∈ S, ∃ nd, map_find N x = some nd) →
      (∀ x ∈ S, ∃ tos, map_find G x = some tos) →
      S.length ≤ fuel →
      step_loop fuel poll_next N G S p h = .ok (p1, h ++ t) →
      (∀ x ∈ S, x ∉ t → blocked p x ∨
        ∃ pre a post, t = pre ++ a :: post ∧ poll_next (h ++ pre) a ≠ poll.ready ∧
          Relation.TransGen (succ_rel (map_find G)) a x) ∧
      (∀ x, map_find p1 x = some poll.closed → map_find p x = some poll.closed ∨
        ∃ pre a post, t = pre ++ a :: post ∧ poll_next (h ++ pre) a = poll.closed ∧
          (x = a ∨ Relation.TransGen (succ_rel (map_find G)) a x)) := by
  intro S
  induction S with
  | nil =>
    intro p h p1 t _ _ _ _ _ hs
    rw [step_loop] at hs
    simp only [Except.ok.injEq, Prod.mk.injEq] at hs
    obtain ⟨hp, _⟩ := hs
    subst hp
    exact ⟨fun x hx => by simp at hx, fun x hx => Or.inl hx⟩
  | cons n rest ih =>
    intro p h p1 t hord hnd hN hG hfuel hs
    have hord1 : topologically_ordered (succ_rel (map_find G)) rest := hord.2
    have hnd1 : rest.Nodup := (List.nodup_cons.mp hnd).2
    have hnrest : n ∉ rest := (List.nodup_cons.mp hnd).1
    have hN1 : ∀ x ∈ rest, ∃ nd, map_find N x = some nd :=
      fun x hx => hN x (List.mem_cons_of_mem _ hx)
    have hG1 : ∀ x ∈ rest, ∃ tos, map_find G x = some tos :=
      fun x hx => hG x (List.mem_cons_of_mem _ hx)
    have hfuel1 : rest.length ≤ fuel := by
      simp only [List.length_cons] at hfuel
      omega
    have hlt : rest.length < fuel := by
      simp only [List.length_cons] at hfuel
      omega
    by_cases hb : blocked p n
    · rw [step_loop_cons_blocked fuel poll_next N G n rest p h hb] at hs
      obtain ⟨hB, hC⟩ := ih p h p1 t hord1 hnd1 hN1 hG1 hfuel1 hs
      refine ⟨?_, hC⟩
      intro x hx hxt
      rcases List.mem_cons.mp hx with hx | hx
      · rw [hx]; exact Or.inl hb
      · exact hB x hx hxt
    · obtain ⟨q, hstep, hqn, hqd, hqo⟩ := step_loop_cons_polled fuel poll_next N G n rest p h hb
        hord hnd (hN n (List.mem_cons_self _ _)) hG hlt
      rw [hstep] at hs
      obtain ⟨t1, ht1, _⟩ := step_loop_sublist fuel poll_next N G rest q (h ++ [n]) p1
        (h ++ t) hs
      have ht : t = n :: t1 := by
        rw [List.append_assoc] at ht1
        exact List.append_cancel_left ht1
      rw [ht1] at hs
      obtain ⟨hB, hC⟩ := ih q (h ++ [n]) p1 t1 hord1 hnd1 hN1 hG1 hfuel1 hs
      subst ht
      constructor
      · intro x hx hxt
        have hxn : x ≠ n := fun hh => hxt (by rw [hh]; exact List.mem_cons_self _ _)
        have hxr : x ∈ rest := by
          rcases List.mem_cons.mp hx with hx | hx
          · exact absurd hx hxn
          · exact hx
        have hxt1 : x ∉ t1 := fun hh => hxt (List.mem_cons_of_mem _ hh)
        rcases hB x hxr hxt1 with hbq | ⟨pre, a, post, hsplit, hres, htr⟩
        · by_cases hc : poll_next h n ≠ poll.ready ∧
              Relation.TransGen (succ_rel (map_find G)) n x
          · exact Or.inr ⟨[], n, t1, rfl, by simpa using hc.1, hc.2⟩
          · left
            unfold blocked at hbq ⊢
            rw [hqo x hxn hc] at hbq
            exact hbq
        · refine Or.inr ⟨n :: pre, a, post, by rw [hsplit]; rfl, ?_, htr⟩
          simpa using hres
      · intro x hx
        rcases hC x hx with hq | ⟨pre, a, post, hsplit, hres, htr⟩
        · by_cases hxn : x = n
          · subst hxn
            rw [hqn] at hq
            exact Or.inr ⟨[], x, t1, rfl, by simpa using Option.some.inj hq, Or.inl rfl⟩
          · by_cases hc : poll_next h n ≠ poll.ready ∧
                Relation.TransGen (succ_rel (map_find G)) n x
            · rw [hqd x hxn hc.1 hc.2] at hq
              have hq1 := Option.some.inj hq
              unfold painted at hq1
              by_cases hpx : map_find p x = some poll.closed
              · exact Or.inl hpx
              · rw [if_neg hpx] at hq1
                exact Or.inr ⟨[], n, t1, rfl, by simpa using hq1, Or.inr hc.2⟩
            · rw [hqo x hxn hc] at hq
              exact Or.inl hq
        · refine Or.inr ⟨n :: pre, a, post, by rw [hsplit]; rfl, ?_, htr⟩
          simpa using hres

/-- The specification of `step` on a consistent acyclic pipeline, with the
origin of the skipped nodes and of the closed poll states. -/
theorem step_origin (s : pipeline) (hw : WF s) (hac : acyclic s) (fuel : Nat)
    (hfuel : s.nodes_.length ≤ fuel) (poll_next : List Int → Int → poll) (h : List Int) :
    ∃ stack p t, stack.Nodup ∧ (∀ x, x ∈ stack ↔ live s x) ∧
      step fuel poll_next h s = .ok { returned := all_sinks_closed p s.nodes_
                                      state := { s with node_polls_ := p }
                                      history := h ++ t } ∧
      scheduled poll_next (edge s) stack [] h p t ∧
      (∀ x, live s x → x ∉ t →
        ∃ pre a post, t = pre ++ a :: post ∧ poll_next (h ++ pre) a ≠ poll.ready ∧
          Relation.TransGen (edge s) a x) ∧
      (∀ x, map_find p x = some poll.closed →
        ∃ pre a post, t = pre ++ a :: post ∧ poll_next (h ++ pre) a = poll.closed ∧
          (x = a ∨ Relation.TransGen (edge s) a x)) := by
  obtain ⟨stack, hts, hnd, hmem, hord⟩ := topological_sort_spec s hw fuel hfuel
  have hlen : stack.length ≤ fuel := by
    have hsub : stack ⊆ map_keys s.nodes_ := by
      intro x hx
      exact (map_contains_iff_mem_keys _ _).1 ((hmem x).1 hx)
    have := (List.subperm_of_subset hnd hsub).length_le
    unfold map_keys at this
    simp only [List.length_map] at this
    omega
  have hN : ∀ x ∈ stack, ∃ nd, map_find s.nodes_ x = some nd :=
    fun x hx => find_of_contains _ _ ((hmem x).1 hx)
  have hG : ∀ x ∈ stack, ∃ tos, map_find s.nodes_to_ x = some tos := by
    intro x hx
    apply find_of_contains
    rw [hw.keys_to]
    exact (hmem x).1 hx
  have hord1 : topologically_ordered (succ_rel (map_find s.nodes_to_)) stack := by
    rw [succ_rel_eq_edge]
    exact hord hac
  obtain ⟨p, t, hl, hsch⟩ := step_loop_spec fuel poll_next s.nodes_ s.nodes_to_ stack [] h
    hord1 hnd hN hG hlen (fun x hx => absurd hx (not_blocked_nil x))
  obtain ⟨hB, hC⟩ := step_loop_origin fuel poll_next s.nodes_ s.nodes_to_ stack [] h p t
    hord1 hnd hN hG hlen hl
  rw [succ_rel_eq_edge] at hsch hB hC
  refine ⟨stack, p, t, hnd, hmem, ?_, hsch, ?_, ?_⟩
  · simp only [step, hts, hl]
  · intro x hx hxt
    rcases hB x ((hmem x).2 hx) hxt with hb | hr
    · exact absurd hb (not_blocked_nil x)
    · exact hr
  · intro x hx
    rcases hC x hx with hb | hr
    · simp [map_find] at hb
    · exact hr

end pipeline
end ppl

namespace ppl
namespace pipeline

open internal

/-! ## Claims on the propagation of poll states and on the ticks -/

set_option maxRecDepth 100000

theorem reachable_skipping : Reachable examples.skipping :=
  (apply_calls_spec _ init Reachable.init (by decide)).1

theorem acyclic_skipping : acyclic examples.skipping :=
  acyclic_of_has_cycle _ reachable_skipping.wf 7 (by decide) (by decide)

theorem live_of_ancestor (s : pipeline) (hw : WF s) (a v : Int)
    (h : Relation.TransGen (edge s) a v) : live s a := by
  obtain ⟨y, hay, _⟩ := Relation.TransGen.head'_iff.1 h
  exact live_of_mem_outgoing_src s hw a y hay

/-- C31: on an acyclic reachable pipeline, for every node `u`, every status and
every poll-state map, `update_poll(outgoing[u], status, ...)` returns when the
fuel exceeds the number of nodes; every node reachable from `u` along one or
more outgoing edges has the status afterwards, or closed when it was closed
before; the state of every other node, `u` among them, is as before. -/
theorem update_poll_paints_closure (s : pipeline) (hs : Reachable s) (hac : acyclic s)
    (fuel : Nat) (hfuel : s.nodes_.length < fuel) (u : Int)
    (status : poll) (p : std_map poll) :
    ∃ p1, update_poll fuel (outgoing s u) status p s.nodes_to_ = .ok p1 ∧
      (∀ x, Relation.TransGen (edge s) u x →
        map_find p1 x =
          some (if map_find p x = some poll.closed then poll.closed else status)) ∧
      (∀ x, ¬ Relation.TransGen (edge s) u x → map_find p1 x = map_find p x) ∧
      ¬ Relation.TransGen (edge s) u u := by
  have hw := hs.wf
  obtain ⟨stack, _, hnd, hmem, hord⟩ := topological_sort_spec s hw fuel (Nat.le_of_lt hfuel)
  have hlen : stack.length < fuel := by
    have hsub : stack ⊆ map_keys s.nodes_ := by
      intro x hx
      exact (map_contains_iff_mem_keys _ _).1 ((hmem x).1 hx)
    have := (List.subperm_of_subset hnd hsub).length_le
    unfold map_keys at this
    simp only [List.length_map] at this
    omega
  have hG : ∀ x ∈ stack, ∃ tos, map_find s.nodes_to_ x = some tos := by
    intro x hx
    apply find_of_contains
    rw [hw.keys_to]
    exact (hmem x).1 hx
  have hord1 : topologically_ordered (succ_rel (map_find s.nodes_to_)) stack := by
    rw [succ_rel_eq_edge]
    exact hord hac
  have hsub : ∀ y ∈ outgoing s u, y ∈ stack := fun y hy => (hmem y).2 (hw.out_live u y hy)
  obtain ⟨p1, h1, h2, h3⟩ := update_poll_spec s.nodes_to_ status fuel stack (outgoing s u) p
    hord1 hG hlen hsub
  rw [succ_rel_eq_edge] at h2 h3
  have hcl : ∀ x, Relation.TransGen (edge s) u x ↔
      ∃ z ∈ outgoing s u, Relation.ReflTransGen (edge s) z x := by
    intro x
    rw [Relation.TransGen.head'_iff]
    constructor
    · rintro ⟨z, huz, hzx⟩
      exact ⟨z, huz, hzx⟩
    · rintro ⟨z, huz, hzx⟩
      exact ⟨z, huz, hzx⟩
  refine ⟨p1, h1, ?_, ?_, hac u⟩
  · intro x hx
    rw [h2 x ((hcl x).1 hx)]
    rfl
  · intro x hx
    exact h3 x (fun hh => hx ((hcl x).2 hh))

/-- C31, on `chain`: propagating empty from the source (id 1) into a map in
which the sink (id 3) is closed makes the component (id 2) empty and leaves the
sink closed and the source without state. -/
theorem update_poll_paints_closure_witness :
    Reachable examples.chain ∧ acyclic examples.chain ∧ live examples.chain 1 ∧
    update_poll 4 (outgoing examples.chain 1) poll.empty [(3, poll.closed)]
      examples.chain.nodes_to_ = .ok [(2, poll.empty), (3, poll.closed)] ∧
    ∃ p1, update_poll 4 (outgoing examples.chain 1) poll.empty [(3, poll.closed)]
        examples.chain.nodes_to_ = .ok p1 ∧
      map_find p1 2 = some poll.empty ∧ map_find p1 3 = some poll.closed := by
  refine ⟨reachable_chain, acyclic_chain, by decide, by decide, ?_⟩
  obtain ⟨p1, h1, h2, _, _⟩ := update_poll_paints_closure examples.chain reachable_chain
    acyclic_chain 4 (by decide) 1 poll.empty [(3, poll.closed)]
  have h12 : Relation.TransGen (edge examples.chain) 1 2 := Relation.TransGen.single (by decide)
  have h23 : edge examples.chain 2 3 := by decide
  exact ⟨p1, h1, h2 2 h12, h2 3 (Relation.TransGen.tail h12 h23)⟩

/-- C32: on an acyclic reachable pipeline `step()` returns and polls no node
twice; a live node is polled exactly when no node from which it is reachable
along one or more outgoing edges was polled and returned empty or closed, and
exactly when every such node was polled and returned ready; so a live node that
no node feeds is polled. -/
theorem step_polls_unblocked (s : pipeline) (hs : Reachable s) (hac : acyclic s)
    (fuel : Nat) (hfuel : s.nodes_.length < fuel) (poll_next : List Int → Int → poll)
    (h : List Int) :
    ∃ r t, step fuel poll_next h s = .ok r ∧ r.history = h ++ t ∧ t.Nodup ∧
      (∀ v, live s v →
        (v ∈ t ↔ ¬ ∃ pre a post, t = pre ++ a :: post ∧
          (poll_next (h ++ pre) a = poll.empty ∨ poll_next (h ++ pre) a = poll.closed) ∧
          Relation.TransGen (edge s) a v)) ∧
      (∀ v, live s v →
        (v ∈ t ↔ ∀ a, Relation.TransGen (edge s) a v →
          ∃ pre post, t = pre ++ a :: post ∧ poll_next (h ++ pre) a = poll.ready)) ∧
      (∀ v, live s v → (∀ u, ¬ edge s u v) → v ∈ t) := by
  have hw := hs.wf
  obtain ⟨stack, p, t, hnd, hmem, hstep, hsch, hB, _⟩ :=
    step_origin s hw hac fuel (Nat.le_of_lt hfuel) poll_next h
  have htnd : t.Nodup := hnd.sublist hsch.sublist
  have hne : ∀ q : poll, q ≠ poll.ready ↔ (q = poll.empty ∨ q = poll.closed) := by
    intro q
    cases q <;> simp
  have hfirst : ∀ v, live s v →
      (v ∈ t ↔ ¬ ∃ pre a post, t = pre ++ a :: post ∧
        (poll_next (h ++ pre) a = poll.empty ∨ poll_next (h ++ pre) a = poll.closed) ∧
        Relation.TransGen (edge s) a v) := by
    intro v hv
    constructor
    · rintro hvt ⟨pre, a, post, hsplit, hres, htr⟩
      exact (hsch.skip_below pre a post hsplit ((hne _).2 hres) v htr).1 hvt
    · intro hno
      by_contra hvt
      obtain ⟨pre, a, post, hsplit, hres, htr⟩ := hB v hv hvt
      exact hno ⟨pre, a, post, hsplit, (hne _).1 hres, htr⟩
  have hsecond : ∀ v, live s v →
      (v ∈ t ↔ ∀ a, Relation.TransGen (edge s) a v →
        ∃ pre post, t = pre ++ a :: post ∧ poll_next (h ++ pre) a = poll.ready) := by
    intro v hv
    constructor
    · intro hvt a hav
      have hat : a ∈ t := by
        by_contra hat
        obtain ⟨pre, b, post, hsplit, hres, htr⟩ := hB a (live_of_ancestor s hw a v hav) hat
        exact (hsch.skip_below pre b post hsplit hres v (htr.trans hav)).1 hvt
      obtain ⟨pre, post, hsplit⟩ := List.append_of_mem hat
      refine ⟨pre, post, hsplit, ?_⟩
      by_contra hres
      exact (hsch.skip_below pre a post hsplit hres v hav).1 hvt
    · intro hall
      rw [hfirst v hv]
      rintro ⟨pre, a, post, hsplit, hres, htr⟩
      obtain ⟨pre1, post1, hsplit1, hready⟩ := hall a htr
      have hpre : pre = pre1 := by
        rw [hsplit] at htnd hsplit1
        exact nodup_split_unique a pre pre1 post post1 htnd hsplit1
      rw [← hpre] at hready
      rw [hready] at hres
      rcases hres with hres | hres <;> cases hres
  refine ⟨_, t, hstep, rfl, htnd, hfirst, hsecond, ?_⟩
  intro v hv hroot
  rw [hsecond v hv]
  intro a hav
  obtain ⟨b, _, hbv⟩ := Relation.TransGen.tail'_iff.1 hav
  exact absurd hbv (hroot b)

/-- C32, on the first tick of the test "all dependent nodes on an empty node are
skipped": the `int` source (id 1) returns empty, the component it feeds (id 3)
is not polled, and the string source (id 2) and its component (id 4) are. -/
theorem step_polls_unblocked_witness :
    Reachable examples.skipping ∧ acyclic examples.skipping ∧
    ∃ r t, step 7 (sequence_oracle examples.skipping_behaviour) [] examples.skipping = .ok r ∧
      r.history = [] ++ t ∧ t.Nodup ∧ 1 ∈ t ∧ 2 ∈ t ∧ t = [2, 4, 1] := by
  refine ⟨reachable_skipping, acyclic_skipping, ?_⟩
  obtain ⟨r, t, hr, ht, hnd, _, _, hroot⟩ := step_polls_unblocked examples.skipping
    reachable_skipping acyclic_skipping 7 (by decide)
    (sequence_oracle examples.skipping_behaviour) []
  have hv : step 7 (sequence_oracle examples.skipping_behaviour) [] examples.skipping =
      .ok { returned := false
            state := { examples.skipping with
              node_polls_ := [(1, poll.empty), (2, poll.ready), (3, poll.empty),
                (4, poll.ready), (5, poll.empty), (6, poll.empty)] }
            history := [2, 4, 1] } := by decide
  have hno : ∀ v, (v = 1 ∨ v = 2) → ∀ u, ¬ edge examples.skipping u v := by
    intro v hv1 u hu
    have := (reachable_skipping.wf.recip u v).1 hu
    obtain ⟨k, hk⟩ := this
    unfold incoming at hk
    rcases hv1 with rfl | rfl
    · have hf : map_find examples.skipping.nodes_from_ 1 = some [] := by decide
      rw [hf] at hk
      cases hk
    · have hf : map_find examples.skipping.nodes_from_ 2 = some [] := by decide
      rw [hf] at hk
      cases hk
  refine ⟨r, t, hr, ht, hnd, hroot 1 (by decide) (hno 1 (Or.inl rfl)),
    hroot 2 (by decide) (hno 2 (Or.inr rfl)), ?_⟩
  rw [hv] at hr
  cases hr
  simpa using ht.symm

/-- C33: on an acyclic reachable pipeline `step()` returns, and returns true
exactly when for every sink some node polled in the call returned closed and is
the sink itself or a node from which the sink is reachable along outgoing
edges; a sink below a node that returned empty and below no node that returned
closed makes it return false. -/
theorem step_true_by_closed_polls (s : pipeline) (hs : Reachable s) (hac : acyclic s)
    (fuel : Nat) (hfuel : s.nodes_.length < fuel) (poll_next : List Int → Int → poll)
    (h : List Int) :
    ∃ r t, step fuel poll_next h s = .ok r ∧ r.history = h ++ t ∧
      (r.returned = true ↔
        ∀ k n, map_find s.nodes_ k = some n → n.is_sink = true →
          ∃ pre a post, t = pre ++ a :: post ∧ poll_next (h ++ pre) a = poll.closed ∧
            (k = a ∨ Relation.TransGen (edge s) a k)) ∧
      (∀ k n, map_find s.nodes_ k = some n → n.is_sink = true →
        (∃ pre a post, t = pre ++ a :: post ∧ poll_next (h ++ pre) a = poll.empty ∧
          Relation.TransGen (edge s) a k) →
        (¬ ∃ pre a post, t = pre ++ a :: post ∧ poll_next (h ++ pre) a = poll.closed ∧
          Relation.TransGen (edge s) a k) →
        r.returned = false) := by
  have hw := hs.wf
  obtain ⟨stack, p, t, hnd, hmem, hstep, hsch, _, hC⟩ :=
    step_origin s hw hac fuel (Nat.le_of_lt hfuel) poll_next h
  have hiff : all_sinks_closed p s.nodes_ = true ↔
      ∀ k n, map_find s.nodes_ k = some n → n.is_sink = true →
        ∃ pre a post, t = pre ++ a :: post ∧ poll_next (h ++ pre) a = poll.closed ∧
          (k = a ∨ Relation.TransGen (edge s) a k) := by
    rw [all_sinks_closed_iff]
    constructor
    · intro hall k n hk hsink
      exact hC k (hall k n (mem_of_map_find _ _ _ hk) hsink)
    · intro hall k n hk hsink
      obtain ⟨pre, a, post, hsplit, hres, hka⟩ :=
        hall k n (map_find_of_mem _ _ _ hw.sorted_nodes hk) hsink
      have := hsch.closed_below pre a post hsplit hres
      rcases hka with hka | hka
      · rw [hka]; exact this.1
      · exact this.2 k hka
  refine ⟨_, t, hstep, rfl, hiff, ?_⟩
  intro k n hk hsink ⟨pre, a, post, hsplit, hres, htr⟩ hno
  have hkt : k ∉ t :=
    (hsch.skip_below pre a post hsplit (by rw [hres]; decide) k htr).1
  cases hret : all_sinks_closed p s.nodes_ with
  | false => rfl
  | true =>
    exfalso
    obtain ⟨pre1, a1, post1, hsplit1, hres1, hka⟩ := hiff.1 hret k n hk hsink
    rcases hka with hka | hka
    · apply hkt
      rw [hka, hsplit1]
      simp
    · exact hno ⟨pre1, a1, post1, hsplit1, hres1, hka⟩

/-- C33, on the first tick of the test "all dependent nodes on an empty node are
skipped": the sink (id 6) lies below the `int` source, which returns empty, no
node returns closed, and `step()` returns false. -/
theorem step_true_by_closed_polls_witness :
    Reachable examples.skipping ∧ acyclic examples.skipping ∧
    ∃ r t, step 7 (sequence_oracle examples.skipping_behaviour) [] examples.skipping = .ok r ∧
      r.history = [] ++ t ∧ t = [2, 4, 1] ∧ r.returned = false := by
  refine ⟨reachable_skipping, acyclic_skipping, ?_⟩
  obtain ⟨r, t, hr, ht, hiff, _⟩ := step_true_by_closed_polls examples.skipping
    reachable_skipping acyclic_skipping 7 (by decide)
    (sequence_oracle examples.skipping_behaviour) []
  have hv : step 7 (sequence_oracle examples.skipping_behaviour) [] examples.skipping =
      .ok { returned := false
            state := { examples.skipping with
              node_polls_ := [(1, poll.empty), (2, poll.ready), (3, poll.empty),
                (4, poll.ready), (5, poll.empty), (6, poll.empty)] }
            history := [2, 4, 1] } := by decide
  have ht1 : t = [2, 4, 1] := by
    rw [hv] at hr
    cases hr
    simpa using ht.symm
  refine ⟨r, t, hr, ht, ht1, ?_⟩
  cases hret : r.returned with
  | false => rfl
  | true =>
    exfalso
    obtain ⟨pre, a, post, hsplit, hres, _⟩ := hiff.1 hret 6
      { input_types_ := [4], output_type_ := 0, is_source := false, is_sink := true }
      (by decide) rfl
    rw [ht1] at hsplit
    have hcases : (pre = [] ∧ a = 2) ∨ (pre = [2] ∧ a = 4) ∨ (pre = [2, 4] ∧ a = 1) := by
      rcases pre with _ | ⟨x, _ | ⟨y, _ | ⟨z, pre⟩⟩⟩
      · simp at hsplit; exact Or.inl ⟨rfl, hsplit.1.symm⟩
      · simp at hsplit; exact Or.inr (Or.inl ⟨by rw [hsplit.1], hsplit.2.1.symm⟩)
      · simp at hsplit
        exact Or.inr (Or.inr ⟨by rw [hsplit.1, hsplit.2.1], hsplit.2.2.1.symm⟩)
      · simp at hsplit
    rcases hcases with ⟨rfl, rfl⟩ | ⟨rfl, rfl⟩ | ⟨rfl, rfl⟩
    · exact absurd hres (by decide)
    · exact absurd hres (by decide)
    · exact absurd hres (by decide)

/-- C34: two states with the same node map and the same outgoing table give,
with the same nodes' answers, the same call of `step()`: the same error or the
same value returned, the same nodes polled in the same order and the same poll
states left, whatever poll states they stored.  On an acyclic reachable state
a node stored as closed is polled when no node above it returns empty or
closed in the call. -/
theorem step_ignores_stored_polls (s s1 : pipeline) (hn : s1.nodes_ = s.nodes_)
    (hto : s1.nodes_to_ = s.nodes_to_) (fuel : Nat) (poll_next : List Int → Int → poll)
    (h : List Int) :
    (step fuel poll_next h s1).map (fun r => (r.returned, r.history, r.state.node_polls_)) =
      (step fuel poll_next h s).map (fun r => (r.returned, r.history, r.state.node_polls_)) ∧
    (Reachable s1 → acyclic s1 → s1.nodes_.length < fuel →
      ∃ r t, step fuel poll_next h s1 = .ok r ∧ r.history = h ++ t ∧
        ∀ v, map_find s1.node_polls_ v = some poll.closed → live s1 v →
          (¬ ∃ pre a post, t = pre ++ a :: post ∧
            (poll_next (h ++ pre) a = poll.empty ∨ poll_next (h ++ pre) a = poll.closed) ∧
            Relation.TransGen (edge s1) a v) →
          v ∈ t) := by
  constructor
  · unfold step
    rw [hn, hto]
    cases topological_sort fuel s.nodes_ s.nodes_to_ with
    | error e => rfl
    | ok stack =>
      simp only
      cases step_loop fuel poll_next s.nodes_ s.nodes_to_ stack [] h with
      | error e => rfl
      | ok r => rfl
  · intro hs1 hac hfuel
    obtain ⟨stack, p, t, _, _, hstep, hsch, hB, _⟩ :=
      step_origin s1 hs1.wf hac fuel (Nat.le_of_lt hfuel) poll_next h
    refine ⟨_, t, hstep, rfl, ?_⟩
    intro v _ hv hno
    by_contra hvt
    obtain ⟨pre, a, post, hsplit, hres, htr⟩ := hB v hv hvt
    apply hno
    refine ⟨pre, a, post, hsplit, ?_, htr⟩
    cases hq : poll_next (h ++ pre) a with
    | ready => exact absurd hq hres
    | empty => exact Or.inl rfl
    | closed => exact Or.inr rfl

/-- C34, on `chain` and on the state the tick with the closing component left,
in which the component (id 2) and the sink (id 3) are stored as closed: with
nodes that return ready both states give the same tick, and the component and
the sink are polled. -/
theorem step_ignores_stored_polls_witness :
    map_find examples.closing_tick.state.node_polls_ 2 = some poll.closed ∧
    step 4 (sequence_oracle examples.chain_behaviour) [] examples.closing_tick.state =
      .ok { returned := false
            state := { examples.chain with
              node_polls_ := [(1, poll.ready), (2, poll.ready), (3, poll.ready)] }
            history := [1, 2, 3] } ∧
    (step 4 (sequence_oracle examples.chain_behaviour) [] examples.closing_tick.state).map
        (fun r => (r.returned, r.history, r.state.node_polls_)) =
      (step 4 (sequence_oracle examples.chain_behaviour) [] examples.chain).map
        (fun r => (r.returned, r.history, r.state.node_polls_)) :=
  ⟨by decide, by decide,
    (step_ignores_stored_polls examples.chain examples.closing_tick.state rfl rfl 4
      (sequence_oracle examples.chain_behaviour) []).1⟩

end pipeline
end ppl

namespace ppl
namespace pipeline

open internal

/-! ## Claims on renumbering and on the slots -/

set_option maxRecDepth 100000

theorem reachable_component_first : Reachable examples.component_first :=
  reachable_connect_int _ _ _ _ (reachable_connect_int _ _ _ _ (reachable_connect_int _ _ _ _
    (Reachable.create_node _ _ (Reachable.create_node _ _ (Reachable.create_node _ _
      (Reachable.create_node _ _ Reachable.init (by decide)) (by decide)) (by decide))
      (by decide))
    (by decide) (by decide)) (by decide) (by decide)) (by decide) (by decide)

theorem renumber_bijective : Function.Bijective examples.renumber := by
  constructor
  · intro a b hab
    unfold examples.renumber at hab
    split_ifs at hab <;> omega
  · intro b
    refine ⟨examples.renumber (examples.renumber b), ?_⟩
    unfold examples.renumber
    split_ifs <;> omega

/-- C35: `single_sink` and `component_first` are reachable and are the same
pipeline up to the bijective renaming `renumber` of the ids, and `is_connected`
and `is_valid()` return false for the first and true for the second. -/
theorem is_connected_depends_on_numbering :
    Reachable examples.single_sink ∧ Reachable examples.component_first ∧
    Function.Bijective examples.renumber ∧
    rename_ids examples.renumber examples.single_sink = examples.component_first ∧
    is_connected 5 examples.single_sink.nodes_ examples.single_sink.nodes_to_
      examples.single_sink.nodes_from_ = .ok false ∧
    is_connected 5 examples.component_first.nodes_ examples.component_first.nodes_to_
      examples.component_first.nodes_from_ = .ok true ∧
    is_valid 5 examples.single_sink = .ok false ∧
    is_valid 5 examples.component_first = .ok true :=
  ⟨reachable_single_sink, reachable_component_first, renumber_bijective,
    by decide, by decide, by decide, by decide, by decide⟩

/-- A filled slot in a consistent pipeline: both ends are live, the slot is the
index of an input type of the consumer, and that type is the output type of the
producer. -/
theorem incoming_typed (s : pipeline) (hw : WF s) (v k u : Int)
    (h : incoming s v k = some u) :
    live s u ∧ live s v ∧ 0 ≤ k ∧ k < (input_types s v).length ∧
      (input_types s v)[k.toNat]? = output_type s u := by
  obtain ⟨hv, hu⟩ := live_of_incoming s hw v k u h
  obtain ⟨h0, _, hty⟩ := hw.slots_ok v k u h
  refine ⟨hu, hv, h0, ?_, hty⟩
  obtain ⟨n, hn⟩ := find_of_contains _ _ hu
  have hsome : (input_types s v)[k.toNat]? = some n.output_type_ := by
    rw [hty]
    simp [output_type, hn]
  have hlt := (List.getElem?_eq_some.1 hsome).1
  omega

/-- C36: in a reachable state a filled slot has a live producer and a live
consumer, is the index of an input type of the consumer, and that type is the
output type of the producer; an id in an outgoing set is live, and so is the
owner of the set; a node without input types has no filled slot. -/
theorem filled_slots_well_formed (s : pipeline) (hs : Reachable s) :
    (∀ v k u, incoming s v k = some u →
      live s u ∧ live s v ∧ 0 ≤ k ∧ k < (input_types s v).length ∧
        (input_types s v)[k.toNat]? = output_type s u) ∧
    (∀ u v, v ∈ outgoing s u → live s u ∧ live s v) ∧
    (∀ v, (input_types s v).length = 0 → ∀ k, incoming s v k = none) := by
  have hw := hs.wf
  refine ⟨fun v k u h => incoming_typed s hw v k u h, ?_, ?_⟩
  · intro u v h
    exact ⟨live_of_mem_outgoing_src s hw u v h, hw.out_live u v h⟩
  · intro v hlen k
    cases hin : incoming s v k with
    | none => rfl
    | some u =>
      exfalso
      obtain ⟨_, _, h0, hlt, _⟩ := incoming_typed s hw v k u hin
      omega

/-- C36, on `single_sink`: slot 1 of the component (id 3) is filled by the string
source (id 2), and the sources have no filled slot. -/
theorem filled_slots_well_formed_witness :
    Reachable examples.single_sink ∧ incoming examples.single_sink 3 1 = some 2 ∧
    (input_types examples.single_sink 3)[(1 : Int).toNat]? = output_type examples.single_sink 2 ∧
    (∀ k, incoming examples.single_sink 1 k = none) :=
  have h := filled_slots_well_formed examples.single_sink reachable_single_sink
  ⟨reachable_single_sink, by decide, (h.1 3 1 2 (by decide)).2.2.2.2,
    h.2.2 1 (by decide)⟩

/-- C37: in a reachable state, for a live node, the number of entries of its
slot table is at most the number of its input types, and equals it exactly when
every slot from 0 up to that number is filled. -/
theorem size_test_iff_all_filled (s : pipeline) (hs : Reachable s) (v : Int)
    (hv : live s v) :
    filled_slots s v ≤ (input_types s v).length ∧
    (filled_slots s v = (input_types s v).length ↔
      ∀ k : Int, 0 ≤ k → k < (input_types s v).length → ∃ u, incoming s v k = some u) := by
  have hw := hs.wf
  obtain ⟨slots, hsl⟩ := find_of_contains _ _ ((hw.keys_from v).trans hv)
  have hsorted := hw.sorted_in v slots hsl
  have hfs : filled_slots s v = (map_keys slots).length := by
    simp [filled_slots, hsl, map_keys]
  have hinc : ∀ k, incoming s v k = map_find slots k := by
    intro k
    simp [incoming, hsl]
  have hkey : ∀ k ∈ map_keys slots, 0 ≤ k ∧ k < (input_types s v).length := by
    intro k hk
    obtain ⟨u, hu⟩ := find_of_contains _ _ ((map_contains_iff_mem_keys slots k).2 hk)
    rw [← hinc] at hu
    obtain ⟨_, _, h0, hlt, _⟩ := incoming_typed s hw v k u hu
    exact ⟨h0, hlt⟩
  have hnd : ((map_keys slots).map Int.toNat).Nodup := by
    have hknd : (map_keys slots).Nodup := hsorted.imp (fun h => ne_of_lt h)
    apply List.Nodup.map_on _ hknd
    intro a ha b hb hab
    have := (hkey a ha).1
    have := (hkey b hb).1
    omega
  have hsub : (map_keys slots).map Int.toNat ⊆ List.range (input_types s v).length := by
    intro j hj
    obtain ⟨k, hk, rfl⟩ := List.mem_map.1 hj
    rw [List.mem_range]
    have := hkey k hk
    omega
  have hsp := List.subperm_of_subset hnd hsub
  have hle := hsp.length_le
  simp only [List.length_map, List.length_range] at hle
  rw [hfs]
  refine ⟨hle, ?_⟩
  constructor
  · intro heq k hk0 hklt
    have hperm := hsp.perm_of_length_le (by simp [heq])
    have hmem : k.toNat ∈ (map_keys slots).map Int.toNat := by
      apply hperm.symm.subset
      rw [List.mem_range]
      omega
    obtain ⟨k1, hk1, hk1eq⟩ := List.mem_map.1 hmem
    have := (hkey k1 hk1).1
    have hkk : k1 = k := by omega
    rw [hkk] at hk1
    rw [hinc]
    exact find_of_contains _ _ ((map_contains_iff_mem_keys slots k).2 hk1)
  · intro hall
    have hsub2 : List.range (input_types s v).length ⊆ (map_keys slots).map Int.toNat := by
      intro j hj
      rw [List.mem_range] at hj
      obtain ⟨u, hu⟩ := hall (j : Int) (by omega) (by omega)
      rw [hinc] at hu
      have := (map_contains_iff_mem_keys slots j).1 (contains_of_find _ _ _ hu)
      exact List.mem_map.2 ⟨(j : Int), this, by simp⟩
    have hle2 := (List.subperm_of_subset (List.nodup_range _) hsub2).length_le
    simp only [List.length_map, List.length_range] at hle2
    omega

/-- C37, on `one_slot`, where only slot 0 of the three slots of the component
(id 2) is filled: the size test fails and slot 1 is empty. -/
theorem size_test_iff_all_filled_witness :
    Reachable examples.one_slot ∧ live examples.one_slot 2 ∧
    filled_slots examples.one_slot 2 = 1 ∧ (input_types examples.one_slot 2).length = 3 ∧
    ¬ (∀ k : Int, 0 ≤ k → k < (input_types examples.one_slot 2).length →
      ∃ u, incoming examples.one_slot 2 k = some u) := by
  have hr : Reachable examples.one_slot :=
    reachable_connect_int _ _ _ _ reachable_same_source_nodes (by decide) (by decide)
  have h := (size_test_iff_all_filled examples.one_slot hr 2 (by decide)).2
  refine ⟨hr, by decide, by decide, by decide, ?_⟩
  intro hall
  have := h.2 hall
  revert this
  decide

end pipeline
end ppl
